import Mathlib

/-!
# Call orchestration of the ksyun provider (`ksyun/utils_ksyun_callback.go`)

A shallow embedding of the sequential runner (`ksyunApiCallNew`,
`ksyunApiCallProcess`, `ApiCall.RightNow`), of the legacy runner
`ksyunApiCall`, of the concurrent runner (`ApiProcess`, `NewApiProcess`,
`PutCalls`, `Run`), of the validation `kcePreinspection` of
`ksyun/resource_ksyun_kce_cluster.go` and of the Call builders of
`ksyun/service_ksyun_alb_rule_group.go`, together with the properties they
satisfy.

Modelling conventions.

* Go pointers are `Option Nat`: `none` is `nil`, `some a` is an address.
* `param *map[string]interface{}` is a pointer to a map variable.  A map
  variable holds a reference to a hash table (or is the nil map); the hash
  tables live in the world, so two variables may share a table.
* Go `func` values are references (`Option Nat`, `none` is `nil`) into a table
  of hook implementations `Hooks`; a hook is a function on the world, so it may
  read and write everything reachable through `d`, `client` and `call.param`.
* `error` is `Option Err`, `none` being `nil`.
* A run produces the list of hook invocations it made (`Event`), which is
  bookkeeping of the model and cannot be seen or changed by hooks.
* Hooks are assumed to return; the runner itself may panic (nil payload in the
  dry-run pass), which is the outcome `Outcome.panicked`.
* The world holds the one client record and resource data that the pointers
  `d` and `client` handed to the runners refer to.  The sequential runners are
  taken with a `client` that is not nil.  A process of the concurrent runner
  stores the two pointers, so there the hooks are a function of the pointers
  they are handed (`HooksAt`), and a nil `client` panics at line 60.
* `Run` is a transition system: its goroutines take one statement at a time in
  an order chosen by a scheduler, a read and a write of the field `a.errors`,
  which two goroutines share, being separate steps; a property of `Run` is a
  property of every state reachable under every schedule.
* A slice is the list of its elements, and `append` gives a new list.
-/

namespace Ksyun

/-- Values stored in a `map[string]interface{}`. -/
inductive Val where
  | bool (b : Bool)
  | str (s : String)
  | int (i : Int)
  | other (tag : Nat)
deriving DecidableEq, Repr

/-- A non-nil Go `error`.  `statusCode = some c` exactly when the dynamic type
implements `awserr.RequestFailure`, with `StatusCode() = c`. -/
structure Err where
  msg : String
  statusCode : Option Int
deriving DecidableEq, Repr

/-- The part of `KsyunClient` read by the runner. -/
structure KsyunClient where
  dryRun : Bool
deriving DecidableEq, Repr

/-- Contents of a Go hash table with string keys. -/
abbrev Table := String → Option Val

/-- The mutable state reachable by the runner and by hooks: map variables
(`vars a = none` is the nil map), hash tables, the client record behind the
`client` pointer, and everything else (`d`, remote state) in `ext`. -/
structure World (σ : Type) where
  vars : Nat → Option Nat
  tables : Nat → Table
  client : KsyunClient
  ext : σ

/-- The struct `ApiCall`. -/
structure ApiCall where
  param : Option Nat
  action : String
  beforeCall : Option Nat
  executeCall : Option Nat
  callError : Option Nat
  afterCall : Option Nat
  disableDryRun : Bool
  process : Int
deriving DecidableEq, Repr

/-- Implementations of the func values, by reference.  The arguments `d` and
`client` are pointers into the world. -/
structure Hooks (σ : Type) where
  beforeCall : Nat → ApiCall → World σ → (Bool × Option Err) × World σ
  executeCall : Nat → ApiCall → World σ → (Option Nat × Option Err) × World σ
  callError : Nat → ApiCall → Err → World σ → Option Err × World σ
  afterCall : Nat → Option Nat → ApiCall → World σ → Option Err × World σ

/-- One hook invocation: the position of the Call in the list and, for
`executeCall`, whether the payload mapped "DryRun" to `true` on entry; for
`callError` the error handed over; for `afterCall` the response pointer. -/
inductive Event where
  | beforeCall (idx : Nat)
  | executeCall (idx : Nat) (marker : Bool)
  | callError (idx : Nat) (baseErr : Err)
  | afterCall (idx : Nat) (resp : Option Nat)
deriving DecidableEq, Repr

/-- Position of the Call an event belongs to. -/
def Event.idx : Event → Nat
  | .beforeCall i => i
  | .executeCall i _ => i
  | .callError i _ => i
  | .afterCall i _ => i

/-- How a run of the runner ends. -/
inductive Outcome where
  | returned (err : Option Err)
  | panicked
deriving DecidableEq, Repr

/-- Result of a run: outcome, final world and the hook invocations made. -/
structure Result (σ : Type) where
  outcome : Outcome
  world : World σ
  trace : List Event

/-- Put the events `tr` in front of the trace of `r`. -/
def Result.prepend {σ : Type} (tr : List Event) (r : Result σ) : Result σ :=
  { r with trace := tr ++ r.trace }

/-- Value of `(*p)[k]`, `none` when absent (or no map). -/
def mapLookup {σ : Type} (w : World σ) (p : Option Nat) (k : String) : Option Val :=
  match p with
  | none => none
  | some a =>
    match w.vars a with
    | none => none
    | some t => w.tables t k

/-- Statement `(*p)[k] = v`; `none` is a panic (nil pointer, or assignment to an
entry of the nil map). -/
def mapAssign {σ : Type} (w : World σ) (p : Option Nat) (k : String) (v : Val) :
    Option (World σ) :=
  match p with
  | none => none
  | some a =>
    match w.vars a with
    | none => none
    | some t =>
      some { w with tables := fun u => if u = t then (fun j => if j = k then some v else w.tables t j)
                                       else w.tables u }

/-- Statement `delete(*p, k)`; `none` is a panic (nil pointer); deleting from
the nil map does nothing. -/
def mapDelete {σ : Type} (w : World σ) (p : Option Nat) (k : String) : Option (World σ) :=
  match p with
  | none => none
  | some a =>
    match w.vars a with
    | none => some w
    | some t =>
      some { w with tables := fun u => if u = t then (fun j => if j = k then none else w.tables t j)
                                       else w.tables u }

/-- Whether the payload maps "DryRun" to `true`. -/
def hasMarker {σ : Type} (w : World σ) (p : Option Nat) : Bool :=
  mapLookup w p "DryRun" == some (Val.bool true)

/-- The test `err.(awserr.RequestFailure)` succeeded and `StatusCode() == 412`
(line 98). -/
def isRequestFailure412 (err : Option Err) : Bool :=
  match err with
  | none => false
  | some e => e.statusCode == some 412

/-- The statement `f.process++`. -/
def bump (f : ApiCall) : ApiCall :=
  { f with process := f.process + 1 }

/-- What one iteration of the loop of `ksyunApiCallProcess` does:
`exit` is a `return err` inside the body (lines 104, 110), `fall` reaches the
check of line 120 with the given `err`, `skip` is the `continue` of line 81. -/
inductive Step (σ : Type) where
  | exit (e : Err) (w : World σ) (tr : List Event)
  | fall (err : Option Err) (w : World σ) (tr : List Event)
  | skip (w : World σ) (tr : List Event)
  | panic (w : World σ) (tr : List Event)

/-- Local variables of an iteration of the real pass. -/
structure Frame (σ : Type) where
  doExecute : Bool
  resp : Option Nat
  err : Option Err
  call : ApiCall
  world : World σ
  trace : List Event

/-- Lines 78 and 84-89 (real pass): `doExecute := true`, then the pre-check. -/
def runBeforeCall {σ : Type} (H : Hooks σ) (i : Nat) (f : ApiCall) (err : Option Err)
    (w : World σ) : Frame σ :=
  match f.beforeCall with
  | none => ⟨true, none, err, f, w, []⟩
  | some b =>
    let r := H.beforeCall b f w
    ⟨r.1.1, none, r.1.2, if r.1.2 = none then bump f else f, r.2, [Event.beforeCall i]⟩

/-- Lines 90-95 (real pass, so the condition is `doExecute`). -/
def runExecuteCall {σ : Type} (H : Hooks σ) (i : Nat) (ex : Nat) (p : Frame σ) : Frame σ :=
  if p.doExecute then
    let r := H.executeCall ex p.call p.world
    { p with resp := r.1.1, err := r.1.2,
             call := if r.1.2 = none then bump p.call else p.call,
             world := r.2,
             trace := p.trace ++ [Event.executeCall i (hasMarker p.world p.call.param)] }
  else p

/-- Lines 102-108 (real pass): a failure is handed to `callError` when that is
set; the resulting `err` is what lines 104 and 110 return when non-nil. -/
def runCallError {σ : Type} (H : Hooks σ) (i : Nat) (p : Frame σ) : Frame σ :=
  match p.err with
  | none => p
  | some e =>
    match p.call.callError with
    | none => p
    | some ce =>
      let r := H.callError ce p.call e p.world
      { p with err := r.1, world := r.2, trace := p.trace ++ [Event.callError i e] }

/-- Lines 112-117 (real pass), reached with `err == nil`. -/
def runAfterCall {σ : Type} (H : Hooks σ) (i : Nat) (p : Frame σ) : Step σ :=
  if p.doExecute then
    match p.call.afterCall with
    | none => Step.fall none p.world p.trace
    | some a =>
      let r := H.afterCall a p.resp p.call p.world
      Step.fall r.1 r.2 (p.trace ++ [Event.afterCall i p.resp])
  else Step.fall none p.world p.trace

/-- Lines 79-83, 90-100 (dry-run pass) for a Call whose `executeCall` is `ex`. -/
def runDryRun {σ : Type} (H : Hooks σ) (i : Nat) (ex : Nat) (f : ApiCall) (w : World σ) :
    Step σ :=
  if f.disableDryRun then Step.skip w []
  else
    match mapAssign w f.param "DryRun" (Val.bool true) with
    | none => Step.panic w []
    | some w1 =>
      let r := H.executeCall ex f w1
      match mapDelete r.2 f.param "DryRun" with
      | none => Step.panic r.2 [Event.executeCall i (hasMarker w1 f.param)]
      | some w3 =>
        Step.fall (if isRequestFailure412 r.1.2 then none else r.1.2) w3
          [Event.executeCall i (hasMarker w1 f.param)]

/-- Body of the loop of `ksyunApiCallProcess` (lines 74-119) for the Call `f` at
position `i`, entered with the named result `err`. -/
def ksyunApiCallStep {σ : Type} (H : Hooks σ) (isDryRun : Bool) (i : Nat) (f : ApiCall)
    (err : Option Err) (w : World σ) : Step σ :=
  match f.executeCall with
  | none => Step.fall err w []
  | some ex =>
    if isDryRun then runDryRun H i ex f w
    else
      let p := runCallError H i (runExecuteCall H i ex (runBeforeCall H i f err w))
      match p.err with
      | some e => Step.exit e p.world p.trace
      | none => runAfterCall H i p

/-- The loop `for _, f := range api` of `ksyunApiCallProcess` (lines 73-125),
from position `i` on, with the current value of the named result `err`. -/
def ksyunApiCallLoop {σ : Type} (H : Hooks σ) (isDryRun : Bool) :
    Nat → List ApiCall → Option Err → World σ → Result σ
  | _, [], err, w => ⟨Outcome.returned err, w, []⟩
  | i, f :: rest, err, w =>
    match ksyunApiCallStep H isDryRun i f err w with
    | Step.exit e w1 tr => ⟨Outcome.returned (some e), w1, tr⟩
    | Step.panic w1 tr => ⟨Outcome.panicked, w1, tr⟩
    | Step.skip w1 tr => (ksyunApiCallLoop H isDryRun (i + 1) rest err w1).prepend tr
    | Step.fall (some e) w1 tr => ⟨Outcome.returned (some e), w1, tr⟩
    | Step.fall none w1 tr => (ksyunApiCallLoop H isDryRun (i + 1) rest none w1).prepend tr

/-- The function `ksyunApiCallProcess` (a nil slice and an empty one behave
alike). -/
def ksyunApiCallProcess {σ : Type} (H : Hooks σ) (api : List ApiCall) (isDryRun : Bool)
    (w : World σ) : Result σ :=
  ksyunApiCallLoop H isDryRun 0 api none w

/-- The function `ksyunApiCallNew` (lines 59-69); `client` is the record in the
world. -/
def ksyunApiCallNew {σ : Type} (H : Hooks σ) (api : List ApiCall) (isDryRun : Bool)
    (w : World σ) : Result σ :=
  if !w.client.dryRun || !isDryRun then ksyunApiCallProcess H api false w
  else
    let dry := ksyunApiCallProcess H api true w
    match dry.outcome with
    | Outcome.returned none => (ksyunApiCallProcess H api false dry.world).prepend dry.trace
    | _ => dry

/-- The method `ApiCall.RightNow`. -/
def RightNow {σ : Type} (H : Hooks σ) (c : ApiCall) (isDryRun : Bool) (w : World σ) :
    Result σ :=
  ksyunApiCallNew H [c] isDryRun w

/-- Events recorded by an iteration. -/
def Step.trace {σ : Type} : Step σ → List Event
  | .exit _ _ tr => tr
  | .fall _ _ tr => tr
  | .skip _ tr => tr
  | .panic _ tr => tr

/-- World left by an iteration. -/
def Step.world {σ : Type} : Step σ → World σ
  | .exit _ w _ => w
  | .fall _ w _ => w
  | .skip w _ => w
  | .panic w _ => w

/-- Position of the Call when the event is an `executeCall` invocation. -/
def Event.execIdx : Event → Option Nat
  | .executeCall i _ => some i
  | _ => none

/-- The hooks that the real pass invokes for the Call `f`, reached in the
world `w`, succeed at that invocation: a pre-check that is set answers
`(true, nil)`; `executeCall`, invoked on the Call and in the world the
pre-check left, returns no error; an `afterCall` that is set, invoked with the
response, the Call and the world `executeCall` left, returns no error.  Of a
Call without `executeCall` no hook is invoked, so nothing is asked. -/
def SucceedsIn {σ : Type} (H : Hooks σ) (f : ApiCall) (w : World σ) : Prop :=
  ∀ ex, f.executeCall = some ex →
    (∀ b, f.beforeCall = some b → (H.beforeCall b f w).1 = (true, none)) ∧
    (H.executeCall ex (runBeforeCall H 0 f none w).call
      (runBeforeCall H 0 f none w).world).1.2 = none ∧
    (∀ a, f.afterCall = some a →
      (H.afterCall a (runExecuteCall H 0 ex (runBeforeCall H 0 f none w)).resp
        (runExecuteCall H 0 ex (runBeforeCall H 0 f none w)).call
        (runExecuteCall H 0 ex (runBeforeCall H 0 f none w)).world).1 = none)

/-- Every hook that the real pass invokes on the list, entered in the world
`w`, succeeds: each Call is taken in the world that the iterations of the
Calls before it have left. -/
def SucceedsFrom {σ : Type} (H : Hooks σ) : List ApiCall → World σ → Prop
  | [], _ => True
  | f :: rest, w =>
    SucceedsIn H f w ∧ SucceedsFrom H rest (ksyunApiCallStep H false 0 f none w).world

/-- A table of hooks over a counter, to run the embedding on concrete Calls:
pre-check 0 answers skip, any other execute; `executeCall` 0 succeeds with a
response and counts, 1 fails, any other fails with status 412; `callError` 0
suppresses, any other escalates; `afterCall` 0 succeeds, any other fails. -/
def demoHooks : Hooks Nat where
  beforeCall := fun b _ w => if b = 0 then ((false, none), w) else ((true, none), w)
  executeCall := fun ex _ w =>
    if ex = 0 then ((some 7, none), { w with ext := w.ext + 1 })
    else if ex = 1 then ((none, some ⟨"boom", none⟩), w)
    else ((none, some ⟨"PreconditionFailed", some 412⟩), w)
  callError := fun ce _ _ w => if ce = 0 then (none, w) else (some ⟨"gave up", none⟩, w)
  afterCall := fun a _ _ w => if a = 0 then (none, w) else (some ⟨"post", none⟩, w)

/-- Hooks over a counter whose results depend on the state: `executeCall` 0
("create") counts and succeeds; `executeCall` 1 ("attach") fails while nothing
has been created and succeeds afterwards; any other `executeCall` ("create
once") counts and succeeds while nothing has been created and fails
afterwards.  The other hooks are those of `demoHooks`. -/
def stateHooks : Hooks Nat where
  beforeCall := demoHooks.beforeCall
  executeCall := fun ex _ w =>
    if ex = 0 then ((some 7, none), { w with ext := w.ext + 1 })
    else if ex = 1 then
      (if w.ext = 0 then ((none, some ⟨"no parent", none⟩), w) else ((some 8, none), w))
    else
      (if w.ext = 0 then ((some 9, none), { w with ext := w.ext + 1 })
       else ((none, some ⟨"exists", none⟩), w))
  callError := demoHooks.callError
  afterCall := demoHooks.afterCall

/-- A world with one payload (variable 0, table 0, holding the key "Name") and
the given `client.dryRun`. -/
def demoWorld (dry : Bool) : World Nat :=
  ⟨fun a => if a = 0 then some 0 else none,
   fun _ k => if k = "Name" then some (Val.str "x") else none, ⟨dry⟩, 0⟩

/-- A Call on the payload at address 0 with the given hooks. -/
def demoCall (before execute onError after : Option Nat) (exempt : Bool) : ApiCall :=
  ⟨some 0, "Demo", before, execute, onError, after, exempt, 0⟩

/-- Positions, counted from `i`, of the Calls a dry-run pass has to validate:
those with `executeCall` set that are not dry-run-exempt. -/
def dryRunTargets : Nat → List ApiCall → List Nat
  | _, [] => []
  | i, f :: rest =>
    if f.executeCall ≠ none ∧ f.disableDryRun = false then i :: dryRunTargets (i + 1) rest
    else dryRunTargets (i + 1) rest

/-- Place of a hook in the contract: pre-check, execute, error recovery,
post-process. -/
def Event.rank : Event → Nat
  | .beforeCall _ => 0
  | .executeCall _ _ => 1
  | .callError _ _ => 2
  | .afterCall _ _ => 3

/-- The invocation `a` belongs to an earlier Call than `b`, or to the same Call
and to an earlier hook of the contract. -/
def Event.precedes (a b : Event) : Prop :=
  a.idx < b.idx ∨ (a.idx = b.idx ∧ a.rank < b.rank)

/-- The events of `tr` come in contract order and all have rank below `n`. -/
def Ranked (n : Nat) (tr : List Event) : Prop :=
  List.Pairwise (fun a b => a.rank < b.rank) tr ∧ ∀ ev ∈ tr, ev.rank < n

/-! ### Validation of the cluster configuration (`resource_ksyun_kce_cluster.go`) -/

/-- Values `d.Get` yields for the keys read by `kcePreinspection`: a string, or
a list of blocks (each block kept as an opaque tag). -/
inductive CfgVal where
  | str (s : String)
  | list (items : List Nat)
deriving DecidableEq, Repr

/-- The two accessors of `schema.ResourceData` used by `kcePreinspection`:
`d.Get(key)` and `d.GetOk(key)`. -/
structure ResourceData where
  get : String → CfgVal
  getOk : String → CfgVal × Bool

/-- The constant `kceManagedModeManaged`. -/
def kceManagedModeManaged : String := "ManagedCluster"

/-- The constant `kceManagedModeDedicated`. -/
def kceManagedModeDedicated : String := "DedicatedCluster"

/-- The value `fmt.Errorf(format, arg)` for a format ending in `%s`. -/
def errorf (text arg : String) : Outcome :=
  Outcome.returned (some ⟨text ++ arg, none⟩)

/-- The function `kcePreinspection` (lines 636-665).  `isEmpty` stands for
`helper.IsEmpty`, of the internal helper package, which is not among the
sources and is taken as a parameter.  The type assertion `.(string)` panics on
a value that is not a string. -/
def kcePreinspection (isEmpty : CfgVal → Bool) (d : ResourceData) : Outcome :=
  match d.get "cluster_manage_mode" with
  | CfgVal.list _ => Outcome.panicked
  | CfgVal.str kceManagedMode =>
    if kceManagedMode = kceManagedModeManaged then
      if isEmpty (d.get "worker_config") then
        errorf "worker_config is required when cluster_manage_mode is " kceManagedMode
      else if (d.getOk "master_config").2 && !isEmpty (d.getOk "master_config").1 then
        errorf "you don't need define master_config when cluster_manage_mode is " kceManagedMode
      else if isEmpty (d.get "managed_cluster_multi_master") then
        errorf "managed_cluster_multi_master is required when cluster_manage_mode is "
          kceManagedMode
      else Outcome.returned none
    else if kceManagedMode = kceManagedModeDedicated then
      if (d.getOk "master_config").2 && isEmpty (d.getOk "master_config").1 then
        errorf "master_config is required when cluster_manage_mode is " kceManagedMode
      else Outcome.returned none
    else Outcome.returned none

/-- A configuration in which `cluster_manage_mode` is `mode`, the lists
`worker_config`, `master_config` and `managed_cluster_multi_master` are as
given (`none` when the key is not set), and `GetOk` reports a key as set when
it holds a non-empty list. -/
def demoConfig (mode : String) (worker master multi : Option (List Nat)) : ResourceData where
  get := fun k =>
    if k = "cluster_manage_mode" then CfgVal.str mode
    else if k = "worker_config" then CfgVal.list (worker.getD [])
    else if k = "master_config" then CfgVal.list (master.getD [])
    else if k = "managed_cluster_multi_master" then CfgVal.list (multi.getD [])
    else CfgVal.list []
  getOk := fun k =>
    if k = "master_config" then (CfgVal.list (master.getD []), decide (master.getD [] ≠ []))
    else (CfgVal.list [], false)

/-- A reading of `helper.IsEmpty` on the values above: the empty string and the
empty list are empty. -/
def demoIsEmpty : CfgVal → Bool
  | CfgVal.str s => s == ""
  | CfgVal.list items => items.isEmpty

/-! ### The concurrent runner (`ApiProcess`) -/

/-- A channel made by `make(chan α, cap)`, with the values buffered in it. -/
structure Chan (α : Type) where
  cap : Nat
  buf : List α
deriving DecidableEq, Repr

/-- The struct `ApiProcess`.  `Ctx`, `d` and `client` are references (`none`
is nil); `wg` is the counter of the wait group behind the pointer; a channel
field is `none` for the nil channel; `errors` is a slice of `error`, so its
elements may be nil. -/
structure ApiProcess where
  ApiProcessQueue : List ApiCall
  DryRun : Bool
  Ctx : Option Nat
  MulNum : Int
  d : Option Nat
  client : Option Nat
  wg : Option Nat
  errCh : Option (Chan (Option Err))
  concurrentCh : Option (Chan Unit)
  earlyStop : Option (Chan Unit)
  errors : List (Option Err)
deriving DecidableEq, Repr

/-- The method `ApiProcess.PutCalls` (lines 132-134). -/
def PutCalls (a : ApiProcess) (candidate : List ApiCall) : ApiProcess :=
  { a with ApiProcessQueue := a.ApiProcessQueue ++ candidate }

/-- The function `NewApiProcess` (lines 151-170). -/
def NewApiProcess (ctx d client : Option Nat) (dryRun : Bool) (goRoutineNum : Int) :
    ApiProcess :=
  let mulNum : Int := if goRoutineNum > 0 then goRoutineNum else 0
  { ApiProcessQueue := []
    d := d
    client := client
    DryRun := dryRun
    Ctx := ctx
    MulNum := mulNum
    errCh := some ⟨mulNum.toNat, []⟩
    concurrentCh := some ⟨mulNum.toNat, []⟩
    wg := some 0
    earlyStop := none
    errors := [] }

/-! ### The runners called with the pointers of a process

A process stores the pointers `d` and `client` and hands them to
`call.RightNow` (line 198).  The hook implementations are therefore taken as a
function of the two pointers they receive, and the dereference of `client` at
line 60 is made explicit: it panics on nil, and otherwise reads the client
record of the world. -/

/-- Hook implementations, given the pointers `d` and `client` they are handed. -/
abbrev HooksAt (σ : Type) := Option Nat → Option Nat → Hooks σ

/-- The call `ksyunApiCallNew(api, d, client, isDryRun)` (lines 59-69) for
given pointers: `client.dryRun` of line 60 panics when `client` is nil. -/
def ksyunApiCallNewAt {σ : Type} (H : HooksAt σ) (api : List ApiCall) (d client : Option Nat)
    (isDryRun : Bool) (w : World σ) : Result σ :=
  match client with
  | none => ⟨Outcome.panicked, w, []⟩
  | some c => ksyunApiCallNew (H d (some c)) api isDryRun w

/-- The call `c.RightNow(d, client, isDryRun)` (lines 128-130) for given
pointers. -/
def RightNowAt {σ : Type} (H : HooksAt σ) (c : ApiCall) (d client : Option Nat)
    (isDryRun : Bool) (w : World σ) : Result σ :=
  ksyunApiCallNewAt H [c] d client isDryRun w

/-! ### `ApiProcess.Run` as a transition system

`Run` starts goroutines, so it is modelled by the steps its goroutines can
take, one at a time, chosen by a scheduler (`Choice`).  Every step is one
statement of lines 172-204, and a statement that reads and writes `a.errors`,
which the goroutine of line 174 and the one running `Run` share without
synchronisation, is two steps: `a.errors = append(a.errors, x)` first
evaluates `append(a.errors, x)` and then assigns, and `return a.errors` reads
the field when it is executed.  A blocked statement (a send on a full channel,
a receive on an empty one, `wg.Wait()` with a positive counter) is a step that
is not enabled.  The contract execution `call.RightNow` of a worker is a single
step on the shared world: hooks are functions on the world, and the Calls
given to the concurrent runner are operations independent of one another, so
the hooks of one contract are taken to run with no hook of another worker in
between.  Workers at the same statement are kept together, in a list or a
count, since they differ by what they carry only.  A slice is the list of its
elements. -/

/-- The error `fmt.Errorf("stop api call early")` of line 184. -/
def stopError : Err := ⟨"stop api call early", none⟩

/-- Where the goroutine that called `Run` stands: at the `select` for the
queue position `k` (line 182, or leaving the loop when the queue is
exhausted), at `wg.Add(1)` (191), at the send on `concurrentCh` (192), at the
`go` statement (193), at `wg.Wait()` (202); at line 184 about to evaluate
`append(a.errors, ...)`, or about to assign the slice `errs` it evaluated to
`a.errors`; at the `return a.errors` of line 185, 187 or 203; or returned from
line 185, 187 or 203 with the given slice. -/
inductive MainPc where
  | select (k : Nat)
  | add (k : Nat)
  | acquire (k : Nat)
  | spawn (k : Nat)
  | wait
  | stopAppend
  | stopAssign (errs : List (Option Err))
  | stopReturn
  | earlyReturn
  | lastReturn
  | stopped (errs : List (Option Err))
  | earlyStopped (errs : List (Option Err))
  | returned (errs : List (Option Err))
deriving DecidableEq, Repr

/-- Where the goroutine of lines 174-178 stands: at the receive of line 175,
at line 176 about to evaluate `append(a.errors, callErr)` for the value it
received, or about to assign the slice `errs` it evaluated to `a.errors`. -/
inductive CollectorPc where
  | receive
  | append (callErr : Option Err)
  | assign (errs : List (Option Err))
deriving DecidableEq, Repr

/-- State of a run of `Run`.  `running`: workers about to execute
`call.RightNow` (line 198), with the queue position of their Call; `sending`:
workers about to send their `callErr` on `errCh` (199); `finishing`: workers
about to call `wg.Done()` (195); `releasing`: workers about to receive from
`concurrentCh` (196).  `collector` is the goroutine of lines 174-178.  `errCh`
and `slots` are the contents of the two channel buffers, `earlyStop` the number
of values ready on that channel (`none` for the nil channel).  `log` records,
for the model only, the contract executions completed so far, in the order of
their completion. -/
structure RunState (σ : Type) where
  main : MainPc
  running : List (Nat × ApiCall)
  sending : List (Option Err)
  finishing : Nat
  releasing : Nat
  collector : CollectorPc
  errCh : List (Option Err)
  slots : Nat
  wg : Nat
  earlyStop : Option Nat
  errors : List (Option Err)
  cancelled : Bool
  crashed : Bool
  world : World σ
  log : List (Nat × Option Err)

/-- What the scheduler lets happen next: a step of the goroutine running `Run`
(taking `default` when at the `select`), the `select` cases `<-a.Ctx.Done()`
and `<-a.earlyStop`, a step of the `j`-th running or sending worker, of a
finishing or releasing worker, of the collector, or the cancellation of the
context by its owner. -/
inductive Choice where
  | main
  | ctxDone
  | earlyStop
  | run (j : Nat)
  | send (j : Nat)
  | done
  | release
  | collect
  | cancel
deriving DecidableEq, Repr

/-- State in which `Run` is entered: the collector of line 174 is started, the
loop is at the first queue position. -/
def runInit {σ : Type} (a : ApiProcess) (w : World σ) (cancelled : Bool) : RunState σ where
  main := MainPc.select 0
  running := []
  sending := []
  finishing := 0
  releasing := 0
  collector := CollectorPc.receive
  errCh := (a.errCh.map (fun ch => ch.buf)).getD []
  slots := (a.concurrentCh.map (fun ch => ch.buf.length)).getD 0
  wg := a.wg.getD 0
  earlyStop := a.earlyStop.map (fun ch => ch.buf.length)
  errors := a.errors
  cancelled := cancelled
  crashed := false
  world := w
  log := []

/-- A step of the goroutine running `Run` (lines 181-203), the `select` taking
its `default` branch.  Calling `Done` on a nil context, or a method of a nil
wait group, panics. -/
def stepMain {σ : Type} (a : ApiProcess) (s : RunState σ) : Option (RunState σ) :=
  match s.main with
  | MainPc.select k =>
    match a.ApiProcessQueue[k]? with
    | none => some { s with main := MainPc.wait }
    | some _ =>
      match a.Ctx with
      | none => some { s with crashed := true }
      | some _ =>
        if s.cancelled then none
        else
          match s.earlyStop with
          | some (_ + 1) => none
          | _ => some { s with main := MainPc.add k }
  | MainPc.add k =>
    match a.wg with
    | none => some { s with crashed := true }
    | some _ => some { s with wg := s.wg + 1, main := MainPc.acquire k }
  | MainPc.acquire k =>
    match a.concurrentCh with
    | none => none
    | some ch =>
      if ch.cap = 0 then
        if 0 < s.releasing then
          some { s with releasing := s.releasing - 1, main := MainPc.spawn k }
        else none
      else if s.slots < ch.cap then
        some { s with slots := s.slots + 1, main := MainPc.spawn k }
      else none
  | MainPc.spawn k =>
    match a.ApiProcessQueue[k]? with
    | none => none
    | some call => some { s with running := s.running ++ [(k, call)], main := MainPc.select (k + 1) }
  | MainPc.wait =>
    match a.wg with
    | none => some { s with crashed := true }
    | some _ => if s.wg = 0 then some { s with main := MainPc.lastReturn } else none
  | MainPc.stopAppend => some { s with main := MainPc.stopAssign (s.errors ++ [some stopError]) }
  | MainPc.stopAssign errs => some { s with errors := errs, main := MainPc.stopReturn }
  | MainPc.stopReturn => some { s with main := MainPc.stopped s.errors }
  | MainPc.earlyReturn => some { s with main := MainPc.earlyStopped s.errors }
  | MainPc.lastReturn => some { s with main := MainPc.returned s.errors }
  | _ => none

/-- The `select` case `<-a.Ctx.Done()` (line 183), enabled once the context is
cancelled; it leads to line 184. -/
def stepCtxDone {σ : Type} (a : ApiProcess) (s : RunState σ) : Option (RunState σ) :=
  match s.main with
  | MainPc.select k =>
    match a.ApiProcessQueue[k]?, a.Ctx with
    | some _, some _ =>
      if s.cancelled then some { s with main := MainPc.stopAppend }
      else none
    | _, _ => none
  | _ => none

/-- The `select` case `<-a.earlyStop` (line 186), enabled when a value is
ready on that channel; it leads to line 187. -/
def stepEarlyStop {σ : Type} (a : ApiProcess) (s : RunState σ) : Option (RunState σ) :=
  match s.main with
  | MainPc.select k =>
    match a.ApiProcessQueue[k]?, a.Ctx, s.earlyStop with
    | some _, some _, some (n + 1) =>
      some { s with earlyStop := some n, main := MainPc.earlyReturn }
    | _, _, _ => none
  | _ => none

/-- Line 198: the `j`-th running worker executes `call.RightNow(a.d, a.client,
a.DryRun)`.  A panic of the contract takes the program down. -/
def stepRun {σ : Type} (H : HooksAt σ) (a : ApiProcess) (j : Nat) (s : RunState σ) :
    Option (RunState σ) :=
  match s.running[j]? with
  | none => none
  | some (k, call) =>
    match (RightNowAt H call a.d a.client a.DryRun s.world).outcome with
    | Outcome.panicked =>
      some { s with world := (RightNowAt H call a.d a.client a.DryRun s.world).world,
                    crashed := true }
    | Outcome.returned callErr =>
      some { s with running := s.running.eraseIdx j, sending := s.sending ++ [callErr],
                    world := (RightNowAt H call a.d a.client a.DryRun s.world).world,
                    log := s.log ++ [(k, callErr)] }

/-- Line 199: the `j`-th sending worker sends its `callErr` on `errCh`: into
the buffer when there is room, or, on an unbuffered channel, straight to the
collector waiting at its receive. -/
def stepSend {σ : Type} (a : ApiProcess) (j : Nat) (s : RunState σ) : Option (RunState σ) :=
  match s.sending[j]?, a.errCh with
  | some callErr, some ch =>
    if ch.cap = 0 then
      match s.collector with
      | CollectorPc.receive =>
        some { s with sending := s.sending.eraseIdx j, collector := CollectorPc.append callErr,
                      finishing := s.finishing + 1 }
      | _ => none
    else if s.errCh.length < ch.cap then
      some { s with sending := s.sending.eraseIdx j, errCh := s.errCh ++ [callErr],
                    finishing := s.finishing + 1 }
    else none
  | _, _ => none

/-- Line 195: a finishing worker calls `a.wg.Done()`, which panics on a
counter that is already zero. -/
def stepDone {σ : Type} (s : RunState σ) : Option (RunState σ) :=
  if 0 < s.finishing then
    if s.wg = 0 then some { s with crashed := true }
    else some { s with finishing := s.finishing - 1, releasing := s.releasing + 1,
                       wg := s.wg - 1 }
  else none

/-- Line 196: a releasing worker receives from `concurrentCh` and ends.  On an
unbuffered channel the receive can only meet the send of line 192, which is
the step of `stepMain`. -/
def stepRelease {σ : Type} (a : ApiProcess) (s : RunState σ) : Option (RunState σ) :=
  match a.concurrentCh with
  | none => none
  | some ch =>
    if ch.cap = 0 then none
    else if 0 < s.releasing ∧ 0 < s.slots then
      some { s with releasing := s.releasing - 1, slots := s.slots - 1 }
    else none

/-- Lines 175-176: the collector receives the next value of `errCh`, or
evaluates `append(a.errors, callErr)` for the value it holds, or assigns the
slice it evaluated to `a.errors`. -/
def stepCollect {σ : Type} (s : RunState σ) : Option (RunState σ) :=
  match s.collector with
  | CollectorPc.receive =>
    match s.errCh with
    | [] => none
    | callErr :: rest => some { s with errCh := rest, collector := CollectorPc.append callErr }
  | CollectorPc.append callErr =>
    some { s with collector := CollectorPc.assign (s.errors ++ [callErr]) }
  | CollectorPc.assign errs => some { s with errors := errs, collector := CollectorPc.receive }

/-- The owner of the context cancels it. -/
def stepCancel {σ : Type} (a : ApiProcess) (s : RunState σ) : Option (RunState σ) :=
  match a.Ctx with
  | none => none
  | some _ => some { s with cancelled := true }

/-- One step of the system; `none` when the chosen step is not enabled.
Nothing moves once the program has panicked. -/
def runStep {σ : Type} (H : HooksAt σ) (a : ApiProcess) (c : Choice) (s : RunState σ) :
    Option (RunState σ) :=
  if s.crashed then none
  else
    match c with
    | Choice.main => stepMain a s
    | Choice.ctxDone => stepCtxDone a s
    | Choice.earlyStop => stepEarlyStop a s
    | Choice.run j => stepRun H a j s
    | Choice.send j => stepSend a j s
    | Choice.done => stepDone s
    | Choice.release => stepRelease a s
    | Choice.collect => stepCollect s
    | Choice.cancel => stepCancel a s

/-- The state after the scheduler has made the choices of `sched` in turn; a
choice that is not enabled leaves the state as it is. -/
def exec {σ : Type} (H : HooksAt σ) (a : ApiProcess) : List Choice → RunState σ → RunState σ
  | [], s => s
  | c :: rest, s => exec H a rest ((runStep H a c s).getD s)

/-- The slice `Run` has returned, if it has. -/
def MainPc.result : MainPc → Option (List (Option Err))
  | MainPc.stopped errs => some errs
  | MainPc.earlyStopped errs => some errs
  | MainPc.returned errs => some errs
  | _ => none

/-- A process as `NewApiProcess` makes it for a limit `n`, with any queue: slot
and error channels of capacity `n` and empty, a fresh wait group, no early-stop
channel, no error collected. -/
def Fresh (a : ApiProcess) (n : Nat) : Prop :=
  a.errCh = some ⟨n, []⟩ ∧ a.concurrentCh = some ⟨n, []⟩ ∧ a.wg = some 0 ∧
    a.earlyStop = none ∧ a.errors = []

/-- One when the goroutine running `Run` holds a slot it has not yet handed to
a worker (it is at the `go` statement). -/
def spawnFlag : MainPc → Nat
  | MainPc.spawn _ => 1
  | _ => 0

/-- One when the goroutine running `Run` has counted, by `wg.Add(1)`, a worker
it has not yet started. -/
def addedFlag : MainPc → Nat
  | MainPc.acquire _ => 1
  | MainPc.spawn _ => 1
  | _ => 0

/-- Number of slots in use: one per worker that has not yet received from
`concurrentCh`, and the one taken for the worker about to be started. -/
def held {σ : Type} (s : RunState σ) : Nat :=
  s.running.length + s.sending.length + s.finishing + s.releasing + spawnFlag s.main

/-- Slot accounting: the slots in use are the values buffered in
`concurrentCh`, never more than its capacity `n`. -/
def SlotsInv {σ : Type} (n : Nat) (s : RunState σ) : Prop :=
  held s = s.slots ∧ s.slots ≤ n

/-- Wait-group accounting: the counter is the number of workers that have not
yet called `Done`, plus the one announced by `Add` and not yet started. -/
def WgInv {σ : Type} (s : RunState σ) : Prop :=
  s.wg = s.running.length + s.sending.length + s.finishing + addedFlag s.main

/-- Dispatch accounting: the workers started so far are those of the queue
positions below the one the loop is at; once `wg.Wait()` has let `Run` pass,
every queued Call has completed its contract. -/
def CountInv {σ : Type} (a : ApiProcess) (s : RunState σ) : Prop :=
  match s.main with
  | MainPc.select k => s.running.length + s.log.length = k ∧ k ≤ a.ApiProcessQueue.length
  | MainPc.add k => s.running.length + s.log.length = k ∧ k < a.ApiProcessQueue.length
  | MainPc.acquire k => s.running.length + s.log.length = k ∧ k < a.ApiProcessQueue.length
  | MainPc.spawn k => s.running.length + s.log.length = k ∧ k < a.ApiProcessQueue.length
  | MainPc.wait => s.running.length + s.log.length = a.ApiProcessQueue.length
  | MainPc.lastReturn => s.running = [] ∧ s.log.length = a.ApiProcessQueue.length
  | MainPc.returned _ => s.running = [] ∧ s.log.length = a.ApiProcessQueue.length
  | _ => s.running.length + s.log.length ≤ a.ApiProcessQueue.length

/-- The early-stop error, once line 184 has put it into a slice. -/
def stopList : MainPc → List (Option Err)
  | MainPc.stopAssign _ => [some stopError]
  | MainPc.stopReturn => [some stopError]
  | MainPc.stopped _ => [some stopError]
  | _ => []

/-- The value the collector has received and not yet put into a slice. -/
def CollectorPc.held : CollectorPc → List (Option Err)
  | CollectorPc.append callErr => [callErr]
  | _ => []

/-- The slice the collector is about to assign to `a.errors`. -/
def CollectorPc.slices : CollectorPc → List (List (Option Err))
  | CollectorPc.assign errs => [errs]
  | _ => []

/-- The slice the goroutine running `Run` is about to assign to `a.errors`, or
has returned. -/
def MainPc.slices : MainPc → List (List (Option Err))
  | MainPc.stopAssign errs => [errs]
  | MainPc.stopped errs => [errs]
  | MainPc.earlyStopped errs => [errs]
  | MainPc.returned errs => [errs]
  | _ => []

/-- The slices of errors in existence: `a.errors`, the slices evaluated and not
yet assigned, and the slice `Run` has returned. -/
def slices {σ : Type} (s : RunState σ) : List (List (Option Err)) :=
  s.errors :: (s.collector.slices ++ s.main.slices)

/-- Value accounting: every slice of errors in existence, together with the
values still under way to the collector (held by it, buffered in `errCh`, held
by sending workers), consists of results of distinct completed contract
executions and, at most once and only after line 184, the early-stop error. -/
def ValsInv {σ : Type} (s : RunState σ) : Prop :=
  ∀ x : Option Err, ∀ l ∈ slices s,
    l.count x + s.collector.held.count x + s.errCh.count x + s.sending.count x ≤
      (s.log.map Prod.snd).count x + (stopList s.main).count x

/-- Identity of the workers: the positions of the running and of the completed
contract executions are, each once, the positions dispatched so far, and a
running worker carries the queued Call of its position. -/
def IdxInv {σ : Type} (a : ApiProcess) (s : RunState σ) : Prop :=
  (∀ x : Nat, (s.running.map Prod.fst).count x + (s.log.map Prod.fst).count x =
      (List.range (s.running.length + s.log.length)).count x) ∧
  (∀ p ∈ s.running, a.ApiProcessQueue[p.1]? = some p.2)

/-- The sequential runner `ksyunApiCallNew` run on the singleton lists of the
queued Calls at the positions `ks`, one run after the other from the world
`w`, with the pointers `d`, `client` and the flag `DryRun` of the process: the
position and result of each run, and the world the last one leaves.  `none`
when a position is not in the queue or a run panics. -/
def runSingletons {σ : Type} (H : HooksAt σ) (a : ApiProcess) :
    List Nat → World σ → Option (List (Nat × Option Err) × World σ)
  | [], w => some ([], w)
  | k :: ks, w =>
    match a.ApiProcessQueue[k]? with
    | none => none
    | some call =>
      match (ksyunApiCallNewAt H [call] a.d a.client a.DryRun w).outcome with
      | Outcome.panicked => none
      | Outcome.returned e =>
        (runSingletons H a ks (ksyunApiCallNewAt H [call] a.d a.client a.DryRun w).world).map
          (fun r => ((k, e) :: r.1, r.2))

/-- The contract executions completed by the workers are runs of the
sequential runner on singleton lists, one after the other from the world `w0`
in which `Run` was entered, and they leave the current world (unless the
program has panicked). -/
def ChainInv {σ : Type} (H : HooksAt σ) (a : ApiProcess) (w0 : World σ) (s : RunState σ) :
    Prop :=
  ∃ w1, runSingletons H a (s.log.map Prod.fst) w0 = some (s.log, w1) ∧
    (s.crashed = false → s.world = w1)

/-- The invariant of a run of `Run`, entered in the world `w0`, on a process
made by `NewApiProcess` with limit `n`. -/
def RunInv {σ : Type} (H : HooksAt σ) (a : ApiProcess) (n : Nat) (w0 : World σ)
    (s : RunState σ) : Prop :=
  SlotsInv n s ∧ WgInv s ∧ CountInv a s ∧ ValsInv s ∧ IdxInv a s ∧ ChainInv H a w0 s ∧
    s.earlyStop = none

/-- What holds of lines 183-187: `Run` is at or past line 184 only with the
context cancelled; a slice it is about to assign at line 184 ends with the
early-stop error; it is never at or past line 187. -/
def StopInv {σ : Type} (s : RunState σ) : Prop :=
  (s.main = MainPc.stopAppend ∨ (∃ errs, s.main = MainPc.stopAssign errs) ∨
    s.main = MainPc.stopReturn ∨ (∃ errs, s.main = MainPc.stopped errs) →
      s.cancelled = true) ∧
  (∀ errs, s.main = MainPc.stopAssign errs → errs.getLast? = some (some stopError)) ∧
  s.main ≠ MainPc.earlyReturn ∧ (∀ errs, s.main ≠ MainPc.earlyStopped errs)

/-- Steps left to the goroutine running `Run`, for a queue of `m` Calls,
counting for each Call still to dispatch the steps of its worker too. -/
def MainPc.weight (m : Nat) : MainPc → Nat
  | MainPc.select k => 12 * (m - k) + 5
  | MainPc.add k => 12 * (m - k) + 4
  | MainPc.acquire k => 12 * (m - k) + 3
  | MainPc.spawn k => 12 * (m - k) + 2
  | MainPc.wait => 2
  | MainPc.stopAppend => 3
  | MainPc.stopAssign _ => 2
  | MainPc.stopReturn => 1
  | MainPc.earlyReturn => 1
  | MainPc.lastReturn => 1
  | _ => 0

/-- Steps left to the collector for the value it holds. -/
def CollectorPc.weight : CollectorPc → Nat
  | CollectorPc.receive => 0
  | CollectorPc.append _ => 2
  | CollectorPc.assign _ => 1

/-- A bound on the number of steps the goroutines of `Run` can still take:
every step other than the cancellation of the context makes it smaller. -/
def remaining {σ : Type} (a : ApiProcess) (s : RunState σ) : Nat :=
  s.main.weight a.ApiProcessQueue.length + 8 * s.running.length + 7 * s.sending.length +
    2 * s.finishing + s.releasing + 3 * s.errCh.length + s.collector.weight

/-- Every choice of the schedule is enabled when its turn comes: the schedule
is a run of `Run` from the state `s`, step by step. -/
def Effective {σ : Type} (H : HooksAt σ) (a : ApiProcess) : List Choice → RunState σ → Prop
  | [], _ => True
  | c :: rest, s => ∃ t, runStep H a c s = some t ∧ Effective H a rest t

/-- The goroutine running `Run` is at line 184 or 185, or has returned from
line 185. -/
def MainPc.stopping : MainPc → Bool
  | MainPc.stopAppend => true
  | MainPc.stopAssign _ => true
  | MainPc.stopReturn => true
  | MainPc.stopped _ => true
  | _ => false

/-- The state right after the `select` has taken the case `<-a.Ctx.Done()`:
the goroutine running `Run` is at line 184; nothing else changes. -/
def stopNow {σ : Type} (s : RunState σ) : RunState σ :=
  { s with main := MainPc.stopAppend }

/-- The hooks of `demoHooks`, whatever the pointers. -/
def demoHooksAt : HooksAt Nat := fun _ _ => demoHooks

/-- A process made by `NewApiProcess` with a context, resource data, a client,
no dry run and the given limit, filled with `calls`. -/
def demoProcess (limit : Int) (calls : List ApiCall) : ApiProcess :=
  PutCalls (NewApiProcess (some 0) (some 1) (some 2) false limit) calls

/-- A schedule for a queue of two Calls and a limit of at least 1: the first
Call is dispatched and completes, the collector receives its result and
evaluates `append(a.errors, callErr)`; the context is cancelled, so the
`select` for the second Call takes the case `<-a.Ctx.Done()`, and line 184 is
executed; then the collector assigns the slice it had evaluated, and line 185
returns `a.errors`. -/
def raceSched : List Choice :=
  [Choice.main, Choice.main, Choice.main, Choice.main, Choice.run 0, Choice.send 0,
    Choice.collect, Choice.collect, Choice.cancel, Choice.ctxDone, Choice.main, Choice.main,
    Choice.collect, Choice.main]

/-- The schedule that takes one queued Call through `Run` on its own: the
loop dispatches it, its worker executes the contract, sends the result, ends,
and the collector receives the result and appends it. -/
def roundSched : List Choice :=
  [Choice.main, Choice.main, Choice.main, Choice.main, Choice.run 0, Choice.send 0,
    Choice.done, Choice.release, Choice.collect, Choice.collect, Choice.collect]

/-- The schedule that takes `m` queued Calls through `Run` one after the
other, then leaves the loop, passes `wg.Wait()` and returns. -/
def sequentialSched : Nat → List Choice
  | 0 => [Choice.main, Choice.main, Choice.main]
  | m + 1 => roundSched ++ sequentialSched m

/-- A table of hooks like `demoHooks` whose pre-checks return an error: 0
answers skip, any other execute. -/
def errHooks : Hooks Nat where
  beforeCall := fun b _ w =>
    if b = 0 then ((false, some ⟨"pre", none⟩), w) else ((true, some ⟨"pre", none⟩), w)
  executeCall := demoHooks.executeCall
  callError := demoHooks.callError
  afterCall := demoHooks.afterCall

/-! ### The legacy runner `ksyunApiCall` -/

/-- Implementations of the `ksyunApiCallFunc` values, by reference; the
arguments `d` and `meta` are pointers into the world. -/
abbrev LegacyFuncs (σ : Type) := Nat → World σ → Option Err × World σ

/-- Result of `ksyunApiCall`: the error returned, the final world, and the
positions of the functions invoked, in order. -/
structure LegacyResult (σ : Type) where
  err : Option Err
  world : World σ
  calls : List Nat

/-- The loop `for _, f := range api` of `ksyunApiCall` (lines 47-54) from
position `i` on, with the current value of the named result `err`; a nil entry
is `none`. -/
def ksyunApiCallFrom {σ : Type} (F : LegacyFuncs σ) :
    Nat → List (Option Nat) → Option Err → World σ → LegacyResult σ
  | _, [], err, w => ⟨err, w, []⟩
  | i, none :: rest, err, w => ksyunApiCallFrom F (i + 1) rest err w
  | i, some f :: rest, _, w =>
    match (F f w).1 with
    | some e => ⟨some e, (F f w).2, [i]⟩
    | none =>
      { ksyunApiCallFrom F (i + 1) rest none (F f w).2 with
        calls := i :: (ksyunApiCallFrom F (i + 1) rest none (F f w).2).calls }

/-- The function `ksyunApiCall` (lines 45-57); a nil slice and an empty one
behave alike. -/
def ksyunApiCall {σ : Type} (F : LegacyFuncs σ) (api : List (Option Nat)) (w : World σ) :
    LegacyResult σ :=
  ksyunApiCallFrom F 0 api none w

/-- Every function of the list that is not nil returns no error when the
entries are invoked in turn from the world `w`, each in the world left by the
ones before it. -/
def legacySucceeds {σ : Type} (F : LegacyFuncs σ) : List (Option Nat) → World σ → Prop
  | [], _ => True
  | none :: rest, w => legacySucceeds F rest w
  | some f :: rest, w => (F f w).1 = none ∧ legacySucceeds F rest (F f w).2

/-- The world left when the functions of the list that are not nil have been
invoked in turn from the world `w`. -/
def legacyWorld {σ : Type} (F : LegacyFuncs σ) : List (Option Nat) → World σ → World σ
  | [], w => w
  | none :: rest, w => legacyWorld F rest w
  | some f :: rest, w => legacyWorld F rest (F f w).2

/-- Positions, counted from `i`, of the entries that are not nil. -/
def nonNilPositions : Nat → List (Option Nat) → List Nat
  | _, [] => []
  | i, none :: rest => nonNilPositions (i + 1) rest
  | i, some _ :: rest => i :: nonNilPositions (i + 1) rest

/-- Legacy functions over a counter: function 0 counts and succeeds, function 1
fails while nothing has been counted and succeeds afterwards, any other
fails. -/
def demoFuncs : LegacyFuncs Nat :=
  fun f w =>
    if f = 0 then (none, { w with ext := w.ext + 1 })
    else if f = 1 then (if w.ext = 0 then (some ⟨"not ready", none⟩, w) else (none, w))
    else (some ⟨"legacy", none⟩, w)

/-! ### Building the Calls of the ALB rule group (`service_ksyun_alb_rule_group.go`)

`SdkRequestAutoMapping` is not among the sources; what it returns, a request
map (`none` is the nil map) and an error, is an argument of the functions
below. -/

/-- The zero value of the struct `ApiCall`. -/
def zeroCall : ApiCall := ⟨none, "", none, none, none, none, false, 0⟩

/-- An element of the list under "AlbRuleSet": a map, of which the values
under "alb_rule_type" and "alb_rule_value" matter (`none` is nil), or a value
that is not a map. -/
inductive ReqItem where
  | map (ruleType ruleValue : Option Val)
  | other
deriving DecidableEq, Repr

/-- A value of the request map built for `CreateAlbRuleGroup`: a plain value,
a `[]interface{}`, or the `[]map[string]interface{}` written at line 34, each
map given by its "AlbRuleType" and "AlbRuleValue". -/
inductive ReqVal where
  | plain (v : Val)
  | list (items : List ReqItem)
  | ruleSet (rules : List (Option Val × Option Val))
deriving DecidableEq, Repr

/-- The loop of lines 27-33: every `item.(map[string]interface{})` must
succeed; `none` is the panic of a failed type assertion. -/
def collectRules : List ReqItem → Option (List (Option Val × Option Val))
  | [] => some []
  | ReqItem.map t v :: rest => (collectRules rest).map (fun l => (t, v) :: l)
  | ReqItem.other :: _ => none

/-- What `createRuleGroupCall` returns: the Call, the error, and the request
map behind `callback.param` as the function left it. -/
structure BuiltCall where
  callback : ApiCall
  err : Option Err
  req : List (String × ReqVal)
deriving DecidableEq, Repr

/-- The method `createRuleGroupCall` (lines 15-58), given the outcome `mapping`
of `SdkRequestAutoMapping`, the address `addr` of the variable `req`, and the
references of the two closures.  `none` is a panic: the type assertion
`req["AlbRuleSet"].([]interface{})` of line 27 on a value that is not such a
list (nil when the key is absent or the map is nil), or an item that is not a
map. -/
def createRuleGroupCall (mapping : Option (List (String × ReqVal)) × Option Err)
    (addr executeRef afterRef : Nat) : Option BuiltCall :=
  match mapping.1.bind (fun m => m.lookup "AlbRuleSet") with
  | some (ReqVal.list items) =>
    match collectRules items, mapping.1 with
    | some albRuleSet, some m =>
      let req := ("AlbRuleSet", ReqVal.ruleSet albRuleSet) :: m.filter (fun p => p.1 ≠ "AlbRuleSet")
      match mapping.2 with
      | some e => some ⟨zeroCall, some e, req⟩
      | none =>
        some ⟨⟨some addr, "CreateAlbRuleGroup", none, some executeRef, none, some afterRef,
          false, 0⟩, none, req⟩
    | _, _ => none
  | _ => none

/-- The method `modifyRuleGroupCall` (lines 209-236), given the outcome
`mapping` of `SdkRequestAutoMapping` (a map of plain values), the value `id` of
`d.Id()`, the address `addr` of the variable `req`, the reference `tbl` of its
hash table, and the references of the two closures.  When a Call is built, the
world holds the request map, with "AlbRuleGroupId" set, behind `addr`. -/
def modifyRuleGroupCall {σ : Type} (mapping : Option (List (String × Val)) × Option Err)
    (id : String) (addr tbl executeRef afterRef : Nat) (w : World σ) :
    (ApiCall × Option Err) × World σ :=
  match mapping.2 with
  | some e => ((zeroCall, some e), w)
  | none =>
    match mapping.1 with
    | none => ((zeroCall, none), w)
    | some m =>
      if 0 < m.length then
        ((⟨some addr, "ModifyAlbRuleGroup", none, some executeRef, none, some afterRef, false,
            0⟩, none),
          { w with
            vars := fun a => if a = addr then some tbl else w.vars a
            tables := fun t =>
              if t = tbl then
                (fun k => if k = "AlbRuleGroupId" then some (Val.str id) else m.lookup k)
              else w.tables t })
      else ((zeroCall, none), w)

/-- The method `ModifyRuleGroup` (lines 237-249). -/
def ModifyRuleGroup {σ : Type} (H : Hooks σ)
    (mapping : Option (List (String × Val)) × Option Err)
    (id : String) (addr tbl executeRef afterRef : Nat) (w : World σ) : Result σ :=
  match (modifyRuleGroupCall mapping id addr tbl executeRef afterRef w).1.2 with
  | some e =>
    ⟨Outcome.returned (some e),
      (modifyRuleGroupCall mapping id addr tbl executeRef afterRef w).2, []⟩
  | none =>
    ksyunApiCallNew H [(modifyRuleGroupCall mapping id addr tbl executeRef afterRef w).1.1] true
      (modifyRuleGroupCall mapping id addr tbl executeRef afterRef w).2

/-- The list without the Calls that have no `executeCall`. -/
def withExecute (api : List ApiCall) : List ApiCall :=
  api.filter (fun f => f.executeCall.isSome)

/-- Positions, counted from `i`, of the Calls that have `executeCall` set. -/
def executePositions : Nat → List ApiCall → List Nat
  | _, [] => []
  | i, f :: rest =>
    if f.executeCall.isSome then i :: executePositions (i + 1) rest
    else executePositions (i + 1) rest

/-- The event with its position renumbered by `g`. -/
def Event.reindex (g : Nat → Nat) : Event → Event
  | Event.beforeCall i => Event.beforeCall (g i)
  | Event.executeCall i m => Event.executeCall (g i) m
  | Event.callError i e => Event.callError (g i) e
  | Event.afterCall i r => Event.afterCall (g i) r

/-- The iteration with the positions of its events renumbered by `g`. -/
def Step.reindex {σ : Type} (g : Nat → Nat) : Step σ → Step σ
  | Step.exit e w tr => Step.exit e w (tr.map (Event.reindex g))
  | Step.fall err w tr => Step.fall err w (tr.map (Event.reindex g))
  | Step.skip w tr => Step.skip w (tr.map (Event.reindex g))
  | Step.panic w tr => Step.panic w (tr.map (Event.reindex g))

/-- The frame with the positions of its events renumbered by `g`. -/
def Frame.reindex {σ : Type} (g : Nat → Nat) (p : Frame σ) : Frame σ :=
  { p with trace := p.trace.map (Event.reindex g) }

/-! ## Basic facts about the embedding -/

@[simp] theorem bump_beforeCall (f : ApiCall) : (bump f).beforeCall = f.beforeCall := rfl
@[simp] theorem bump_executeCall (f : ApiCall) : (bump f).executeCall = f.executeCall := rfl
@[simp] theorem bump_callError (f : ApiCall) : (bump f).callError = f.callError := rfl
@[simp] theorem bump_afterCall (f : ApiCall) : (bump f).afterCall = f.afterCall := rfl
@[simp] theorem bump_param (f : ApiCall) : (bump f).param = f.param := rfl

@[simp] theorem ite_bump_callError (c : Prop) [Decidable c] (f : ApiCall) :
    (if c then bump f else f).callError = f.callError := by
  split <;> rfl

@[simp] theorem ite_bump_afterCall (c : Prop) [Decidable c] (f : ApiCall) :
    (if c then bump f else f).afterCall = f.afterCall := by
  split <;> rfl

@[simp] theorem ite_bump_param (c : Prop) [Decidable c] (f : ApiCall) :
    (if c then bump f else f).param = f.param := by
  split <;> rfl

@[simp] theorem prepend_outcome {σ : Type} (tr : List Event) (r : Result σ) :
    (r.prepend tr).outcome = r.outcome := rfl

@[simp] theorem prepend_world {σ : Type} (tr : List Event) (r : Result σ) :
    (r.prepend tr).world = r.world := rfl

@[simp] theorem prepend_trace {σ : Type} (tr : List Event) (r : Result σ) :
    (r.prepend tr).trace = tr ++ r.trace := rfl

theorem loop_nil {σ : Type} (H : Hooks σ) (d : Bool) (i : Nat) (err : Option Err)
    (w : World σ) :
    ksyunApiCallLoop H d i [] err w = ⟨Outcome.returned err, w, []⟩ := rfl

theorem loop_cons {σ : Type} (H : Hooks σ) (d : Bool) (i : Nat) (f : ApiCall)
    (rest : List ApiCall) (err : Option Err) (w : World σ) :
    ksyunApiCallLoop H d i (f :: rest) err w =
      match ksyunApiCallStep H d i f err w with
      | Step.exit e w1 tr => ⟨Outcome.returned (some e), w1, tr⟩
      | Step.panic w1 tr => ⟨Outcome.panicked, w1, tr⟩
      | Step.skip w1 tr => (ksyunApiCallLoop H d (i + 1) rest err w1).prepend tr
      | Step.fall (some e) w1 tr => ⟨Outcome.returned (some e), w1, tr⟩
      | Step.fall none w1 tr => (ksyunApiCallLoop H d (i + 1) rest none w1).prepend tr := rfl

/-- The frames of the real pass keep the hooks of the Call. -/
theorem runBeforeCall_call {σ : Type} (H : Hooks σ) (i : Nat) (f : ApiCall) (err : Option Err)
    (w : World σ) :
    (runBeforeCall H i f err w).call.callError = f.callError ∧
    (runBeforeCall H i f err w).call.afterCall = f.afterCall ∧
    (runBeforeCall H i f err w).call.param = f.param := by
  unfold runBeforeCall
  cases f.beforeCall <;> simp

theorem runExecuteCall_call {σ : Type} (H : Hooks σ) (i ex : Nat) (p : Frame σ) :
    (runExecuteCall H i ex p).call.callError = p.call.callError ∧
    (runExecuteCall H i ex p).call.afterCall = p.call.afterCall ∧
    (runExecuteCall H i ex p).doExecute = p.doExecute := by
  unfold runExecuteCall
  split <;> simp

theorem runCallError_call {σ : Type} (H : Hooks σ) (i : Nat) (p : Frame σ) :
    (runCallError H i p).call = p.call ∧
    (runCallError H i p).doExecute = p.doExecute ∧
    (runCallError H i p).resp = p.resp := by
  unfold runCallError
  cases p.err with
  | none => simp
  | some e => cases p.call.callError <;> simp

/-! ## Events of an iteration belong to its Call -/

theorem runBeforeCall_idx {σ : Type} (H : Hooks σ) (i : Nat) (f : ApiCall) (err : Option Err)
    (w : World σ) : ∀ ev ∈ (runBeforeCall H i f err w).trace, ev = Event.beforeCall i := by
  unfold runBeforeCall
  cases f.beforeCall <;> simp

theorem runExecuteCall_idx {σ : Type} (H : Hooks σ) (i ex : Nat) (p : Frame σ)
    (hp : ∀ ev ∈ p.trace, ev.idx = i) :
    ∀ ev ∈ (runExecuteCall H i ex p).trace, ev.idx = i := by
  unfold runExecuteCall
  split
  · intro ev hev
    simp only [List.mem_append, List.mem_singleton] at hev
    rcases hev with h | h
    · exact hp ev h
    · rw [h]; rfl
  · exact hp

theorem runCallError_idx {σ : Type} (H : Hooks σ) (i : Nat) (p : Frame σ)
    (hp : ∀ ev ∈ p.trace, ev.idx = i) :
    ∀ ev ∈ (runCallError H i p).trace, ev.idx = i := by
  unfold runCallError
  split
  · exact hp
  · split
    · exact hp
    · intro ev hev
      simp only [List.mem_append, List.mem_singleton] at hev
      rcases hev with h | h
      · exact hp ev h
      · rw [h]; rfl

theorem runAfterCall_idx {σ : Type} (H : Hooks σ) (i : Nat) (p : Frame σ)
    (hp : ∀ ev ∈ p.trace, ev.idx = i) :
    ∀ ev ∈ (runAfterCall H i p).trace, ev.idx = i := by
  unfold runAfterCall
  split
  · split
    · exact hp
    · intro ev hev
      simp only [Step.trace, List.mem_append, List.mem_singleton] at hev
      rcases hev with h | h
      · exact hp ev h
      · rw [h]; rfl
  · exact hp

theorem runDryRun_idx {σ : Type} (H : Hooks σ) (i ex : Nat) (f : ApiCall) (w : World σ) :
    ∀ ev ∈ (runDryRun H i ex f w).trace, ev.idx = i := by
  unfold runDryRun
  split
  · simp [Step.trace]
  · split
    · simp [Step.trace]
    · simp only []
      split <;> simp [Step.trace, Event.idx]

/-- Every event of the iteration for position `i` carries position `i`. -/
theorem step_trace_idx {σ : Type} (H : Hooks σ) (d : Bool) (i : Nat) (f : ApiCall)
    (err : Option Err) (w : World σ) :
    ∀ ev ∈ (ksyunApiCallStep H d i f err w).trace, ev.idx = i := by
  unfold ksyunApiCallStep
  cases hx : f.executeCall with
  | none => simp [Step.trace]
  | some ex =>
    cases d with
    | true => exact runDryRun_idx H i ex f w
    | false =>
      have h3 := runCallError_idx H i (runExecuteCall H i ex (runBeforeCall H i f err w))
        (runExecuteCall_idx H i ex (runBeforeCall H i f err w) (fun ev hev => by
          rw [runBeforeCall_idx H i f err w ev hev]; rfl))
      simp only [Bool.false_eq_true, if_false]
      split
      · exact h3
      · exact runAfterCall_idx H i _ h3

/-- Trace of the loop in terms of the iteration for the head. -/
theorem loop_cons_trace {σ : Type} (H : Hooks σ) (d : Bool) (i : Nat) (f : ApiCall)
    (rest : List ApiCall) (err : Option Err) (w : World σ) :
    (ksyunApiCallLoop H d i (f :: rest) err w).trace = (ksyunApiCallStep H d i f err w).trace ∨
    ∃ err1 w1, (ksyunApiCallLoop H d i (f :: rest) err w).trace =
      (ksyunApiCallStep H d i f err w).trace ++ (ksyunApiCallLoop H d (i + 1) rest err1 w1).trace := by
  rw [loop_cons]
  cases hstep : ksyunApiCallStep H d i f err w with
  | exit e w1 tr => left; rfl
  | panic w1 tr => left; rfl
  | skip w1 tr => right; exact ⟨err, w1, rfl⟩
  | fall e1 w1 tr =>
    cases e1 with
    | none => right; exact ⟨none, w1, rfl⟩
    | some e => left; rfl

/-- The loop started at position `i` only records events of positions from `i`
on. -/
theorem loop_trace_idx {σ : Type} (H : Hooks σ) (d : Bool) (api : List ApiCall) :
    ∀ (i : Nat) (err : Option Err) (w : World σ),
      ∀ ev ∈ (ksyunApiCallLoop H d i api err w).trace, i ≤ ev.idx := by
  induction api with
  | nil => intro i err w ev hev; simp [loop_nil] at hev
  | cons f rest ih =>
    intro i err w ev hev
    rcases loop_cons_trace H d i f rest err w with h | ⟨err1, w1, h⟩
    · rw [h] at hev
      exact le_of_eq (step_trace_idx H d i f err w ev hev).symm
    · rw [h, List.mem_append] at hev
      rcases hev with h1 | h1
      · exact le_of_eq (step_trace_idx H d i f err w ev h1).symm
      · exact Nat.le_of_succ_le (ih (i + 1) err1 w1 ev h1)

/-- Hooks are invoked Call after Call: positions never decrease along the
trace of the loop. -/
theorem loop_trace_ordered {σ : Type} (H : Hooks σ) (d : Bool) (api : List ApiCall) :
    ∀ (i : Nat) (err : Option Err) (w : World σ),
      List.Pairwise (fun a b => a.idx ≤ b.idx) (ksyunApiCallLoop H d i api err w).trace := by
  induction api with
  | nil => intro i err w; simp [loop_nil]
  | cons f rest ih =>
    intro i err w
    have hstep : List.Pairwise (fun a b => a.idx ≤ b.idx)
        (ksyunApiCallStep H d i f err w).trace := by
      rw [List.pairwise_iff_forall_sublist]
      intro a b hab
      have ha := step_trace_idx H d i f err w a (hab.subset (by simp))
      have hb := step_trace_idx H d i f err w b (hab.subset (by simp))
      omega
    rcases loop_cons_trace H d i f rest err w with h | ⟨err1, w1, h⟩
    · rw [h]; exact hstep
    · rw [h, List.pairwise_append]
      refine ⟨hstep, ih (i + 1) err1 w1, ?_⟩
      intro a ha b hb
      have h1 := step_trace_idx H d i f err w a ha
      have h2 := loop_trace_idx H d rest (i + 1) err1 w1 b hb
      omega

/-! ## Sequential success -/

/-- A Call whose hooks succeed where the real pass invokes them makes the
iteration fall through with no error, in the world recorded for it, having
invoked `executeCall` once when it is set. -/
theorem step_success {σ : Type} (H : Hooks σ) (i : Nat) (f : ApiCall) (w : World σ)
    (hs : SucceedsIn H f w) :
    ∃ tr, ksyunApiCallStep H false i f none w =
        Step.fall none (ksyunApiCallStep H false 0 f none w).world tr ∧
      tr.filterMap Event.execIdx = (if f.executeCall.isSome then [i] else []) ∧
      ∀ ev ∈ tr, ev.idx = i := by
  cases hx : f.executeCall with
  | none => exact ⟨[], by simp [ksyunApiCallStep, hx, Step.world], by simp, by simp⟩
  | some ex =>
    obtain ⟨hb, he, ha⟩ := hs ex hx
    unfold ksyunApiCallStep
    simp only [hx]
    cases hbc : f.beforeCall <;> cases hac : f.afterCall <;>
      simp_all [runCallError, runExecuteCall, runBeforeCall, runAfterCall, Step.world,
        Event.execIdx, Event.idx]

theorem prepend_nil {σ : Type} (r : Result σ) : r.prepend [] = r := rfl

theorem prepend_prepend {σ : Type} (a b : List Event) (r : Result σ) :
    (r.prepend b).prepend a = r.prepend (a ++ b) := by
  simp [Result.prepend, List.append_assoc]

/-- The real pass runs through a part of the list whose hooks succeed and goes
on with the rest, in the world that part alone leaves. -/
theorem loop_through {σ : Type} (H : Hooks σ) (pre : List ApiCall) :
    ∀ (rest : List ApiCall) (i : Nat) (w : World σ), SucceedsFrom H pre w → ∃ tr,
      ksyunApiCallLoop H false i (pre ++ rest) none w =
        (ksyunApiCallLoop H false (i + pre.length) rest none
          (ksyunApiCallProcess H pre false w).world).prepend tr ∧
      tr.filterMap Event.execIdx = executePositions i pre ∧
      ∀ ev ∈ tr, ev.idx < i + pre.length := by
  induction pre with
  | nil =>
    intro rest i w _
    exact ⟨[], by simp [prepend_nil, ksyunApiCallProcess, loop_nil], by simp [executePositions],
      by simp⟩
  | cons f pre ih =>
    intro rest i w hs
    obtain ⟨hs1, hs2⟩ := hs
    obtain ⟨tr1, hstep, hex1, hidx1⟩ := step_success H i f w hs1
    obtain ⟨tr0, hstep0, -, -⟩ := step_success H 0 f w hs1
    obtain ⟨tr2, hloop, hex2, hidx2⟩ := ih rest (i + 1) _ hs2
    obtain ⟨tr3, hloop3, -, -⟩ := ih [] (0 + 1) _ hs2
    have hw : (ksyunApiCallProcess H (f :: pre) false w).world =
        (ksyunApiCallProcess H pre false (ksyunApiCallStep H false 0 f none w).world).world := by
      simp only [List.append_nil, loop_nil] at hloop3
      simp only [ksyunApiCallProcess]
      rw [loop_cons, hstep0]
      simp only []
      rw [hloop3]
      rfl
    refine ⟨tr1 ++ tr2, ?_, ?_, ?_⟩
    · rw [List.cons_append, loop_cons, hstep]
      simp only []
      rw [hloop, prepend_prepend, List.length_cons, hw]
      congr 2
      omega
    · rw [List.filterMap_append, hex1, hex2]
      simp only [executePositions]
      split <;> simp
    · intro ev hev
      rw [List.length_cons]
      rcases List.mem_append.mp hev with h | h
      · rw [hidx1 ev h]; omega
      · have := hidx2 ev h; omega

/-- C1: when every hook that the real pass invokes on the list succeeds where
it is invoked (a pre-check answers `(true, nil)`, `executeCall` and `afterCall`
return no error in the world the hooks before them have left), the real pass
returns nil and the `executeCall` invocations are those of the Calls that have
one, in list order, one per Call, which are the positions 0, 1, ..., n-1 when
every Call has `executeCall` set; and no hook of a Call is invoked after a hook
of a later Call. -/
theorem sequential_success {σ : Type} (H : Hooks σ) (api : List ApiCall) (w : World σ)
    (hs : SucceedsFrom H api w) :
    (ksyunApiCallProcess H api false w).outcome = Outcome.returned none ∧
    (ksyunApiCallProcess H api false w).trace.filterMap Event.execIdx =
      executePositions 0 api ∧
    ((∀ c ∈ api, c.executeCall ≠ none) →
      (ksyunApiCallProcess H api false w).trace.filterMap Event.execIdx =
        List.range api.length) ∧
    List.Pairwise (fun a b => a.idx ≤ b.idx) (ksyunApiCallProcess H api false w).trace := by
  obtain ⟨tr, hloop, hex, -⟩ := loop_through H api [] 0 w hs
  simp only [List.append_nil, loop_nil] at hloop
  have hpos : ∀ (l : List ApiCall) (i : Nat), (∀ c ∈ l, c.executeCall ≠ none) →
      executePositions i l = List.range' i l.length := by
    intro l
    induction l with
    | nil => intro i _; simp [executePositions]
    | cons c l ih =>
      intro i hc
      have h1 : c.executeCall.isSome = true :=
        Option.isSome_iff_ne_none.mpr (hc c (List.mem_cons_self _ _))
      simp [executePositions, h1, ih (i + 1) (fun x hx => hc x (List.mem_cons_of_mem _ hx)),
        List.range'_succ]
  have htr : (ksyunApiCallProcess H api false w).trace.filterMap Event.execIdx =
      executePositions 0 api := by
    simp only [ksyunApiCallProcess]
    rw [hloop]
    simp [Result.prepend, hex]
  refine ⟨?_, htr, ?_, loop_trace_ordered H false api 0 none w⟩
  · simp only [ksyunApiCallProcess]
    rw [hloop]
    rfl
  · intro hx
    rw [htr, hpos api 0 hx, List.range_eq_range']

theorem sequential_success_witness :
    (ksyunApiCallProcess stateHooks
        [demoCall none (some 0) none (some 0) false, demoCall (some 1) (some 1) none none true]
        false (demoWorld true)).outcome = Outcome.returned none ∧
    (ksyunApiCallProcess stateHooks
        [demoCall none (some 0) none (some 0) false, demoCall (some 1) (some 1) none none true]
        false (demoWorld true)).trace.filterMap Event.execIdx =
      executePositions 0
        [demoCall none (some 0) none (some 0) false, demoCall (some 1) (some 1) none none true] :=
  ⟨(sequential_success stateHooks
    [demoCall none (some 0) none (some 0) false, demoCall (some 1) (some 1) none none true]
    (demoWorld true)
    (by simp [SucceedsFrom, SucceedsIn, demoCall, stateHooks, demoHooks, demoWorld,
      runBeforeCall, runExecuteCall, ksyunApiCallStep, runCallError, runAfterCall, Step.world,
      bump])).1,
   (sequential_success stateHooks
    [demoCall none (some 0) none (some 0) false, demoCall (some 1) (some 1) none none true]
    (demoWorld true)
    (by simp [SucceedsFrom, SucceedsIn, demoCall, stateHooks, demoHooks, demoWorld,
      runBeforeCall, runExecuteCall, ksyunApiCallStep, runCallError, runAfterCall, Step.world,
      bump])).2.1⟩

/-! ## Fail-fast -/

/-- The iteration of a Call whose `executeCall` is invoked and fails, and which
has no `callError`, returns the failure right after `executeCall`. -/
theorem step_fail_fast {σ : Type} (H : Hooks σ) (i : Nat) (f : ApiCall) (ex : Nat) (e : Err)
    (err : Option Err) (w : World σ)
    (hex : f.executeCall = some ex)
    (hb : ∀ b, f.beforeCall = some b → (H.beforeCall b f w).1.1 = true)
    (hfail : (H.executeCall ex (runBeforeCall H 0 f none w).call
      (runBeforeCall H 0 f none w).world).1.2 = some e)
    (hce : f.callError = none) :
    ∃ w1 tr m, ksyunApiCallStep H false i f err w =
        Step.exit e w1 (tr ++ [Event.executeCall i m]) ∧
      ∀ ev ∈ tr, ev = Event.beforeCall i := by
  cases hbc : f.beforeCall with
  | none =>
    refine ⟨(H.executeCall ex f w).2, [], hasMarker w f.param, ?_, by simp⟩
    simp only [runBeforeCall, hbc] at hfail
    simp [ksyunApiCallStep, runCallError, runExecuteCall, runBeforeCall, hex, hbc, hfail, hce]
  | some b =>
    refine ⟨(H.executeCall ex (if (H.beforeCall b f w).1.2 = none then bump f else f)
        (H.beforeCall b f w).2).2, [Event.beforeCall i],
      hasMarker (H.beforeCall b f w).2 f.param, ?_, by simp⟩
    simp only [runBeforeCall, hbc] at hfail
    simp [ksyunApiCallStep, runCallError, runExecuteCall, runBeforeCall, hex, hbc, hfail, hce,
      hb b hbc]

/-- C2: let the hooks invoked for the Calls before position k succeed where
they are invoked, and let the Call at k, reached in the world those Calls have
left, have its `executeCall` invoked (no pre-check, or one that answers execute
there) and fail there with `e`, with no `callError` set.  Then the real pass
returns `e`; the last hook invoked is that `executeCall`, so no `afterCall` of
Call k and no hook of a later Call is invoked. -/
theorem fail_fast {σ : Type} (H : Hooks σ) (pre post : List ApiCall) (f : ApiCall) (ex : Nat)
    (e : Err) (w : World σ)
    (hpre : SucceedsFrom H pre w)
    (hex : f.executeCall = some ex)
    (hb : ∀ b, f.beforeCall = some b →
      (H.beforeCall b f (ksyunApiCallProcess H pre false w).world).1.1 = true)
    (hfail : (H.executeCall ex
      (runBeforeCall H 0 f none (ksyunApiCallProcess H pre false w).world).call
      (runBeforeCall H 0 f none (ksyunApiCallProcess H pre false w).world).world).1.2 = some e)
    (hce : f.callError = none) :
    (ksyunApiCallProcess H (pre ++ f :: post) false w).outcome = Outcome.returned (some e) ∧
    (∃ tr m, (ksyunApiCallProcess H (pre ++ f :: post) false w).trace =
        tr ++ [Event.executeCall pre.length m]) ∧
    (∀ resp, Event.afterCall pre.length resp ∉
        (ksyunApiCallProcess H (pre ++ f :: post) false w).trace) ∧
    (∀ ev ∈ (ksyunApiCallProcess H (pre ++ f :: post) false w).trace,
        ev.idx ≤ pre.length) := by
  obtain ⟨tr1, hloop, -, hidx⟩ := loop_through H pre (f :: post) 0 w hpre
  obtain ⟨w2, tr2, m, hstep, htr2⟩ :=
    step_fail_fast H (0 + pre.length) f ex e none _ hex hb hfail hce
  have hrun : ksyunApiCallProcess H (pre ++ f :: post) false w =
      ⟨Outcome.returned (some e), w2, tr1 ++ (tr2 ++ [Event.executeCall pre.length m])⟩ := by
    unfold ksyunApiCallProcess
    rw [hloop, loop_cons, hstep]
    simp [Result.prepend]
  rw [hrun]
  simp only [Nat.zero_add] at hidx htr2
  refine ⟨rfl, ⟨tr1 ++ tr2, m, by simp⟩, ?_, ?_⟩
  · intro resp hmem
    simp only [List.mem_append, List.mem_singleton] at hmem
    rcases hmem with h | h | h
    · have := hidx _ h
      simp [Event.idx] at this
    · have := htr2 _ h
      simp at this
    · simp at h
  · intro ev hmem
    simp only [List.mem_append, List.mem_singleton] at hmem
    rcases hmem with h | h | h
    · exact Nat.le_of_lt (hidx ev h)
    · rw [htr2 ev h]; simp [Event.idx]
    · rw [h]; simp [Event.idx]

theorem fail_fast_witness :
    (ksyunApiCallProcess stateHooks
      ([demoCall none (some 2) none (some 0) false] ++
        demoCall none (some 2) none (some 0) false ::
          [demoCall none (some 2) none (some 0) false]) false (demoWorld false)).outcome =
      Outcome.returned (some ⟨"exists", none⟩) :=
  (fail_fast stateHooks [demoCall none (some 2) none (some 0) false]
    [demoCall none (some 2) none (some 0) false] (demoCall none (some 2) none (some 0) false)
    2 ⟨"exists", none⟩ (demoWorld false)
    (by simp [SucceedsFrom, SucceedsIn, demoCall, stateHooks, demoHooks, demoWorld,
      runBeforeCall, runExecuteCall, ksyunApiCallStep, runCallError, runAfterCall, Step.world,
      bump])
    rfl (by simp [demoCall]) (by decide) rfl).1

/-! ## The dry-run pass -/

theorem mapAssign_lookup {σ : Type} (w w1 : World σ) (p : Option Nat) (k : String) (v : Val)
    (h : mapAssign w p k v = some w1) : mapLookup w1 p k = some v := by
  cases p with
  | none => simp [mapAssign] at h
  | some a =>
    cases hv : w.vars a with
    | none => simp [mapAssign, hv] at h
    | some t =>
      simp only [mapAssign, hv, Option.some.injEq] at h
      subst h
      simp [mapLookup, hv]

theorem mapAssign_hasMarker {σ : Type} (w w1 : World σ) (p : Option Nat)
    (h : mapAssign w p "DryRun" (Val.bool true) = some w1) : hasMarker w1 p = true := by
  simp [hasMarker, mapAssign_lookup w w1 p "DryRun" (Val.bool true) h]

/-- The shapes an iteration of the dry-run pass can take. -/
theorem dry_step_cases {σ : Type} (H : Hooks σ) (i : Nat) (f : ApiCall) (err : Option Err)
    (w : World σ) :
    ksyunApiCallStep H true i f err w = Step.fall err w [] ∨
    ksyunApiCallStep H true i f err w = Step.skip w [] ∨
    (∃ w1 tr, ksyunApiCallStep H true i f err w = Step.panic w1 tr ∧
      ∀ ev ∈ tr, ev = Event.executeCall i true) ∨
    (∃ e1 w1, ksyunApiCallStep H true i f err w =
      Step.fall e1 w1 [Event.executeCall i true]) := by
  cases hx : f.executeCall with
  | none => left; simp [ksyunApiCallStep, hx]
  | some ex =>
    cases hd : f.disableDryRun with
    | true => right; left; simp [ksyunApiCallStep, hx, runDryRun, hd]
    | false =>
      right; right
      cases ha : mapAssign w f.param "DryRun" (Val.bool true) with
      | none =>
        left
        exact ⟨w, [], by simp [ksyunApiCallStep, hx, runDryRun, hd, ha], by simp⟩
      | some w1 =>
        have hm := mapAssign_hasMarker w w1 f.param ha
        cases hdel : mapDelete (H.executeCall ex f w1).2 f.param "DryRun" with
        | none =>
          left
          exact ⟨(H.executeCall ex f w1).2, [Event.executeCall i true],
            by simp [ksyunApiCallStep, hx, runDryRun, hd, ha, hdel, hm], by simp⟩
        | some w3 =>
          right
          exact ⟨if isRequestFailure412 (H.executeCall ex f w1).1.2 then none
              else (H.executeCall ex f w1).1.2, w3,
            by simp [ksyunApiCallStep, hx, runDryRun, hd, ha, hdel, hm]⟩

/-- The dry-run pass invokes nothing but `executeCall`, always on a payload
carrying the marker. -/
theorem dry_loop_events {σ : Type} (H : Hooks σ) (api : List ApiCall) :
    ∀ (i : Nat) (w : World σ),
      ∀ ev ∈ (ksyunApiCallLoop H true i api none w).trace,
        ∃ j, ev = Event.executeCall j true := by
  induction api with
  | nil => intro i w ev hev; simp [loop_nil] at hev
  | cons f rest ih =>
    intro i w ev hev
    rw [loop_cons] at hev
    rcases dry_step_cases H i f none w with h | h | ⟨w1, tr, h, htr⟩ | ⟨e1, w1, h⟩
    · rw [h] at hev
      simp only [prepend_trace, List.nil_append] at hev
      exact ih (i + 1) w ev hev
    · rw [h] at hev
      simp only [prepend_trace, List.nil_append] at hev
      exact ih (i + 1) w ev hev
    · rw [h] at hev
      exact ⟨i, htr ev hev⟩
    · rw [h] at hev
      cases e1 with
      | none =>
        simp only [prepend_trace, List.mem_append, List.mem_singleton] at hev
        rcases hev with h1 | h1
        · exact ⟨i, h1⟩
        · exact ih (i + 1) w1 ev h1
      | some e =>
        simp only [List.mem_singleton] at hev
        exact ⟨i, hev⟩

/-- When the dry-run pass returns an error, the last thing it did was the
`executeCall` of some Call k, and everything before belongs to earlier
Calls. -/
theorem dry_loop_failure {σ : Type} (H : Hooks σ) (api : List ApiCall) :
    ∀ (i : Nat) (w : World σ) (e : Err),
      (ksyunApiCallLoop H true i api none w).outcome = Outcome.returned (some e) →
      ∃ tr k, (ksyunApiCallLoop H true i api none w).trace = tr ++ [Event.executeCall k true] ∧
        i ≤ k ∧ k < i + api.length ∧ ∀ ev ∈ tr, ev.idx < k := by
  induction api with
  | nil => intro i w e h; simp [loop_nil] at h
  | cons f rest ih =>
    intro i w e hout
    rw [loop_cons] at hout ⊢
    rcases dry_step_cases H i f none w with h | h | ⟨w1, tr, h, htr⟩ | ⟨e1, w1, h⟩
    · rw [h] at hout ⊢
      obtain ⟨tr, k, h1, h2, h3, h4⟩ := ih (i + 1) w e hout
      exact ⟨tr, k, by simpa using h1, by omega, by simp only [List.length_cons]; omega, h4⟩
    · rw [h] at hout ⊢
      obtain ⟨tr, k, h1, h2, h3, h4⟩ := ih (i + 1) w e hout
      exact ⟨tr, k, by simpa using h1, by omega, by simp only [List.length_cons]; omega, h4⟩
    · rw [h] at hout
      simp at hout
    · rw [h] at hout ⊢
      cases e1 with
      | none =>
        obtain ⟨tr, k, h1, h2, h3, h4⟩ := ih (i + 1) w1 e hout
        refine ⟨Event.executeCall i true :: tr, k, by simp [h1], by omega,
          by simp only [List.length_cons]; omega, ?_⟩
        intro ev hev
        rcases List.mem_cons.mp hev with h5 | h5
        · rw [h5]; simp only [Event.idx]; omega
        · exact h4 ev h5
      | some e2 =>
        exact ⟨[], i, by simp, le_refl _, by simp only [List.length_cons]; omega, by simp⟩

/-- C3: when `ksyunApiCallNew` performs its dry-run pass (`client.dryRun` and
`isDryRun`) and that pass returns an error `e`, then `ksyunApiCallNew` returns
`e` and is the dry-run pass alone: the last hook invoked is the failing
`executeCall` of some Call k, only earlier Calls were attempted before it, and
every invocation is an `executeCall` that saw the marker, so no `beforeCall`,
`callError` or `afterCall` ran and the real pass did not start. -/
theorem dry_run_gating {σ : Type} (H : Hooks σ) (api : List ApiCall) (w : World σ) (e : Err)
    (hc : w.client.dryRun = true)
    (hfail : (ksyunApiCallProcess H api true w).outcome = Outcome.returned (some e)) :
    ksyunApiCallNew H api true w = ksyunApiCallProcess H api true w ∧
    (ksyunApiCallNew H api true w).outcome = Outcome.returned (some e) ∧
    (∀ ev ∈ (ksyunApiCallNew H api true w).trace, ∃ j, ev = Event.executeCall j true) ∧
    ∃ tr k, (ksyunApiCallNew H api true w).trace = tr ++ [Event.executeCall k true] ∧
      k < api.length ∧ ∀ ev ∈ tr, ev.idx < k := by
  have hnew : ksyunApiCallNew H api true w = ksyunApiCallProcess H api true w := by
    simp [ksyunApiCallNew, hc, hfail]
  rw [hnew]
  refine ⟨rfl, hfail, dry_loop_events H api 0 w, ?_⟩
  obtain ⟨tr, k, h1, -, h3, h4⟩ := dry_loop_failure H api 0 w e hfail
  exact ⟨tr, k, h1, by omega, h4⟩

theorem dry_run_gating_witness :
    (ksyunApiCallNew demoHooks
      [demoCall none (some 0) none none false, demoCall none (some 1) (some 0) none false,
        demoCall none (some 0) none none false] true (demoWorld true)).outcome =
      Outcome.returned (some ⟨"boom", none⟩) :=
  (dry_run_gating demoHooks
    [demoCall none (some 0) none none false, demoCall none (some 1) (some 0) none false,
      demoCall none (some 0) none none false] (demoWorld true) ⟨"boom", none⟩ rfl
    (by decide)).2.1

/-! ## Dry-run on request -/

/-- A Call without `executeCall`, or an exempt one, leaves the dry-run pass
where it was. -/
theorem dry_step_inert {σ : Type} (H : Hooks σ) (i : Nat) (f : ApiCall) (w : World σ)
    (h : ¬ (f.executeCall ≠ none ∧ f.disableDryRun = false)) :
    ksyunApiCallStep H true i f none w = Step.fall none w [] ∨
    ksyunApiCallStep H true i f none w = Step.skip w [] := by
  cases hx : f.executeCall with
  | none => left; simp [ksyunApiCallStep, hx]
  | some ex =>
    cases hd : f.disableDryRun with
    | true => right; simp [ksyunApiCallStep, hx, runDryRun, hd]
    | false => simp [hx, hd] at h

/-- A Call with `executeCall` that is not exempt has it invoked with the
marker, unless the runner panics on its payload first. -/
theorem dry_step_target {σ : Type} (H : Hooks σ) (i : Nat) (f : ApiCall) (w : World σ)
    (h : f.executeCall ≠ none ∧ f.disableDryRun = false) :
    (∃ w1 tr, ksyunApiCallStep H true i f none w = Step.panic w1 tr) ∨
    (∃ e1 w1, ksyunApiCallStep H true i f none w =
      Step.fall e1 w1 [Event.executeCall i true]) := by
  rcases dry_step_cases H i f none w with h1 | h1 | ⟨w1, tr, h1, -⟩ | h1
  · obtain ⟨ex, hex⟩ := Option.ne_none_iff_exists'.mp h.1
    simp [ksyunApiCallStep, hex, runDryRun, h.2] at h1
    split at h1
    · simp at h1
    · split at h1 <;> simp at h1
  · obtain ⟨ex, hex⟩ := Option.ne_none_iff_exists'.mp h.1
    simp [ksyunApiCallStep, hex, runDryRun, h.2] at h1
    split at h1
    · simp at h1
    · split at h1 <;> simp at h1
  · exact Or.inl ⟨w1, tr, h1⟩
  · exact Or.inr h1

/-- A dry-run pass that returns nil has invoked `executeCall`, with the marker,
once for each Call to validate, in list order. -/
theorem dry_loop_complete {σ : Type} (H : Hooks σ) (api : List ApiCall) :
    ∀ (i : Nat) (w : World σ),
      (ksyunApiCallLoop H true i api none w).outcome = Outcome.returned none →
      (ksyunApiCallLoop H true i api none w).trace =
        (dryRunTargets i api).map (fun j => Event.executeCall j true) := by
  induction api with
  | nil => intro i w _; simp [loop_nil, dryRunTargets]
  | cons f rest ih =>
    intro i w hout
    rw [loop_cons] at hout ⊢
    by_cases hf : f.executeCall ≠ none ∧ f.disableDryRun = false
    · rcases dry_step_target H i f w hf with ⟨w1, tr, h⟩ | ⟨e1, w1, h⟩
      · rw [h] at hout
        simp at hout
      · rw [h] at hout ⊢
        cases e1 with
        | none =>
          have h1 := ih (i + 1) w1 hout
          simp [dryRunTargets, hf, h1]
        | some e => simp at hout
    · rcases dry_step_inert H i f w hf with h | h
      · rw [h] at hout ⊢
        have h1 := ih (i + 1) w hout
        simp only [prepend_trace, List.nil_append, h1, dryRunTargets, hf, if_false]
      · rw [h] at hout ⊢
        have h1 := ih (i + 1) w hout
        simp only [prepend_trace, List.nil_append, h1, dryRunTargets, hf, if_false]

/-- C4, refuted as stated: with `isDryRun = true` but `client.dryRun` unset, a
Call that is not exempt has its `executeCall` invoked once, for real, on a
payload without the marker; there is no dry-run pass. -/
theorem dry_run_on_request_counterexample :
    (demoCall none (some 0) none none false).disableDryRun = false ∧
    (ksyunApiCallNew demoHooks [demoCall none (some 0) none none false] true
      (demoWorld false)).trace = [Event.executeCall 0 false] := by
  decide

/-- C4, amended: called with `isDryRun = true` on a client whose `dryRun` flag
is set, `ksyunApiCallNew` first runs the dry-run pass.  If that pass returns
nil, it has invoked `executeCall` with the marker once for every Call that has
`executeCall` set and is not exempt, in list order, and the real pass follows
from the state it left; otherwise the result is that of the dry-run pass alone
and nothing is executed for real.  On a client whose `dryRun` flag is unset
there is no dry-run pass, only the real one. -/
theorem dry_run_on_request {σ : Type} (H : Hooks σ) (api : List ApiCall) (w : World σ) :
    (w.client.dryRun = true →
      ((ksyunApiCallProcess H api true w).outcome = Outcome.returned none →
        ksyunApiCallNew H api true w =
          (ksyunApiCallProcess H api false (ksyunApiCallProcess H api true w).world).prepend
            (ksyunApiCallProcess H api true w).trace ∧
        (ksyunApiCallProcess H api true w).trace =
          (dryRunTargets 0 api).map (fun j => Event.executeCall j true)) ∧
      ((ksyunApiCallProcess H api true w).outcome ≠ Outcome.returned none →
        ksyunApiCallNew H api true w = ksyunApiCallProcess H api true w ∧
        ∀ ev ∈ (ksyunApiCallNew H api true w).trace, ∃ j, ev = Event.executeCall j true)) ∧
    (w.client.dryRun = false →
      ksyunApiCallNew H api true w = ksyunApiCallProcess H api false w) := by
  refine ⟨fun hc => ⟨?_, ?_⟩, fun hc => by simp [ksyunApiCallNew, hc]⟩
  · intro hout
    exact ⟨by simp [ksyunApiCallNew, hc, hout], dry_loop_complete H api 0 w hout⟩
  · intro hout
    have hnew : ksyunApiCallNew H api true w = ksyunApiCallProcess H api true w := by
      simp only [ksyunApiCallNew, hc, Bool.not_true, Bool.or_self, Bool.false_eq_true, if_false]
    rw [hnew]
    exact ⟨rfl, dry_loop_events H api 0 w⟩

theorem dry_run_on_request_witness :
    (ksyunApiCallProcess demoHooks
      [demoCall (some 0) (some 0) none none false, demoCall none (some 0) none none true,
        demoCall none (some 2) none none false] true (demoWorld true)).trace =
      [Event.executeCall 0 true, Event.executeCall 2 true] :=
  (((dry_run_on_request demoHooks
    [demoCall (some 0) (some 0) none none false, demoCall none (some 0) none none true,
      demoCall none (some 2) none none false] (demoWorld true)).1 rfl).1 (by decide)).2

/-! ## Marker injection and removal -/

theorem mapAssign_lookup_ne {σ : Type} (w w1 : World σ) (p : Option Nat) (k j : String) (v : Val)
    (h : mapAssign w p k v = some w1) (hj : j ≠ k) : mapLookup w1 p j = mapLookup w p j := by
  cases p with
  | none => simp [mapAssign] at h
  | some a =>
    cases hv : w.vars a with
    | none => simp [mapAssign, hv] at h
    | some t =>
      simp only [mapAssign, hv, Option.some.injEq] at h
      subst h
      simp [mapLookup, hv, hj]

theorem mapDelete_lookup {σ : Type} (w w1 : World σ) (p : Option Nat) (k : String)
    (h : mapDelete w p k = some w1) : mapLookup w1 p k = none := by
  cases p with
  | none => simp [mapDelete] at h
  | some a =>
    cases hv : w.vars a with
    | none =>
      simp only [mapDelete, hv, Option.some.injEq] at h
      subst h
      simp [mapLookup, hv]
    | some t =>
      simp only [mapDelete, hv, Option.some.injEq] at h
      subst h
      simp [mapLookup, hv]

theorem mapDelete_lookup_ne {σ : Type} (w w1 : World σ) (p : Option Nat) (k j : String)
    (h : mapDelete w p k = some w1) (hj : j ≠ k) : mapLookup w1 p j = mapLookup w p j := by
  cases p with
  | none => simp [mapDelete] at h
  | some a =>
    cases hv : w.vars a with
    | none =>
      simp only [mapDelete, hv, Option.some.injEq] at h
      subst h
      rfl
    | some t =>
      simp only [mapDelete, hv, Option.some.injEq] at h
      subst h
      simp [mapLookup, hv, hj]

/-- Deleting through a non-nil pointer does not panic. -/
theorem mapDelete_isSome {σ : Type} (w w1 v : World σ) (p : Option Nat) (k : String) (x : Val)
    (h : mapAssign w p k x = some w1) : ∃ w3, mapDelete v p k = some w3 := by
  cases p with
  | none => simp [mapAssign] at h
  | some a =>
    cases hv : v.vars a with
    | none => exact ⟨v, by simp [mapDelete, hv]⟩
    | some t => exact ⟨_, by simp only [mapDelete, hv]; rfl⟩

/-- The dry-run iteration of a Call to validate, once marker injection and
removal are known not to panic. -/
theorem dry_step_eq {σ : Type} (H : Hooks σ) (i : Nat) (f : ApiCall) (ex : Nat)
    (err : Option Err) (w w1 w3 : World σ)
    (hex : f.executeCall = some ex) (hd : f.disableDryRun = false)
    (hm : mapAssign w f.param "DryRun" (Val.bool true) = some w1)
    (hdel : mapDelete (H.executeCall ex f w1).2 f.param "DryRun" = some w3) :
    ksyunApiCallStep H true i f err w =
      Step.fall (if isRequestFailure412 (H.executeCall ex f w1).1.2 then none
        else (H.executeCall ex f w1).1.2) w3 [Event.executeCall i true] := by
  simp [ksyunApiCallStep, hex, runDryRun, hd, hm, hdel, mapAssign_hasMarker w w1 f.param hm]

/-- C5: for a Call with `executeCall` set that is not exempt and whose payload
accepts the marker (`w1` is the world after the injection), the dry-run
iteration invokes `executeCall` once, in `w1`, where the payload maps "DryRun"
to `true`; it returns, whatever `executeCall` answers, in the world obtained by
deleting "DryRun" after `executeCall`, where "DryRun" is absent from the
payload; and when `executeCall` leaves the payload as it found it, every other
key holds the value it had before the iteration. -/
theorem dry_run_marker_removed {σ : Type} (H : Hooks σ) (i : Nat) (f : ApiCall) (ex : Nat)
    (err : Option Err) (w w1 : World σ)
    (hex : f.executeCall = some ex) (hd : f.disableDryRun = false)
    (hm : mapAssign w f.param "DryRun" (Val.bool true) = some w1) :
    mapLookup w1 f.param "DryRun" = some (Val.bool true) ∧
    (ksyunApiCallStep H true i f err w).trace = [Event.executeCall i true] ∧
    mapDelete (H.executeCall ex f w1).2 f.param "DryRun" =
      some (ksyunApiCallStep H true i f err w).world ∧
    (∃ e1, ksyunApiCallStep H true i f err w =
      Step.fall e1 (ksyunApiCallStep H true i f err w).world [Event.executeCall i true]) ∧
    mapLookup (ksyunApiCallStep H true i f err w).world f.param "DryRun" = none ∧
    ((∀ k, mapLookup (H.executeCall ex f w1).2 f.param k = mapLookup w1 f.param k) →
      ∀ k, k ≠ "DryRun" →
        mapLookup (ksyunApiCallStep H true i f err w).world f.param k =
          mapLookup w f.param k) := by
  obtain ⟨w3, hdel⟩ := mapDelete_isSome w w1 (H.executeCall ex f w1).2 f.param "DryRun" _ hm
  have hstep := dry_step_eq H i f ex err w w1 w3 hex hd hm hdel
  rw [hstep]
  refine ⟨mapAssign_lookup w w1 f.param _ _ hm, rfl, hdel, ⟨_, rfl⟩,
    mapDelete_lookup _ w3 f.param _ hdel, ?_⟩
  intro hframe k hk
  simp only [Step.world]
  rw [mapDelete_lookup_ne _ w3 f.param "DryRun" k hdel hk, hframe k,
    mapAssign_lookup_ne w w1 f.param "DryRun" k _ hm hk]

theorem dry_run_marker_removed_witness :
    mapLookup (ksyunApiCallStep demoHooks true 0 (demoCall none (some 1) none none false) none
      (demoWorld true)).world (demoCall none (some 1) none none false).param "DryRun" = none ∧
    mapLookup (ksyunApiCallStep demoHooks true 0 (demoCall none (some 1) none none false) none
      (demoWorld true)).world (demoCall none (some 1) none none false).param "Name" =
      mapLookup (demoWorld true) (demoCall none (some 1) none none false).param "Name" :=
  ⟨(dry_run_marker_removed demoHooks 0 (demoCall none (some 1) none none false) 1 none
      (demoWorld true) _ rfl rfl rfl).2.2.2.2.1,
   (dry_run_marker_removed demoHooks 0 (demoCall none (some 1) none none false) 1 none
      (demoWorld true) _ rfl rfl rfl).2.2.2.2.2 (fun _ => rfl) "Name" (by decide)⟩

/-! ## Classification of dry-run failures, exemption -/

/-- C6: in the dry-run pass, for a Call to validate whose payload accepts the
marker, an `executeCall` failure with status code 412 is not returned and the
pass goes on with the next Call from the same state as after a success; any
other failure is returned unchanged, right after the marker is removed. -/
theorem dry_run_classification {σ : Type} (H : Hooks σ) (i : Nat) (f : ApiCall)
    (rest : List ApiCall) (ex : Nat) (w w1 w3 : World σ)
    (hex : f.executeCall = some ex) (hd : f.disableDryRun = false)
    (hm : mapAssign w f.param "DryRun" (Val.bool true) = some w1)
    (hdel : mapDelete (H.executeCall ex f w1).2 f.param "DryRun" = some w3) :
    (∀ e, (H.executeCall ex f w1).1.2 = some e → e.statusCode = some 412 →
      ksyunApiCallLoop H true i (f :: rest) none w =
        (ksyunApiCallLoop H true (i + 1) rest none w3).prepend [Event.executeCall i true]) ∧
    ((H.executeCall ex f w1).1.2 = none →
      ksyunApiCallLoop H true i (f :: rest) none w =
        (ksyunApiCallLoop H true (i + 1) rest none w3).prepend [Event.executeCall i true]) ∧
    (∀ e, (H.executeCall ex f w1).1.2 = some e → e.statusCode ≠ some 412 →
      ksyunApiCallLoop H true i (f :: rest) none w =
        ⟨Outcome.returned (some e), w3, [Event.executeCall i true]⟩) := by
  have hstep := dry_step_eq H i f ex none w w1 w3 hex hd hm hdel
  refine ⟨?_, ?_, ?_⟩
  · intro e he h412
    rw [loop_cons, hstep]
    simp [he, isRequestFailure412, h412]
  · intro he
    rw [loop_cons, hstep]
    simp [he, isRequestFailure412]
  · intro e he h412
    rw [loop_cons, hstep]
    simp [he, isRequestFailure412, h412]

theorem dry_run_classification_witness :
    (ksyunApiCallLoop demoHooks true 0
      (demoCall none (some 1) none none false :: [demoCall none (some 0) none none false]) none
      (demoWorld true)).outcome = Outcome.returned (some ⟨"boom", none⟩) ∧
    (ksyunApiCallLoop demoHooks true 0
      (demoCall none (some 2) none none false :: [demoCall none (some 1) none none false]) none
      (demoWorld true)).trace = [Event.executeCall 0 true, Event.executeCall 1 true] :=
  ⟨congrArg Result.outcome
    ((dry_run_classification demoHooks 0 (demoCall none (some 1) none none false)
      [demoCall none (some 0) none none false] 1 (demoWorld true) _ _ rfl rfl rfl rfl).2.2
      ⟨"boom", none⟩ rfl (by decide)),
   (congrArg Result.trace
    ((dry_run_classification demoHooks 0 (demoCall none (some 2) none none false)
      [demoCall none (some 1) none none false] 2 (demoWorld true) _ _ rfl rfl rfl rfl).1
      ⟨"PreconditionFailed", some 412⟩ rfl rfl)).trans (by decide)⟩

/-- The dry-run loop steps over an exempt Call. -/
theorem dry_loop_exempt {σ : Type} (H : Hooks σ) (i : Nat) (f : ApiCall) (rest : List ApiCall)
    (w : World σ) (hd : f.disableDryRun = true) :
    ksyunApiCallLoop H true i (f :: rest) none w =
      ksyunApiCallLoop H true (i + 1) rest none w := by
  rcases dry_step_inert H i f w (by simp [hd]) with h | h
  · rw [loop_cons, h]; rfl
  · rw [loop_cons, h]; rfl

/-- C7: in the dry-run pass a Call marked exempt is skipped: its iteration
invokes no hook and leaves the world (so its payload) as it was, and the pass
continues with the next Call exactly as it would from the same state. -/
theorem dry_run_exempt {σ : Type} (H : Hooks σ) (i : Nat) (f : ApiCall) (rest : List ApiCall)
    (w : World σ) (hd : f.disableDryRun = true) :
    (ksyunApiCallStep H true i f none w).trace = [] ∧
    (ksyunApiCallStep H true i f none w).world = w ∧
    ksyunApiCallLoop H true i (f :: rest) none w =
      ksyunApiCallLoop H true (i + 1) rest none w := by
  refine ⟨?_, ?_, dry_loop_exempt H i f rest w hd⟩
  · rcases dry_step_inert H i f w (by simp [hd]) with h | h <;> rw [h] <;> rfl
  · rcases dry_step_inert H i f w (by simp [hd]) with h | h <;> rw [h] <;> rfl

theorem dry_run_exempt_witness :
    ksyunApiCallLoop demoHooks true 0
      (demoCall none (some 1) none none true :: [demoCall none (some 0) none none false]) none
      (demoWorld true) =
    ksyunApiCallLoop demoHooks true (0 + 1) [demoCall none (some 0) none none false] none
      (demoWorld true) :=
  (dry_run_exempt demoHooks 0 (demoCall none (some 1) none none true)
    [demoCall none (some 0) none none false] (demoWorld true) rfl).2.2

/-! ## Pre-check skip -/

/-- Real pass over a single Call whose pre-check answers skip: nothing but the
pre-check is invoked and nil is returned. -/
theorem process_skip {σ : Type} (H : Hooks σ) (c : ApiCall) (b : Nat) (w : World σ)
    (hb : c.beforeCall = some b) (hskip : ∀ f v, (H.beforeCall b f v).1 = (false, none)) :
    (ksyunApiCallProcess H [c] false w).outcome = Outcome.returned none ∧
    (ksyunApiCallProcess H [c] false w).trace =
      if c.executeCall = none then [] else [Event.beforeCall 0] := by
  cases hx : c.executeCall with
  | none => simp [ksyunApiCallProcess, loop_cons, loop_nil, ksyunApiCallStep, hx]
  | some ex =>
    simp [ksyunApiCallProcess, loop_cons, loop_nil, ksyunApiCallStep, hx, runCallError,
      runExecuteCall, runBeforeCall, runAfterCall, hb, hskip]

/-- Dry-run pass over a single exempt Call: nothing happens. -/
theorem process_dry_exempt {σ : Type} (H : Hooks σ) (c : ApiCall) (w : World σ)
    (hd : c.disableDryRun = true) :
    ksyunApiCallProcess H [c] true w = ⟨Outcome.returned none, w, []⟩ := by
  unfold ksyunApiCallProcess
  rw [dry_loop_exempt H 0 c [] w hd, loop_nil]

/-- C8, refuted as stated: with `client.dryRun` and `isDryRun` both set, a Call
whose pre-check answers skip still has its `executeCall` invoked by the dry-run
pass, and the failure of that invocation is what `RightNow` returns. -/
theorem pre_check_skip_counterexample :
    (demoHooks.beforeCall 0 (demoCall (some 0) (some 1) none (some 0) false)
      (demoWorld true)).1 = (false, none) ∧
    (RightNow demoHooks (demoCall (some 0) (some 1) none (some 0) false) true
      (demoWorld true)).trace = [Event.executeCall 0 true] ∧
    (RightNow demoHooks (demoCall (some 0) (some 1) none (some 0) false) true
      (demoWorld true)).outcome = Outcome.returned (some ⟨"boom", none⟩) := by
  decide

/-- C8, amended: for a Call whose pre-check answers `(false, nil)`, whenever
no dry-run pass validates it (`client.dryRun` unset, or `isDryRun` false, or
the Call exempt), `RightNow` returns nil having invoked at most the pre-check,
neither `executeCall` nor `afterCall`; a second such invocation, in any state
`v` under the same condition, has the same outcome and trace. -/
theorem pre_check_skip {σ : Type} (H : Hooks σ) (c : ApiCall) (b : Nat) (isDryRun : Bool)
    (w v : World σ)
    (hb : c.beforeCall = some b) (hskip : ∀ f u, (H.beforeCall b f u).1 = (false, none))
    (hw : w.client.dryRun = false ∨ isDryRun = false ∨ c.disableDryRun = true)
    (hv : v.client.dryRun = false ∨ isDryRun = false ∨ c.disableDryRun = true) :
    (RightNow H c isDryRun w).outcome = Outcome.returned none ∧
    (RightNow H c isDryRun w).trace = (if c.executeCall = none then [] else [Event.beforeCall 0]) ∧
    (∀ ev ∈ (RightNow H c isDryRun w).trace, ev = Event.beforeCall 0) ∧
    (RightNow H c isDryRun v).outcome = (RightNow H c isDryRun w).outcome ∧
    (RightNow H c isDryRun v).trace = (RightNow H c isDryRun w).trace := by
  have key : ∀ u : World σ,
      (u.client.dryRun = false ∨ isDryRun = false ∨ c.disableDryRun = true) →
      (RightNow H c isDryRun u).outcome = Outcome.returned none ∧
      (RightNow H c isDryRun u).trace =
        (if c.executeCall = none then [] else [Event.beforeCall 0]) := by
    intro u hu
    by_cases hg : (!u.client.dryRun || !isDryRun) = true
    · simp only [RightNow, ksyunApiCallNew, hg, if_true]
      exact process_skip H c b u hb hskip
    · have hd : c.disableDryRun = true := by
        rcases hu with h | h | h
        · simp [h] at hg
        · simp [h] at hg
        · exact h
      simp only [RightNow, ksyunApiCallNew, hg, process_dry_exempt H c u hd]
      simpa using process_skip H c b u hb hskip
  obtain ⟨h1, h2⟩ := key w hw
  obtain ⟨h3, h4⟩ := key v hv
  refine ⟨h1, h2, ?_, by rw [h1, h3], by rw [h2, h4]⟩
  rw [h2]
  intro ev hev
  split at hev
  · simp at hev
  · simpa using hev

theorem pre_check_skip_witness :
    (RightNow demoHooks (demoCall (some 0) (some 1) none (some 0) true) true
      (demoWorld true)).outcome = Outcome.returned none ∧
    (RightNow demoHooks (demoCall (some 0) (some 1) none (some 0) true) true
      (demoWorld true)).trace = [Event.beforeCall 0] :=
  ⟨(pre_check_skip demoHooks (demoCall (some 0) (some 1) none (some 0) true) 0 true
      (demoWorld true) (demoWorld false) rfl (by simp [demoHooks]) (Or.inr (Or.inr rfl))
      (Or.inl rfl)).1,
   (pre_check_skip demoHooks (demoCall (some 0) (some 1) none (some 0) true) 0 true
      (demoWorld true) (demoWorld false) rfl (by simp [demoHooks]) (Or.inr (Or.inr rfl))
      (Or.inl rfl)).2.1⟩

/-! ## Error recovery -/

/-- C9: in the real pass, let `pb` be the state after the pre-check of the
Call at position `i`, with `doExecute` true, let `executeCall` answer `x` with
the error `e`, and let `callError` be set and answer `r` when given `e`.  Then
the hooks invoked for this Call are the pre-check (if set), `executeCall` and
one `callError` with `e`.  If `callError` returns `e2`, the runner returns
`e2` there and then.  If it returns nil the Call counts as successful:
`afterCall`, if set, is invoked with the response of `executeCall`, and the
loop goes on with the next Call. -/
theorem error_recovery {σ : Type} (H : Hooks σ) (i : Nat) (f : ApiCall) (rest : List ApiCall)
    (ex ce : Nat) (e : Err) (w : World σ) (pb : Frame σ)
    (x : (Option Nat × Option Err) × World σ) (r : Option Err × World σ)
    (hex : f.executeCall = some ex) (hce : f.callError = some ce)
    (hpb : runBeforeCall H i f none w = pb) (hdo : pb.doExecute = true)
    (hx : H.executeCall ex pb.call pb.world = x) (hfail : x.1.2 = some e)
    (hr : H.callError ce pb.call e x.2 = r) :
    (∀ ev ∈ pb.trace, ev = Event.beforeCall i) ∧
    (∀ e2, r.1 = some e2 →
      ksyunApiCallLoop H false i (f :: rest) none w =
        ⟨Outcome.returned (some e2), r.2,
          pb.trace ++ [Event.executeCall i (hasMarker pb.world pb.call.param),
            Event.callError i e]⟩) ∧
    (r.1 = none → f.afterCall = none →
      ksyunApiCallLoop H false i (f :: rest) none w =
        (ksyunApiCallLoop H false (i + 1) rest none r.2).prepend
          (pb.trace ++ [Event.executeCall i (hasMarker pb.world pb.call.param),
            Event.callError i e])) ∧
    (r.1 = none → ∀ a, f.afterCall = some a →
      (H.afterCall a x.1.1 pb.call r.2).1 = none →
      ksyunApiCallLoop H false i (f :: rest) none w =
        (ksyunApiCallLoop H false (i + 1) rest none (H.afterCall a x.1.1 pb.call r.2).2).prepend
          (pb.trace ++ [Event.executeCall i (hasMarker pb.world pb.call.param),
            Event.callError i e, Event.afterCall i x.1.1])) := by
  have hcall := runBeforeCall_call H i f none w
  rw [hpb] at hcall
  have hpc : runCallError H i (runExecuteCall H i ex pb) =
      ⟨pb.doExecute, x.1.1, r.1, pb.call, r.2,
        pb.trace ++ [Event.executeCall i (hasMarker pb.world pb.call.param),
          Event.callError i e]⟩ := by
    simp [runCallError, runExecuteCall, hdo, hx, hfail, hcall.1, hce, hr]
  have hstep : ksyunApiCallStep H false i f none w =
      match r.1 with
      | some e2 => Step.exit e2 r.2
          (pb.trace ++ [Event.executeCall i (hasMarker pb.world pb.call.param),
            Event.callError i e])
      | none => runAfterCall H i ⟨pb.doExecute, x.1.1, r.1, pb.call, r.2,
          pb.trace ++ [Event.executeCall i (hasMarker pb.world pb.call.param),
            Event.callError i e]⟩ := by
    simp only [ksyunApiCallStep, hex, Bool.false_eq_true, if_false, hpb, hpc]
  refine ⟨?_, ?_, ?_, ?_⟩
  · rw [← hpb]
    exact runBeforeCall_idx H i f none w
  · intro e2 he2
    rw [loop_cons, hstep, he2]
  · intro hnone hac
    rw [loop_cons, hstep, hnone]
    simp [runAfterCall, hdo, hcall.2.1, hac]
  · intro hnone a hac hok
    rw [loop_cons, hstep, hnone]
    simp [runAfterCall, hdo, hcall.2.1, hac, hok]

theorem error_recovery_witness :
    ksyunApiCallLoop demoHooks false 0
      (demoCall none (some 1) (some 1) (some 0) false :: [demoCall none (some 0) none none false])
      none (demoWorld false) =
    ⟨Outcome.returned (some ⟨"gave up", none⟩), demoWorld false,
      [] ++ [Event.executeCall 0 false, Event.callError 0 ⟨"boom", none⟩]⟩ :=
  (error_recovery demoHooks 0 (demoCall none (some 1) (some 1) (some 0) false)
    [demoCall none (some 0) none none false] 1 1 ⟨"boom", none⟩ (demoWorld false)
    ⟨true, none, none, demoCall none (some 1) (some 1) (some 0) false, demoWorld false, []⟩
    ((none, some ⟨"boom", none⟩), demoWorld false) (some ⟨"gave up", none⟩, demoWorld false)
    rfl rfl rfl rfl rfl rfl rfl).2.1 ⟨"gave up", none⟩ rfl

/-! ## Post-processing -/

/-- Before `afterCall`, the real-pass iteration for position `i` has invoked
nothing but the pre-check, `executeCall` and `callError` of that Call. -/
theorem frame_trace_events {σ : Type} (H : Hooks σ) (i ex : Nat) (f : ApiCall)
    (err : Option Err) (w : World σ) :
    ∀ ev ∈ (runCallError H i (runExecuteCall H i ex (runBeforeCall H i f err w))).trace,
      ev = Event.beforeCall i ∨ (∃ m, ev = Event.executeCall i m) ∨
        (∃ e, ev = Event.callError i e) := by
  have h1 := runBeforeCall_idx H i f err w
  have h2 : ∀ ev ∈ (runExecuteCall H i ex (runBeforeCall H i f err w)).trace,
      ev = Event.beforeCall i ∨ (∃ m, ev = Event.executeCall i m) := by
    unfold runExecuteCall
    split
    · intro ev hev
      simp only [List.mem_append, List.mem_singleton] at hev
      rcases hev with h | h
      · exact Or.inl (h1 ev h)
      · exact Or.inr ⟨_, h⟩
    · intro ev hev
      exact Or.inl (h1 ev hev)
  have h3 : ∀ p : Frame σ, (∀ ev ∈ p.trace,
      ev = Event.beforeCall i ∨ (∃ m, ev = Event.executeCall i m)) →
      ∀ ev ∈ (runCallError H i p).trace,
        ev = Event.beforeCall i ∨ (∃ m, ev = Event.executeCall i m) ∨
          (∃ e, ev = Event.callError i e) := by
    intro p hp
    unfold runCallError
    split
    · intro ev hev
      rcases hp ev hev with h | h
      · exact Or.inl h
      · exact Or.inr (Or.inl h)
    · split
      · intro ev hev
        rcases hp ev hev with h | h
        · exact Or.inl h
        · exact Or.inr (Or.inl h)
      · intro ev hev
        simp only [List.mem_append, List.mem_singleton] at hev
        rcases hev with h | h
        · rcases hp ev h with h4 | h4
          · exact Or.inl h4
          · exact Or.inr (Or.inl h4)
        · exact Or.inr (Or.inr ⟨_, h⟩)
  exact h3 _ h2

/-- C10: in the real pass, let `pc` be the state of the iteration for the Call
at position `i` after `executeCall` and `callError` (lines 84-108).  An
`afterCall` of this Call is invoked only when `doExecute` is true, no error is
left in `pc`, and `afterCall` is set, and it is given the response of
`executeCall`.  When it returns an error `e`, the runner returns `e` with that
`afterCall` as the last hook invoked, so no hook of a later Call runs. -/
theorem post_process_failure {σ : Type} (H : Hooks σ) (i : Nat) (f : ApiCall)
    (rest : List ApiCall) (ex : Nat) (w : World σ) (pc : Frame σ)
    (hex : f.executeCall = some ex)
    (hpc : runCallError H i (runExecuteCall H i ex (runBeforeCall H i f none w)) = pc) :
    pc.doExecute = (runBeforeCall H i f none w).doExecute ∧
    (∀ resp, Event.afterCall i resp ∈ (ksyunApiCallLoop H false i (f :: rest) none w).trace →
      pc.doExecute = true ∧ pc.err = none ∧ f.afterCall ≠ none ∧ resp = pc.resp) ∧
    (∀ a e, f.afterCall = some a → pc.doExecute = true → pc.err = none →
      (H.afterCall a pc.resp pc.call pc.world).1 = some e →
      ksyunApiCallLoop H false i (f :: rest) none w =
        ⟨Outcome.returned (some e), (H.afterCall a pc.resp pc.call pc.world).2,
          pc.trace ++ [Event.afterCall i pc.resp]⟩ ∧
      ∀ ev ∈ pc.trace ++ [Event.afterCall i pc.resp], ev.idx = i) := by
  have hev := frame_trace_events H i ex f none w
  have hidx := runCallError_idx H i (runExecuteCall H i ex (runBeforeCall H i f none w))
    (runExecuteCall_idx H i ex (runBeforeCall H i f none w) (fun ev hev => by
      rw [runBeforeCall_idx H i f none w ev hev]; rfl))
  have hdo : pc.doExecute = (runBeforeCall H i f none w).doExecute := by
    rw [← hpc, (runCallError_call H i _).2.1, (runExecuteCall_call H i ex _).2.2]
  have hac : pc.call.afterCall = f.afterCall := by
    rw [← hpc, (runCallError_call H i _).1, (runExecuteCall_call H i ex _).2.1,
      (runBeforeCall_call H i f none w).2.1]
  rw [hpc] at hev hidx
  have hno : ∀ resp, Event.afterCall i resp ∉ pc.trace := by
    intro resp hmem
    rcases hev _ hmem with h | ⟨m, h⟩ | ⟨e, h⟩ <;> simp at h
  have hlater : ∀ resp err1 w1,
      Event.afterCall i resp ∉ (ksyunApiCallLoop H false (i + 1) rest err1 w1).trace := by
    intro resp err1 w1 hmem
    have := loop_trace_idx H false rest (i + 1) err1 w1 _ hmem
    simp [Event.idx] at this
  have hstep : ksyunApiCallStep H false i f none w =
      match pc.err with
      | some e => Step.exit e pc.world pc.trace
      | none => runAfterCall H i pc := by
    simp only [ksyunApiCallStep, hex, Bool.false_eq_true, if_false, hpc]
  refine ⟨hdo, ?_, ?_⟩
  · intro resp hmem
    rw [loop_cons, hstep] at hmem
    cases herr : pc.err with
    | some e =>
      rw [herr] at hmem
      exact absurd hmem (hno resp)
    | none =>
      rw [herr] at hmem
      cases hd : pc.doExecute with
      | false =>
        simp only [runAfterCall, hd, Bool.false_eq_true, if_false, prepend_trace,
          List.mem_append] at hmem
        rcases hmem with h | h
        · exact absurd h (hno resp)
        · exact absurd h (hlater resp _ _)
      | true =>
        cases ha : f.afterCall with
        | none =>
          simp only [runAfterCall, hd, if_true, hac, ha, prepend_trace, List.mem_append] at hmem
          rcases hmem with h | h
          · exact absurd h (hno resp)
          · exact absurd h (hlater resp _ _)
        | some a =>
          refine ⟨rfl, rfl, by simp, ?_⟩
          simp only [runAfterCall, hd, if_true, hac, ha] at hmem
          cases hr : (H.afterCall a pc.resp pc.call pc.world).1 with
          | none =>
            rw [hr] at hmem
            simp only [prepend_trace, List.mem_append, List.mem_singleton] at hmem
            rcases hmem with (h | h) | h
            · exact absurd h (hno resp)
            · simpa using h
            · exact absurd h (hlater resp _ _)
          | some e =>
            rw [hr] at hmem
            simp only [List.mem_append, List.mem_singleton] at hmem
            rcases hmem with h | h
            · exact absurd h (hno resp)
            · simpa using h
  · intro a e ha hd herr hr
    constructor
    · rw [loop_cons, hstep, herr]
      simp [runAfterCall, hd, hac, ha, hr]
    · intro ev hmem
      simp only [List.mem_append, List.mem_singleton] at hmem
      rcases hmem with h | h
      · exact hidx ev h
      · rw [h]; rfl

theorem post_process_failure_witness :
    ksyunApiCallLoop demoHooks false 0
      (demoCall none (some 0) none (some 1) false :: [demoCall none (some 0) none none false])
      none (demoWorld false) =
    ⟨Outcome.returned (some ⟨"post", none⟩),
      { demoWorld false with ext := (demoWorld false).ext + 1 },
      [Event.executeCall 0 false] ++ [Event.afterCall 0 (some 7)]⟩ :=
  ((post_process_failure demoHooks 0 (demoCall none (some 0) none (some 1) false)
    [demoCall none (some 0) none none false] 0 (demoWorld false)
    ⟨true, some 7, none, bump (demoCall none (some 0) none (some 1) false),
      { demoWorld false with ext := (demoWorld false).ext + 1 }, [Event.executeCall 0 false]⟩
    rfl rfl).2.2 1 ⟨"post", none⟩ rfl rfl rfl rfl).1

/-! ## Hook order -/

theorem ranked_mono {n m : Nat} {tr : List Event} (h : Ranked n tr) (hnm : n ≤ m) :
    Ranked m tr :=
  ⟨h.1, fun ev hev => Nat.lt_of_lt_of_le (h.2 ev hev) hnm⟩

theorem ranked_snoc {n : Nat} {tr : List Event} (ev : Event) (h : Ranked n tr)
    (hev : ev.rank = n) : Ranked (n + 1) (tr ++ [ev]) := by
  constructor
  · rw [List.pairwise_append]
    refine ⟨h.1, by simp, ?_⟩
    intro a ha b hb
    rw [List.mem_singleton] at hb
    rw [hb, hev]
    exact h.2 a ha
  · intro a ha
    rw [List.mem_append, List.mem_singleton] at ha
    rcases ha with h1 | h1
    · exact Nat.lt_succ_of_lt (h.2 a h1)
    · rw [h1, hev]; exact Nat.lt_succ_self n

theorem runBeforeCall_ranked {σ : Type} (H : Hooks σ) (i : Nat) (f : ApiCall)
    (err : Option Err) (w : World σ) : Ranked 1 (runBeforeCall H i f err w).trace := by
  unfold runBeforeCall
  cases f.beforeCall <;> simp [Ranked, Event.rank]

theorem runExecuteCall_ranked {σ : Type} (H : Hooks σ) (i ex : Nat) (p : Frame σ)
    (hp : Ranked 1 p.trace) : Ranked 2 (runExecuteCall H i ex p).trace := by
  unfold runExecuteCall
  split
  · exact ranked_snoc _ hp rfl
  · exact ranked_mono hp (by omega)

theorem runCallError_ranked {σ : Type} (H : Hooks σ) (i : Nat) (p : Frame σ)
    (hp : Ranked 2 p.trace) : Ranked 3 (runCallError H i p).trace := by
  unfold runCallError
  split
  · exact ranked_mono hp (by omega)
  · split
    · exact ranked_mono hp (by omega)
    · exact ranked_snoc _ hp rfl

theorem runAfterCall_ranked {σ : Type} (H : Hooks σ) (i : Nat) (p : Frame σ)
    (hp : Ranked 3 p.trace) : Ranked 4 (runAfterCall H i p).trace := by
  unfold runAfterCall
  split
  · split
    · exact ranked_mono hp (by omega)
    · exact ranked_snoc _ hp rfl
  · exact ranked_mono hp (by omega)

theorem runDryRun_ranked {σ : Type} (H : Hooks σ) (i ex : Nat) (f : ApiCall) (w : World σ) :
    Ranked 4 (runDryRun H i ex f w).trace := by
  unfold runDryRun
  split
  · simp [Step.trace, Ranked]
  · split
    · simp [Step.trace, Ranked]
    · simp only []
      split <;> simp [Step.trace, Ranked, Event.rank]

/-- Within one iteration every hook is invoked at most once, in contract
order. -/
theorem step_ranked {σ : Type} (H : Hooks σ) (d : Bool) (i : Nat) (f : ApiCall)
    (err : Option Err) (w : World σ) : Ranked 4 (ksyunApiCallStep H d i f err w).trace := by
  unfold ksyunApiCallStep
  cases hx : f.executeCall with
  | none => simp [Step.trace, Ranked]
  | some ex =>
    cases d with
    | true => exact runDryRun_ranked H i ex f w
    | false =>
      have h3 := runCallError_ranked H i _
        (runExecuteCall_ranked H i ex _ (runBeforeCall_ranked H i f err w))
      simp only [Bool.false_eq_true, if_false]
      split
      · exact ranked_mono h3 (by omega)
      · exact runAfterCall_ranked H i _ h3

/-- Along the trace of the loop, invocations come Call after Call and, within a
Call, in contract order. -/
theorem loop_trace_precedes {σ : Type} (H : Hooks σ) (d : Bool) (api : List ApiCall) :
    ∀ (i : Nat) (err : Option Err) (w : World σ),
      List.Pairwise Event.precedes (ksyunApiCallLoop H d i api err w).trace := by
  induction api with
  | nil => intro i err w; simp [loop_nil]
  | cons f rest ih =>
    intro i err w
    have hstep : List.Pairwise Event.precedes (ksyunApiCallStep H d i f err w).trace := by
      have hr := (step_ranked H d i f err w).1
      rw [List.pairwise_iff_forall_sublist] at hr ⊢
      intro a b hab
      have ha := step_trace_idx H d i f err w a (hab.subset (by simp))
      have hb := step_trace_idx H d i f err w b (hab.subset (by simp))
      exact Or.inr ⟨by rw [ha, hb], hr hab⟩
    rcases loop_cons_trace H d i f rest err w with h | ⟨err1, w1, h⟩
    · rw [h]; exact hstep
    · rw [h, List.pairwise_append]
      refine ⟨hstep, ih (i + 1) err1 w1, ?_⟩
      intro a ha b hb
      have h1 := step_trace_idx H d i f err w a ha
      have h2 := loop_trace_idx H d rest (i + 1) err1 w1 b hb
      exact Or.inl (by omega)

/-- C11: within one pass of the runner over any list (dry-run or real), the
hook invocations are strictly ordered by Call position and then by contract
order beforeCall, executeCall, callError, afterCall.  Hence no hook of a Call
is invoked after a hook of a later Call, and no hook of a Call is invoked
twice. -/
theorem hook_order {σ : Type} (H : Hooks σ) (api : List ApiCall) (isDryRun : Bool)
    (w : World σ) :
    List.Pairwise Event.precedes (ksyunApiCallProcess H api isDryRun w).trace ∧
    List.Pairwise (fun a b => a.idx ≤ b.idx) (ksyunApiCallProcess H api isDryRun w).trace ∧
    ((ksyunApiCallProcess H api isDryRun w).trace.map (fun ev => (ev.idx, ev.rank))).Nodup := by
  have h := loop_trace_precedes H isDryRun api 0 none w
  refine ⟨h, loop_trace_ordered H isDryRun api 0 none w, ?_⟩
  unfold ksyunApiCallProcess
  rw [List.Nodup, List.pairwise_map]
  refine h.imp ?_
  intro a b hab heq
  simp only [Prod.mk.injEq] at heq
  rcases hab with h1 | ⟨-, h1⟩
  · omega
  · omega

/-! ## The dry-run pass invokes only `executeCall` -/

/-- C20: the dry-run pass over any list invokes nothing but `executeCall`, on a
payload carrying the marker: no `beforeCall`, `callError` or `afterCall`.  A
pass that returns nil has done so once for every Call with `executeCall` set
that is not exempt, whatever its pre-check would answer; and a Call whose
pre-check answers skip, and whose `executeCall` fails while `callError` is
set, has `executeCall` invoked with the marker, the failure being returned
without `callError` being consulted. -/
theorem dry_run_only_executes {σ : Type} (H : Hooks σ) (api : List ApiCall) (w : World σ) :
    (∀ ev ∈ (ksyunApiCallProcess H api true w).trace, ∃ j, ev = Event.executeCall j true) ∧
    ((ksyunApiCallProcess H api true w).outcome = Outcome.returned none →
      (ksyunApiCallProcess H api true w).trace =
        (dryRunTargets 0 api).map (fun j => Event.executeCall j true)) ∧
    (∀ (f : ApiCall) (b ex ce : Nat) (e : Err) (w1 w3 : World σ),
      f.beforeCall = some b → (∀ c v, (H.beforeCall b c v).1 = (false, none)) →
      f.executeCall = some ex → f.callError = some ce → f.disableDryRun = false →
      mapAssign w f.param "DryRun" (Val.bool true) = some w1 →
      mapDelete (H.executeCall ex f w1).2 f.param "DryRun" = some w3 →
      (H.executeCall ex f w1).1.2 = some e → e.statusCode ≠ some 412 →
      ksyunApiCallProcess H [f] true w =
        ⟨Outcome.returned (some e), w3, [Event.executeCall 0 true]⟩) := by
  refine ⟨dry_loop_events H api 0 w, dry_loop_complete H api 0 w, ?_⟩
  intro f b ex ce e w1 w3 _ _ hex _ hd hm hdel he h412
  unfold ksyunApiCallProcess
  rw [loop_cons, dry_step_eq H 0 f ex none w w1 w3 hex hd hm hdel]
  simp [he, isRequestFailure412, h412]

theorem dry_run_only_executes_witness :
    (ksyunApiCallProcess demoHooks [demoCall (some 0) (some 1) (some 0) (some 0) false] true
      (demoWorld true)).trace = [Event.executeCall 0 true] :=
  congrArg Result.trace
    ((dry_run_only_executes demoHooks [] (demoWorld true)).2.2
      (demoCall (some 0) (some 1) (some 0) (some 0) false) 0 1 0 ⟨"boom", none⟩ _ _
      rfl (by simp [demoHooks]) rfl rfl rfl rfl rfl rfl (by decide))

/-! ## Validation of the cluster configuration -/

/-- C18: when `cluster_manage_mode` is "ManagedCluster", `kcePreinspection`
returns nil exactly when `worker_config` is not empty, `master_config` is not
set or empty, and `managed_cluster_multi_master` is not empty (emptiness as
`helper.IsEmpty` decides it); so an empty `managed_cluster_multi_master` is
always rejected in this mode. -/
theorem managed_cluster_validation (isEmpty : CfgVal → Bool) (d : ResourceData)
    (hmode : d.get "cluster_manage_mode" = CfgVal.str "ManagedCluster") :
    (kcePreinspection isEmpty d = Outcome.returned none ↔
      (isEmpty (d.get "worker_config") = false ∧
        ((d.getOk "master_config").2 = false ∨ isEmpty (d.getOk "master_config").1 = true) ∧
        isEmpty (d.get "managed_cluster_multi_master") = false)) ∧
    (isEmpty (d.get "managed_cluster_multi_master") = true →
      ∃ e, kcePreinspection isEmpty d = Outcome.returned (some e)) := by
  constructor
  · simp only [kcePreinspection, hmode, kceManagedModeManaged, if_true]
    cases h1 : isEmpty (d.get "worker_config") <;>
      cases h2 : (d.getOk "master_config").2 <;>
      cases h3 : isEmpty (d.getOk "master_config").1 <;>
      cases h4 : isEmpty (d.get "managed_cluster_multi_master") <;>
      simp [errorf]
  · intro h4
    simp only [kcePreinspection, hmode, kceManagedModeManaged, if_true]
    cases h1 : isEmpty (d.get "worker_config") <;>
      cases h2 : (d.getOk "master_config").2 <;>
      cases h3 : isEmpty (d.getOk "master_config").1 <;>
      simp [errorf, h4]

theorem managed_cluster_validation_witness :
    kcePreinspection demoIsEmpty (demoConfig "ManagedCluster" (some [1]) none (some [2])) =
      Outcome.returned none :=
  ((managed_cluster_validation demoIsEmpty
    (demoConfig "ManagedCluster" (some [1]) none (some [2])) rfl).1).mpr (by decide)

/-- In "DedicatedCluster" mode a `master_config` that `GetOk` reports as not
set passes the validation. -/
theorem dedicated_unset_passes (isEmpty : CfgVal → Bool) (d : ResourceData)
    (hmode : d.get "cluster_manage_mode" = CfgVal.str "DedicatedCluster")
    (hunset : (d.getOk "master_config").2 = false) :
    kcePreinspection isEmpty d = Outcome.returned none := by
  simp [kcePreinspection, hmode, kceManagedModeManaged, kceManagedModeDedicated, hunset]

/-- C19, evaluated on the code: with `cluster_manage_mode` "DedicatedCluster"
and `master_config` not set, `kcePreinspection` returns nil, not the error
"master_config is required ...", whatever `helper.IsEmpty` is; the same holds
for a `master_config` set to the empty list. -/
theorem dedicated_cluster_validation_fails (isEmpty : CfgVal → Bool) :
    kcePreinspection isEmpty (demoConfig "DedicatedCluster" (some [1]) none none) =
      Outcome.returned none ∧
    kcePreinspection isEmpty (demoConfig "DedicatedCluster" (some [1]) (some []) none) =
      Outcome.returned none :=
  ⟨dedicated_unset_passes isEmpty _ rfl rfl, dedicated_unset_passes isEmpty _ rfl rfl⟩

/-! ## Creating and filling a process -/

/-- C17: `PutCalls` leaves the queue equal to the old queue followed by the
candidates in argument order: the length is the sum, every old entry keeps its
position, every candidate comes at its argument position after the old
entries; and no other field of the process changes. -/
theorem put_calls_appends (a : ApiProcess) (candidate : List ApiCall) :
    (PutCalls a candidate).ApiProcessQueue = a.ApiProcessQueue ++ candidate ∧
    (PutCalls a candidate).ApiProcessQueue.length =
      a.ApiProcessQueue.length + candidate.length ∧
    (∀ i, i < a.ApiProcessQueue.length →
      (PutCalls a candidate).ApiProcessQueue[i]? = a.ApiProcessQueue[i]?) ∧
    (∀ j, (PutCalls a candidate).ApiProcessQueue[a.ApiProcessQueue.length + j]? =
      candidate[j]?) ∧
    PutCalls a candidate = { a with ApiProcessQueue := (PutCalls a candidate).ApiProcessQueue } ∧
    (PutCalls a candidate).DryRun = a.DryRun ∧ (PutCalls a candidate).Ctx = a.Ctx ∧
    (PutCalls a candidate).MulNum = a.MulNum ∧ (PutCalls a candidate).d = a.d ∧
    (PutCalls a candidate).client = a.client ∧ (PutCalls a candidate).wg = a.wg ∧
    (PutCalls a candidate).errCh = a.errCh ∧
    (PutCalls a candidate).concurrentCh = a.concurrentCh ∧
    (PutCalls a candidate).earlyStop = a.earlyStop ∧
    (PutCalls a candidate).errors = a.errors := by
  refine ⟨rfl, by simp [PutCalls], ?_, ?_, rfl, rfl, rfl, rfl, rfl, rfl, rfl, rfl, rfl, rfl,
    rfl⟩
  · intro i hi
    simp [PutCalls, List.getElem?_append_left hi]
  · intro j
    simp [PutCalls, List.getElem?_append_right]

/-- C15, evaluated on the code: `NewApiProcess` with a limit of 0 returns a
process (creation is not rejected) whose `MulNum` is 0, not at least 1, and
whose slot channel `concurrentCh` has capacity 0. -/
theorem zero_limit_not_clamped (ctx d client : Option Nat) (dryRun : Bool) :
    (NewApiProcess ctx d client dryRun 0).MulNum = 0 ∧
    ¬ (1 ≤ (NewApiProcess ctx d client dryRun 0).MulNum) ∧
    (NewApiProcess ctx d client dryRun 0).concurrentCh = some ⟨0, []⟩ := by
  simp [NewApiProcess]

/-! ## A pre-check that returns an error -/

/-- C22: in the real pass, let the pre-check of the Call at position `i`
return an error `e`.  If it also answers execute, `executeCall` is invoked all
the same (on the Call as it was, `process` not counted up), and when that
succeeds `e` is gone: `callError` is not consulted, `afterCall` (if set) runs
and the loop goes on with the next Call.  If it answers skip, `executeCall` is
not invoked and `e` is treated as a failure of the Call: returned when
`callError` is not set, handed to `callError` otherwise, whose error is
returned, or whose nil lets the loop go on, without `afterCall`. -/
theorem pre_check_error {σ : Type} (H : Hooks σ) (i : Nat) (f : ApiCall) (rest : List ApiCall)
    (b ex : Nat) (e : Err) (w w1 : World σ)
    (hb : f.beforeCall = some b) (hex : f.executeCall = some ex) :
    (H.beforeCall b f w = ((true, some e), w1) →
      (H.executeCall ex f w1).1.2 = none →
      (f.afterCall = none →
        ksyunApiCallLoop H false i (f :: rest) none w =
          (ksyunApiCallLoop H false (i + 1) rest none (H.executeCall ex f w1).2).prepend
            [Event.beforeCall i, Event.executeCall i (hasMarker w1 f.param)]) ∧
      (∀ a, f.afterCall = some a →
        (H.afterCall a (H.executeCall ex f w1).1.1 (bump f) (H.executeCall ex f w1).2).1 = none →
        ksyunApiCallLoop H false i (f :: rest) none w =
          (ksyunApiCallLoop H false (i + 1) rest none
            (H.afterCall a (H.executeCall ex f w1).1.1 (bump f)
              (H.executeCall ex f w1).2).2).prepend
            [Event.beforeCall i, Event.executeCall i (hasMarker w1 f.param),
              Event.afterCall i (H.executeCall ex f w1).1.1])) ∧
    (H.beforeCall b f w = ((false, some e), w1) →
      (f.callError = none →
        ksyunApiCallLoop H false i (f :: rest) none w =
          ⟨Outcome.returned (some e), w1, [Event.beforeCall i]⟩) ∧
      (∀ ce e2, f.callError = some ce → (H.callError ce f e w1).1 = some e2 →
        ksyunApiCallLoop H false i (f :: rest) none w =
          ⟨Outcome.returned (some e2), (H.callError ce f e w1).2,
            [Event.beforeCall i, Event.callError i e]⟩) ∧
      (∀ ce, f.callError = some ce → (H.callError ce f e w1).1 = none →
        ksyunApiCallLoop H false i (f :: rest) none w =
          (ksyunApiCallLoop H false (i + 1) rest none (H.callError ce f e w1).2).prepend
            [Event.beforeCall i, Event.callError i e])) := by
  constructor
  · intro hbc hok
    constructor
    · intro hac
      rw [loop_cons]
      simp [ksyunApiCallStep, hex, runCallError, runExecuteCall, runBeforeCall, runAfterCall,
        hb, hbc, hok, hac]
    · intro a hac haok
      rw [loop_cons]
      simp [ksyunApiCallStep, hex, runCallError, runExecuteCall, runBeforeCall, runAfterCall,
        hb, hbc, hok, hac, haok]
  · intro hbc
    refine ⟨?_, ?_, ?_⟩
    · intro hce
      rw [loop_cons]
      simp [ksyunApiCallStep, hex, runCallError, runExecuteCall, runBeforeCall, hb, hbc, hce]
    · intro ce e2 hce hr
      rw [loop_cons]
      simp [ksyunApiCallStep, hex, runCallError, runExecuteCall, runBeforeCall, hb, hbc, hce,
        hr]
    · intro ce hce hr
      rw [loop_cons]
      simp [ksyunApiCallStep, hex, runCallError, runExecuteCall, runBeforeCall, runAfterCall,
        hb, hbc, hce, hr]

theorem pre_check_error_witness :
    (ksyunApiCallLoop errHooks false 0 [demoCall (some 1) (some 0) (some 1) (some 0) false] none
      (demoWorld false)).trace =
      [Event.beforeCall 0, Event.executeCall 0 false, Event.afterCall 0 (some 7)] ∧
    (ksyunApiCallLoop errHooks false 0 [demoCall (some 0) (some 0) none (some 0) false] none
      (demoWorld false)).outcome = Outcome.returned (some ⟨"pre", none⟩) :=
  ⟨congrArg Result.trace
    (((pre_check_error errHooks 0 (demoCall (some 1) (some 0) (some 1) (some 0) false) [] 1 0
      ⟨"pre", none⟩ (demoWorld false) (demoWorld false) rfl rfl).1 rfl rfl).2 0 rfl rfl),
   congrArg Result.outcome
    (((pre_check_error errHooks 0 (demoCall (some 0) (some 0) none (some 0) false) [] 0 0
      ⟨"pre", none⟩ (demoWorld false) (demoWorld false) rfl rfl).2 rfl).1 rfl)⟩

/-! ## The legacy runner -/

theorem legacy_calls_prefix {σ : Type} (F : LegacyFuncs σ) (api : List (Option Nat)) :
    ∀ (i : Nat) (err : Option Err) (w : World σ),
      (ksyunApiCallFrom F i api err w).calls <+: nonNilPositions i api := by
  induction api with
  | nil => intro i err w; simp [ksyunApiCallFrom, nonNilPositions]
  | cons x rest ih =>
    intro i err w
    cases x with
    | none => simpa [ksyunApiCallFrom, nonNilPositions] using ih (i + 1) err w
    | some f =>
      simp only [ksyunApiCallFrom, nonNilPositions]
      cases (F f w).1 with
      | some e => simp [List.prefix_cons_inj, List.nil_prefix]
      | none => simpa [List.prefix_cons_inj] using ih (i + 1) none (F f w).2

theorem legacy_calls_all {σ : Type} (F : LegacyFuncs σ) (api : List (Option Nat)) :
    ∀ (i : Nat) (w : World σ), (ksyunApiCallFrom F i api none w).err = none →
      (ksyunApiCallFrom F i api none w).calls = nonNilPositions i api := by
  induction api with
  | nil => intro i w _; simp [ksyunApiCallFrom, nonNilPositions]
  | cons x rest ih =>
    intro i w h
    cases x with
    | none =>
      simp only [ksyunApiCallFrom, nonNilPositions] at h ⊢
      exact ih (i + 1) w h
    | some f =>
      simp only [ksyunApiCallFrom, nonNilPositions] at h ⊢
      cases hf : (F f w).1 with
      | some e => simp [hf] at h
      | none =>
        simp only [hf] at h ⊢
        simp [ih (i + 1) (F f w).2 h]

/-- Through a part of the list whose functions succeed where they are invoked,
the legacy runner invokes each of them and goes on with the rest in the world
they have left. -/
theorem legacy_through {σ : Type} (F : LegacyFuncs σ) (pre rest : List (Option Nat)) :
    ∀ (i : Nat) (w : World σ), legacySucceeds F pre w →
      (ksyunApiCallFrom F i (pre ++ rest) none w).err =
        (ksyunApiCallFrom F (i + pre.length) rest none (legacyWorld F pre w)).err ∧
      (ksyunApiCallFrom F i (pre ++ rest) none w).world =
        (ksyunApiCallFrom F (i + pre.length) rest none (legacyWorld F pre w)).world ∧
      (ksyunApiCallFrom F i (pre ++ rest) none w).calls =
        nonNilPositions i pre ++
          (ksyunApiCallFrom F (i + pre.length) rest none (legacyWorld F pre w)).calls := by
  induction pre with
  | nil => intro i w _; simp [nonNilPositions, legacyWorld]
  | cons x pre ih =>
    intro i w hs
    have hi : i + (x :: pre).length = (i + 1) + pre.length := by
      simp only [List.length_cons]; omega
    cases x with
    | none =>
      obtain ⟨h1, h2, h3⟩ := ih (i + 1) w hs
      refine ⟨?_, ?_, ?_⟩ <;>
        simp only [List.cons_append, ksyunApiCallFrom, nonNilPositions, legacyWorld, hi]
      · exact h1
      · exact h2
      · exact h3
    | some f =>
      obtain ⟨hf, hs1⟩ := hs
      obtain ⟨h1, h2, h3⟩ := ih (i + 1) (F f w).2 hs1
      refine ⟨?_, ?_, ?_⟩ <;>
        simp only [List.cons_append, ksyunApiCallFrom, nonNilPositions, legacyWorld, hi, hf]
      · exact h1
      · exact h2
      · simp [h3]

/-- A non-nil result of the legacy runner is the error of an entry that was
invoked after the entries before it had succeeded. -/
theorem legacy_first_error {σ : Type} (F : LegacyFuncs σ) (api : List (Option Nat)) :
    ∀ (i : Nat) (w : World σ) (e : Err), (ksyunApiCallFrom F i api none w).err = some e →
      ∃ pre f post, api = pre ++ some f :: post ∧ legacySucceeds F pre w ∧
        (F f (legacyWorld F pre w)).1 = some e := by
  induction api with
  | nil => intro i w e h; simp [ksyunApiCallFrom] at h
  | cons x rest ih =>
    intro i w e h
    cases x with
    | none =>
      simp only [ksyunApiCallFrom] at h
      obtain ⟨pre, f, post, h1, h2, h3⟩ := ih (i + 1) w e h
      exact ⟨none :: pre, f, post, by simp [h1], h2, h3⟩
    | some g =>
      simp only [ksyunApiCallFrom] at h
      cases hg : (F g w).1 with
      | some e1 =>
        simp only [hg, Option.some.injEq] at h
        exact ⟨[], g, rest, rfl, trivial, by simp [legacyWorld, hg, h]⟩
      | none =>
        simp only [hg] at h
        obtain ⟨pre, f, post, h1, h2, h3⟩ := ih (i + 1) (F g w).2 e h
        exact ⟨some g :: pre, f, post, by simp [h1], ⟨hg, h2⟩, h3⟩

/-- C25: `ksyunApiCall` invokes entries that are not nil only, in list order,
without gaps; when it returns nil it has invoked all of them; on the nil or
empty list it returns nil at once; when every function succeeds where it is
invoked (in the world the functions before it have left) it returns nil; when
the functions before some entry succeed so and that entry, invoked in the
world they have left, fails with `e`, it returns `e`, having invoked the
entries up to that one and none after; and every error it returns arises in
this way, from the first entry that fails. -/
theorem legacy_runner {σ : Type} (F : LegacyFuncs σ) :
    (∀ api w, (ksyunApiCall F api w).calls <+: nonNilPositions 0 api) ∧
    (∀ api w, (ksyunApiCall F api w).err = none →
      (ksyunApiCall F api w).calls = nonNilPositions 0 api) ∧
    (∀ w, (ksyunApiCall F [] w).err = none ∧ (ksyunApiCall F [] w).calls = [] ∧
      (ksyunApiCall F [] w).world = w) ∧
    (∀ api w, legacySucceeds F api w →
      (ksyunApiCall F api w).err = none ∧
      (ksyunApiCall F api w).calls = nonNilPositions 0 api ∧
      (ksyunApiCall F api w).world = legacyWorld F api w) ∧
    (∀ pre f post e w, legacySucceeds F pre w →
      (F f (legacyWorld F pre w)).1 = some e →
      (ksyunApiCall F (pre ++ some f :: post) w).err = some e ∧
      (ksyunApiCall F (pre ++ some f :: post) w).calls =
        nonNilPositions 0 pre ++ [pre.length] ∧
      (ksyunApiCall F (pre ++ some f :: post) w).world = (F f (legacyWorld F pre w)).2) ∧
    (∀ api w e, (ksyunApiCall F api w).err = some e →
      ∃ pre f post, api = pre ++ some f :: post ∧ legacySucceeds F pre w ∧
        (F f (legacyWorld F pre w)).1 = some e) := by
  refine ⟨fun api w => legacy_calls_prefix F api 0 none w,
    fun api w h => legacy_calls_all F api 0 w h, fun w => ⟨rfl, rfl, rfl⟩, ?_, ?_,
    fun api w e h => legacy_first_error F api 0 w e h⟩
  · intro api w hs
    obtain ⟨h1, h2, h3⟩ := legacy_through F api [] 0 w hs
    simp only [List.append_nil, ksyunApiCallFrom] at h1 h2 h3
    exact ⟨h1, by simpa using h3, h2⟩
  · intro pre f post e w hs hf
    obtain ⟨h1, h2, h3⟩ := legacy_through F pre (some f :: post) 0 w hs
    simp only [ksyunApiCallFrom, hf, Nat.zero_add] at h1 h2 h3
    exact ⟨h1, h3, h2⟩

theorem legacy_runner_witness :
    ((ksyunApiCall demoFuncs [some 0, none, some 1] (demoWorld false)).err = none ∧
      (ksyunApiCall demoFuncs [some 0, none, some 1] (demoWorld false)).calls =
        nonNilPositions 0 [some 0, none, some 1] ∧
      (ksyunApiCall demoFuncs [some 0, none, some 1] (demoWorld false)).world =
        legacyWorld demoFuncs [some 0, none, some 1] (demoWorld false)) ∧
    ((ksyunApiCall demoFuncs ([none] ++ some 1 :: [some 0]) (demoWorld false)).err =
        some ⟨"not ready", none⟩ ∧
      (ksyunApiCall demoFuncs ([none] ++ some 1 :: [some 0]) (demoWorld false)).calls =
        nonNilPositions 0 [none] ++ [1] ∧
      (ksyunApiCall demoFuncs ([none] ++ some 1 :: [some 0]) (demoWorld false)).world =
        (demoFuncs 1 (legacyWorld demoFuncs [none] (demoWorld false))).2) :=
  ⟨(legacy_runner demoFuncs).2.2.2.1 [some 0, none, some 1] (demoWorld false)
      (by simp [legacySucceeds, demoFuncs, demoWorld]),
    (legacy_runner demoFuncs).2.2.2.2.1 [none] 1 [some 0] ⟨"not ready", none⟩ (demoWorld false)
      (by simp [legacySucceeds]) (by simp [legacyWorld, demoFuncs, demoWorld])⟩

/-! ## Building the Calls of the ALB rule group -/

/-- When the request map holds a list of maps under "AlbRuleSet", a mapping
error is returned with the zero Call. -/
theorem create_error_returned (m : List (String × ReqVal)) (items : List ReqItem)
    (rules : List (Option Val × Option Val)) (e : Err) (addr executeRef afterRef : Nat)
    (hl : m.lookup "AlbRuleSet" = some (ReqVal.list items))
    (hr : collectRules items = some rules) :
    ∃ req, createRuleGroupCall (some m, some e) addr executeRef afterRef =
      some ⟨zeroCall, some e, req⟩ := by
  simp [createRuleGroupCall, hl, hr]

/-- C23, evaluated on the code: when the auto-mapping returns an error `e`
together with a nil request map, or with a map that has no list under
"AlbRuleSet", `createRuleGroupCall` does not return `e`: it panics at the type
assertion of line 27, which comes before the test of `err` at line 36. -/
theorem create_mapping_error_panics (e : Err) (addr executeRef afterRef : Nat) :
    createRuleGroupCall (none, some e) addr executeRef afterRef = none ∧
    createRuleGroupCall (some [], some e) addr executeRef afterRef = none ∧
    createRuleGroupCall (some [("AlbRuleGroupName", ReqVal.plain (Val.str "g"))], some e)
      addr executeRef afterRef = none ∧
    createRuleGroupCall (some [("AlbRuleSet", ReqVal.list [ReqItem.other])], some e)
      addr executeRef afterRef = none := by
  refine ⟨rfl, rfl, ?_, ?_⟩ <;> simp [createRuleGroupCall, List.lookup, collectRules]

/-! ## Calls without `executeCall` -/

/-- The iteration for a Call without `executeCall` does nothing, in either
pass and whatever its payload pointer is. -/
theorem step_inert {σ : Type} (H : Hooks σ) (d : Bool) (i : Nat) (f : ApiCall)
    (err : Option Err) (w : World σ) (hx : f.executeCall = none) :
    ksyunApiCallStep H d i f err w = Step.fall err w [] := by
  simp [ksyunApiCallStep, hx]

theorem runBeforeCall_reindex {σ : Type} (H : Hooks σ) (g : Nat → Nat) (i j : Nat)
    (f : ApiCall) (err : Option Err) (w : World σ) (hg : g j = i) :
    (runBeforeCall H j f err w).reindex g = runBeforeCall H i f err w := by
  unfold runBeforeCall
  cases f.beforeCall <;> simp [Frame.reindex, Event.reindex, hg]

theorem runExecuteCall_reindex {σ : Type} (H : Hooks σ) (g : Nat → Nat) (i j ex : Nat)
    (p : Frame σ) (hg : g j = i) :
    (runExecuteCall H j ex p).reindex g = runExecuteCall H i ex (p.reindex g) := by
  unfold runExecuteCall
  by_cases hd : p.doExecute = true <;> simp [Frame.reindex, Event.reindex, hg, hd]

theorem runCallError_reindex {σ : Type} (H : Hooks σ) (g : Nat → Nat) (i j : Nat)
    (p : Frame σ) (hg : g j = i) :
    (runCallError H j p).reindex g = runCallError H i (p.reindex g) := by
  unfold runCallError
  cases he : p.err with
  | none => simp [Frame.reindex, he]
  | some e =>
    cases hc : p.call.callError <;> simp [Frame.reindex, Event.reindex, hg, he, hc]

theorem runAfterCall_reindex {σ : Type} (H : Hooks σ) (g : Nat → Nat) (i j : Nat)
    (p : Frame σ) (hg : g j = i) :
    (runAfterCall H j p).reindex g = runAfterCall H i (p.reindex g) := by
  unfold runAfterCall
  by_cases hd : p.doExecute = true
  · cases hc : p.call.afterCall <;>
      simp [Frame.reindex, Step.reindex, Event.reindex, hg, hd, hc]
  · simp [Frame.reindex, Step.reindex, hd]

theorem runDryRun_reindex {σ : Type} (H : Hooks σ) (g : Nat → Nat) (i j ex : Nat)
    (f : ApiCall) (w : World σ) (hg : g j = i) :
    (runDryRun H j ex f w).reindex g = runDryRun H i ex f w := by
  unfold runDryRun
  by_cases hd : f.disableDryRun = true
  · simp [Step.reindex, hd]
  · simp only [hd, if_false]
    cases ha : mapAssign w f.param "DryRun" (Val.bool true) with
    | none => simp [Step.reindex]
    | some w1 =>
      simp only []
      cases mapDelete (H.executeCall ex f w1).2 f.param "DryRun" <;>
        simp [Step.reindex, Event.reindex, hg]

/-- The iteration depends on the position of the Call only through the
positions recorded in its events. -/
theorem step_reindex {σ : Type} (H : Hooks σ) (d : Bool) (g : Nat → Nat) (i j : Nat)
    (f : ApiCall) (err : Option Err) (w : World σ) (hg : g j = i) :
    (ksyunApiCallStep H d j f err w).reindex g = ksyunApiCallStep H d i f err w := by
  unfold ksyunApiCallStep
  cases f.executeCall with
  | none => simp [Step.reindex]
  | some ex =>
    cases d with
    | true => exact runDryRun_reindex H g i j ex f w hg
    | false =>
      simp only [Bool.false_eq_true, if_false]
      have hp : (runCallError H j (runExecuteCall H j ex (runBeforeCall H j f err w))).reindex g =
          runCallError H i (runExecuteCall H i ex (runBeforeCall H i f err w)) := by
        rw [runCallError_reindex H g i j _ hg, runExecuteCall_reindex H g i j ex _ hg,
          runBeforeCall_reindex H g i j f err w hg]
      rw [← hp]
      cases he : (runCallError H j (runExecuteCall H j ex (runBeforeCall H j f err w))).err with
      | some e => simp [Step.reindex, Frame.reindex, he]
      | none =>
        have he1 : ((runCallError H j
            (runExecuteCall H j ex (runBeforeCall H j f err w))).reindex g).err = none := he
        simp only [he1]
        exact runAfterCall_reindex H g i j _ hg

theorem reindex_congr (g h : Nat → Nat) (ev : Event) (hgh : g ev.idx = h ev.idx) :
    ev.reindex g = ev.reindex h := by
  cases ev <;> simp only [Event.idx] at hgh <;> simp [Event.reindex, hgh]

/-- Renumbering the events of the rest of the loop: past position `j`, the
table of positions may lose its head. -/
theorem map_reindex_tail {σ : Type} (H : Hooks σ) (d : Bool) (api : List ApiCall)
    (i j : Nat) (L : List Nat) (err : Option Err) (w : World σ) :
    (ksyunApiCallLoop H d (j + 1) api err w).trace.map
        (Event.reindex (fun x => L.getD (x - (j + 1)) 0)) =
      (ksyunApiCallLoop H d (j + 1) api err w).trace.map
        (Event.reindex (fun x => (i :: L).getD (x - j) 0)) := by
  apply List.map_congr_left
  intro ev hev
  have hidx := loop_trace_idx H d api (j + 1) err w ev hev
  apply reindex_congr
  have hsub : ev.idx - j = (ev.idx - (j + 1)) + 1 := by omega
  simp only [hsub, List.getD_cons_succ]

/-- The loop over a list and the loop over the list without the Calls that
have no `executeCall` end alike, in the same world, after the same hook
invocations, up to the positions of the Calls. -/
theorem loop_drop_inert {σ : Type} (H : Hooks σ) (d : Bool) (api : List ApiCall) :
    ∀ (i j : Nat) (w : World σ),
      (ksyunApiCallLoop H d i api none w).outcome =
        (ksyunApiCallLoop H d j (withExecute api) none w).outcome ∧
      (ksyunApiCallLoop H d i api none w).world =
        (ksyunApiCallLoop H d j (withExecute api) none w).world ∧
      (ksyunApiCallLoop H d i api none w).trace =
        (ksyunApiCallLoop H d j (withExecute api) none w).trace.map
          (Event.reindex (fun x => (executePositions i api).getD (x - j) 0)) := by
  induction api with
  | nil => intro i j w; simp [withExecute, loop_nil]
  | cons f rest ih =>
    intro i j w
    by_cases hx : f.executeCall.isSome = true
    · have hw : withExecute (f :: rest) = f :: withExecute rest := by
        simp [withExecute, hx]
      have hp : executePositions i (f :: rest) = i :: executePositions (i + 1) rest := by
        simp [executePositions, hx]
      have hstep := step_reindex H d
        (fun x => (i :: executePositions (i + 1) rest).getD (x - j) 0) i j f none w (by simp)
      rw [hw, hp, loop_cons, loop_cons, ← hstep]
      cases hs : ksyunApiCallStep H d j f none w with
      | exit e w1 tr => exact ⟨rfl, rfl, rfl⟩
      | panic w1 tr => exact ⟨rfl, rfl, rfl⟩
      | skip w1 tr =>
        obtain ⟨h1, h2, h3⟩ := ih (i + 1) (j + 1) w1
        refine ⟨h1, h2, ?_⟩
        simp only [Step.reindex, prepend_trace, List.map_append, h3]
        rw [map_reindex_tail H d (withExecute rest) i j]
      | fall e1 w1 tr =>
        cases e1 with
        | some e => exact ⟨rfl, rfl, rfl⟩
        | none =>
          obtain ⟨h1, h2, h3⟩ := ih (i + 1) (j + 1) w1
          refine ⟨h1, h2, ?_⟩
          simp only [Step.reindex, prepend_trace, List.map_append, h3]
          rw [map_reindex_tail H d (withExecute rest) i j]
    · have hnone : f.executeCall = none := by
        cases hfe : f.executeCall with
        | none => rfl
        | some ex => simp [hfe] at hx
      have hw : withExecute (f :: rest) = withExecute rest := by
        simp [withExecute, hx]
      have hp : executePositions i (f :: rest) = executePositions (i + 1) rest := by
        simp [executePositions, hx]
      rw [hw, hp, loop_cons, step_inert H d i f none w hnone]
      exact ih (i + 1) j w

theorem process_zeroCall {σ : Type} (H : Hooks σ) (d : Bool) (w : World σ) :
    ksyunApiCallProcess H [zeroCall] d w = ⟨Outcome.returned none, w, []⟩ := by
  unfold ksyunApiCallProcess
  rw [loop_cons, step_inert H d 0 zeroCall none w rfl]
  rfl

/-- The two-pass runner on a list, and on the list without the Calls that have
no `executeCall`. -/
theorem new_drop_inert {σ : Type} (H : Hooks σ) (api : List ApiCall) (isDryRun : Bool)
    (w : World σ) :
    (ksyunApiCallNew H api isDryRun w).outcome =
      (ksyunApiCallNew H (withExecute api) isDryRun w).outcome ∧
    (ksyunApiCallNew H api isDryRun w).world =
      (ksyunApiCallNew H (withExecute api) isDryRun w).world ∧
    (ksyunApiCallNew H api isDryRun w).trace =
      (ksyunApiCallNew H (withExecute api) isDryRun w).trace.map
        (Event.reindex (fun x => (executePositions 0 api).getD x 0)) := by
  have hreal := fun v => loop_drop_inert H false api 0 0 v
  have hdry := loop_drop_inert H true api 0 0 w
  simp only [Nat.sub_zero] at hreal hdry
  unfold ksyunApiCallNew
  by_cases hc : (!w.client.dryRun || !isDryRun) = true
  · simp only [hc, if_true]
    exact hreal w
  · have hc1 : (!w.client.dryRun || !isDryRun) = false := by simpa using hc
    simp only [hc1, Bool.false_eq_true, if_false]
    obtain ⟨h1, h2, h3⟩ := hdry
    change (ksyunApiCallProcess H api true w).outcome =
      (ksyunApiCallProcess H (withExecute api) true w).outcome at h1
    change (ksyunApiCallProcess H api true w).world =
      (ksyunApiCallProcess H (withExecute api) true w).world at h2
    change (ksyunApiCallProcess H api true w).trace = _ at h3
    rw [← h1]
    cases ho : (ksyunApiCallProcess H api true w).outcome with
    | panicked =>
      dsimp only
      exact ⟨ho.trans (ho.symm.trans h1), h2, h3⟩
    | returned err =>
      cases err with
      | some e =>
        dsimp only
        exact ⟨ho.trans (ho.symm.trans h1), h2, h3⟩
      | none =>
        dsimp only
        rw [← h2]
        obtain ⟨r1, r2, r3⟩ := hreal (ksyunApiCallProcess H api true w).world
        refine ⟨r1, r2, ?_⟩
        simp only [prepend_trace, List.map_append]
        rw [h3]
        exact congrArg _ r3

/-- C21: a Call whose `executeCall` is nil is inert in either pass: its
iteration invokes no hook, leaves the world as it is and does not touch its
payload pointer, so that it cannot panic (the zero-value Call included); the
result, the final world and the hook invocations of `ksyunApiCallProcess` and
of `ksyunApiCallNew` are those for the list with such Calls removed, the
positions of the remaining Calls apart.  Consequently `ModifyRuleGroup` on an
empty change request (no mapping error, no entry in the request map) invokes
no hook, so makes no remote call, and returns nil. -/
theorem inert_calls {σ : Type} (H : Hooks σ) :
    (∀ (d : Bool) (i : Nat) (f : ApiCall) (w : World σ), f.executeCall = none →
      ksyunApiCallStep H d i f none w = Step.fall none w []) ∧
    (∀ (api : List ApiCall) (d : Bool) (w : World σ),
      (ksyunApiCallProcess H api d w).outcome =
        (ksyunApiCallProcess H (withExecute api) d w).outcome ∧
      (ksyunApiCallProcess H api d w).world =
        (ksyunApiCallProcess H (withExecute api) d w).world ∧
      (ksyunApiCallProcess H api d w).trace =
        (ksyunApiCallProcess H (withExecute api) d w).trace.map
          (Event.reindex (fun x => (executePositions 0 api).getD x 0))) ∧
    (∀ (api : List ApiCall) (isDryRun : Bool) (w : World σ),
      (ksyunApiCallNew H api isDryRun w).outcome =
        (ksyunApiCallNew H (withExecute api) isDryRun w).outcome ∧
      (ksyunApiCallNew H api isDryRun w).world =
        (ksyunApiCallNew H (withExecute api) isDryRun w).world ∧
      (ksyunApiCallNew H api isDryRun w).trace =
        (ksyunApiCallNew H (withExecute api) isDryRun w).trace.map
          (Event.reindex (fun x => (executePositions 0 api).getD x 0))) ∧
    (∀ (req : Option (List (String × Val))) (id : String) (addr tbl executeRef afterRef : Nat)
      (w : World σ), (req = none ∨ req = some []) →
      ModifyRuleGroup H (req, none) id addr tbl executeRef afterRef w =
        ⟨Outcome.returned none, w, []⟩) := by
  refine ⟨fun d i f w hx => step_inert H d i f none w hx, ?_, new_drop_inert H, ?_⟩
  · intro api d w
    have h := loop_drop_inert H d api 0 0 w
    simp only [Nat.sub_zero] at h
    exact h
  · intro req id addr tbl executeRef afterRef w hreq
    have hcall : modifyRuleGroupCall (req, none) id addr tbl executeRef afterRef w =
        ((zeroCall, none), w) := by
      rcases hreq with h | h <;> simp [modifyRuleGroupCall, h]
    simp only [ModifyRuleGroup, hcall, ksyunApiCallNew, process_zeroCall]
    split <;> rfl

theorem inert_calls_witness :
    ksyunApiCallStep demoHooks true 0 zeroCall none (demoWorld true) =
      Step.fall none (demoWorld true) [] ∧
    ModifyRuleGroup demoHooks (some [], none) "rule-group" 1 1 0 0 (demoWorld true) =
      ⟨Outcome.returned none, demoWorld true, []⟩ :=
  ⟨(inert_calls demoHooks).1 true 0 zeroCall (demoWorld true) rfl,
   (inert_calls demoHooks).2.2.2 (some []) "rule-group" 1 1 0 0 (demoWorld true)
    (Or.inr rfl)⟩

/-! ## Invariants of `Run` -/

theorem eraseIdx_length_of_get {α : Type} (l : List α) (j : Nat) (x : α) (h : l[j]? = some x) :
    (l.eraseIdx j).length + 1 = l.length := by
  induction l generalizing j with
  | nil => simp at h
  | cons y l ih =>
    cases j with
    | zero => simp
    | succ j =>
      simp only [List.getElem?_cons_succ] at h
      simp [ih j h]

theorem eraseIdx_count_of_get {α : Type} [BEq α] (l : List α) (j : Nat) (x y : α)
    (h : l[j]? = some x) : (l.eraseIdx j).count y + [x].count y = l.count y := by
  induction l generalizing j with
  | nil => simp at h
  | cons z l ih =>
    cases j with
    | zero =>
      simp only [List.getElem?_cons_zero, Option.some.injEq] at h
      subst h
      simp only [List.eraseIdx_cons_zero, List.count_cons, List.count_nil]
      omega
    | succ j =>
      simp only [List.getElem?_cons_succ] at h
      have := ih j h
      simp only [List.eraseIdx_cons_succ, List.count_cons] at this ⊢
      omega

theorem mem_of_get {α : Type} (l : List α) (j : Nat) (x : α) (h : l[j]? = some x) : x ∈ l := by
  induction l generalizing j with
  | nil => simp at h
  | cons z l ih =>
    cases j with
    | zero =>
      simp only [List.getElem?_cons_zero, Option.some.injEq] at h
      simp [h]
    | succ j =>
      simp only [List.getElem?_cons_succ] at h
      exact List.mem_cons_of_mem _ (ih j h)

theorem mem_of_mem_eraseIdx' {α : Type} (l : List α) (j : Nat) (x : α)
    (h : x ∈ l.eraseIdx j) : x ∈ l := by
  induction l generalizing j with
  | nil => simp at h
  | cons z l ih =>
    cases j with
    | zero => exact List.mem_cons_of_mem _ (by simpa using h)
    | succ j =>
      simp only [List.eraseIdx_cons_succ, List.mem_cons] at h
      rcases h with h | h
      · simp [h]
      · exact List.mem_cons_of_mem _ (ih j h)

theorem slots_step {σ : Type} (H : HooksAt σ) (a : ApiProcess) (n : Nat) (c : Choice)
    (s t : RunState σ) (hf : Fresh a n) (h : SlotsInv n s) (hs : runStep H a c s = some t) :
    SlotsInv n t := by
  obtain ⟨hf1, hf2, hf3, hf4, hf5⟩ := hf
  obtain ⟨h1, h2⟩ := h
  unfold held at h1
  unfold runStep at hs
  split at hs
  · simp at hs
  · cases c with
    | run j =>
      simp only [stepRun] at hs
      split at hs
      · simp at hs
      · rename_i k call hget
        have hl := eraseIdx_length_of_get _ _ _ hget
        split at hs <;> simp only [Option.some.injEq] at hs <;> subst hs <;>
          simp_all [SlotsInv, held] <;> omega
    | send j =>
      simp only [stepSend, hf1] at hs
      split at hs
      · rename_i e ch hget hch
        have hl := eraseIdx_length_of_get _ _ _ hget
        (repeat' split at hs) <;> simp only [Option.some.injEq, reduceCtorEq] at hs <;>
          (try subst hs) <;> simp_all [SlotsInv, held] <;> omega
      · simp at hs
    | _ =>
      simp only [stepMain, stepCtxDone, stepEarlyStop, stepDone, stepRelease, stepCollect,
        stepCancel, hf1, hf2, hf3] at hs
      (repeat' split at hs) <;> simp only [Option.some.injEq, reduceCtorEq] at hs <;>
        (try subst hs) <;> simp_all [SlotsInv, held, spawnFlag] <;> omega

theorem wg_step {σ : Type} (H : HooksAt σ) (a : ApiProcess) (n : Nat) (c : Choice)
    (s t : RunState σ) (hf : Fresh a n) (h : WgInv s) (hs : runStep H a c s = some t) :
    WgInv t := by
  obtain ⟨hf1, hf2, hf3, hf4, hf5⟩ := hf
  have h1 := (show s.wg = _ from h).symm
  clear h
  unfold runStep at hs
  split at hs
  · simp at hs
  · cases c with
    | run j =>
      simp only [stepRun] at hs
      split at hs
      · simp at hs
      · rename_i k call hget
        have hl := eraseIdx_length_of_get _ _ _ hget
        (split at hs <;> simp only [Option.some.injEq] at hs <;> subst hs <;>
          simp only [WgInv] <;> simp_all) <;> omega
    | send j =>
      simp only [stepSend, hf1] at hs
      split at hs
      · rename_i e ch hget hch
        have hl := eraseIdx_length_of_get _ _ _ hget
        (repeat' split at hs) <;> simp only [Option.some.injEq, reduceCtorEq] at hs <;>
          (try subst hs) <;> simp_all [WgInv] <;> omega
      · simp at hs
    | _ =>
      simp only [stepMain, stepCtxDone, stepEarlyStop, stepDone, stepRelease, stepCollect,
        stepCancel, hf1, hf2, hf3] at hs
      (repeat' split at hs) <;> simp only [Option.some.injEq, reduceCtorEq] at hs <;>
        (try subst hs) <;> simp_all [WgInv, addedFlag] <;> omega

theorem count_step {σ : Type} (H : HooksAt σ) (a : ApiProcess) (n : Nat) (c : Choice)
    (s t : RunState σ) (hf : Fresh a n) (hw : WgInv s) (h : CountInv a s)
    (hs : runStep H a c s = some t) : CountInv a t := by
  obtain ⟨hf1, hf2, hf3, hf4, hf5⟩ := hf
  have hw1 := (show s.wg = _ from hw).symm
  clear hw
  unfold CountInv at h
  unfold runStep at hs
  split at hs
  · simp at hs
  · cases c with
    | run j =>
      simp only [stepRun] at hs
      split at hs
      · simp at hs
      · rename_i k call hget
        have hl := eraseIdx_length_of_get _ _ _ hget
        split at hs <;> simp only [Option.some.injEq] at hs <;> subst hs <;>
          simp only [CountInv] <;> split at h <;> simp_all <;> omega
    | send j =>
      simp only [stepSend, hf1] at hs
      split at hs
      · (repeat' split at hs) <;> simp only [Option.some.injEq, reduceCtorEq] at hs <;>
          (try subst hs) <;> simp only [CountInv] <;> exact h
      · simp at hs
    | main =>
      simp only [stepMain, hf1, hf2, hf3] at hs
      cases hm : s.main with
      | wait =>
        simp only [hm] at hs h hw1
        split at hs
        · rename_i hz
          simp only [Option.some.injEq] at hs
          subst hs
          simp only [addedFlag] at hw1
          have hr : s.running = [] := List.length_eq_zero.mp (by omega)
          simp only [CountInv]
          rw [hr] at h
          exact ⟨hr, by simpa using h⟩
        · simp at hs
      | select k =>
        simp only [hm] at hs h
        split at hs
        · rename_i hq
          rw [List.getElem?_eq_none_iff] at hq
          simp only [Option.some.injEq] at hs; subst hs
          simp only [CountInv]; omega
        · rename_i call hq
          have hlt : k < a.ApiProcessQueue.length := by
            by_contra hge
            rw [List.getElem?_eq_none_iff.mpr (by omega)] at hq
            simp at hq
          (repeat' split at hs) <;> simp only [Option.some.injEq, reduceCtorEq] at hs <;>
            (try subst hs) <;> simp_all [CountInv]
      | _ =>
        simp only [hm] at hs h hw1 <;>
        (repeat' split at hs) <;> simp only [Option.some.injEq, reduceCtorEq] at hs <;>
        (try subst hs) <;> simp_all [CountInv, addedFlag] <;> omega
    | _ =>
      simp only [stepCtxDone, stepEarlyStop, stepDone, stepRelease, stepCollect,
        stepCancel, hf1, hf2, hf3] at hs
      cases hm : s.main <;> simp only [hm] at hs h <;>
      (repeat' split at hs) <;> simp only [Option.some.injEq, reduceCtorEq] at hs <;>
        (try subst hs) <;> simp_all [CountInv]

/-- The bound of `ValsInv` for the slice `l` and the value `x`. -/
theorem vals_split {σ : Type} (s : RunState σ) :
    ValsInv s ↔
      (∀ x, s.errors.count x + s.collector.held.count x + s.errCh.count x + s.sending.count x ≤
        (s.log.map Prod.snd).count x + (stopList s.main).count x) ∧
      (∀ x, ∀ l ∈ s.collector.slices,
        l.count x + s.collector.held.count x + s.errCh.count x + s.sending.count x ≤
          (s.log.map Prod.snd).count x + (stopList s.main).count x) ∧
      (∀ x, ∀ l ∈ s.main.slices,
        l.count x + s.collector.held.count x + s.errCh.count x + s.sending.count x ≤
          (s.log.map Prod.snd).count x + (stopList s.main).count x) := by
  unfold ValsInv slices
  constructor
  · intro h
    exact ⟨fun x => h x _ (List.mem_cons_self _ _),
      fun x l hl => h x l (List.mem_cons_of_mem _ (List.mem_append_left _ hl)),
      fun x l hl => h x l (List.mem_cons_of_mem _ (List.mem_append_right _ hl))⟩
  · rintro ⟨h1, h2, h3⟩ x l hl
    rcases List.mem_cons.mp hl with rfl | hl
    · exact h1 x
    · rcases List.mem_append.mp hl with hl | hl
      · exact h2 x l hl
      · exact h3 x l hl

theorem vals_step {σ : Type} (H : HooksAt σ) (a : ApiProcess) (n : Nat) (c : Choice)
    (s t : RunState σ) (hf : Fresh a n) (h : ValsInv s) (hs : runStep H a c s = some t) :
    ValsInv t := by
  obtain ⟨hf1, hf2, hf3, hf4, hf5⟩ := hf
  rw [vals_split] at h ⊢
  obtain ⟨hE, hC, hM⟩ := h
  unfold runStep at hs
  split at hs
  · simp at hs
  · cases c with
    | run j =>
      simp only [stepRun] at hs
      split at hs
      · simp at hs
      · split at hs <;> simp only [Option.some.injEq] at hs <;> subst hs
        · exact ⟨hE, hC, hM⟩
        · refine ⟨fun x => ?_, fun x l hl => ?_, fun x l hl => ?_⟩
          · have := hE x
            simp only [List.map_append, List.count_append, List.map_cons, List.map_nil] at this ⊢
            omega
          · have := hC x l hl
            simp only [List.map_append, List.count_append, List.map_cons, List.map_nil] at this ⊢
            omega
          · have := hM x l hl
            simp only [List.map_append, List.count_append, List.map_cons, List.map_nil] at this ⊢
            omega
    | send j =>
      simp only [stepSend, hf1] at hs
      split at hs
      · rename_i e ch hget hch
        have hl := fun x => eraseIdx_count_of_get _ _ _ x hget
        cases hcol : s.collector <;> simp only [hcol] at hs hE hC hM <;>
          (repeat' split at hs) <;> simp only [Option.some.injEq, reduceCtorEq] at hs <;>
          (try subst hs) <;>
          refine ⟨fun x => ?_, fun x l hl1 => ?_, fun x l hl1 => ?_⟩ <;>
          (try simp only [hcol, CollectorPc.slices, List.not_mem_nil, List.mem_singleton]
            at hl1) <;>
          (try subst hl1) <;>
          (try simp only [CollectorPc.slices, List.not_mem_nil, List.mem_singleton, forall_eq]
            at hC) <;>
          first
            | (have h1 := hE x; have h2 := hl x
               simp only [List.count_append, List.count_nil, CollectorPc.held] at h1 h2 ⊢; omega)
            | (have h1 := hM x l hl1; have h2 := hl x
               simp only [List.count_append, List.count_nil, CollectorPc.held] at h1 h2 ⊢; omega)
            | (have h1 := hC x; have h2 := hl x
               simp only [List.count_append, List.count_nil, CollectorPc.held] at h1 h2 ⊢
               omega)
      · simp at hs
    | collect =>
      simp only [stepCollect] at hs
      cases hcol : s.collector <;> cases hch : s.errCh <;>
        simp only [hcol, hch, Option.some.injEq, reduceCtorEq] at hs hE hC hM <;>
        (try subst hs) <;>
        refine ⟨fun x => ?_, fun x l hl1 => ?_, fun x l hl1 => ?_⟩ <;>
        (try simp only [hcol, CollectorPc.slices, List.not_mem_nil, List.mem_singleton]
          at hl1) <;>
        (try subst hl1) <;>
        (try simp only [CollectorPc.slices, List.not_mem_nil, List.mem_singleton, forall_eq]
          at hC) <;>
        first
          | (have h1 := hE x
             simp only [List.count_append, List.count_nil, List.count_cons,
               CollectorPc.held] at h1 ⊢; omega)
          | (have h1 := hM x l hl1
             simp only [List.count_append, List.count_nil, List.count_cons,
               CollectorPc.held] at h1 ⊢; omega)
          | (have h1 := hC x
             simp only [List.count_append, List.count_nil, List.count_cons,
               CollectorPc.held] at h1 ⊢; omega)
    | main =>
      simp only [stepMain, hf2, hf3] at hs
      cases hm : s.main <;> simp only [hm] at hs hE hC hM <;>
        (repeat' split at hs) <;> simp only [Option.some.injEq, reduceCtorEq] at hs <;>
        (try subst hs) <;>
        refine ⟨fun x => ?_, fun x l hl1 => ?_, fun x l hl1 => ?_⟩ <;>
        (try simp only [hm, MainPc.slices, List.not_mem_nil, List.mem_singleton] at hl1) <;>
        (try subst hl1) <;>
        (try simp only [MainPc.slices, List.not_mem_nil, List.mem_singleton, forall_eq]
          at hM) <;>
        first
          | (have h1 := hE x
             simp only [List.count_append, List.count_nil, List.count_cons, stopList]
               at h1 ⊢; omega)
          | (have h1 := hC x l hl1
             simp only [List.count_append, List.count_nil, List.count_cons, stopList]
               at h1 ⊢; omega)
          | (have h1 := hM x
             simp only [List.count_append, List.count_nil, List.count_cons, stopList]
               at h1 ⊢; omega)
    | ctxDone =>
      simp only [stepCtxDone] at hs
      cases hm : s.main <;> simp only [hm] at hs hE hC hM <;>
        (repeat' split at hs) <;> simp only [Option.some.injEq, reduceCtorEq] at hs <;>
        (try subst hs) <;>
        exact ⟨by simpa [stopList] using hE, by simpa [stopList] using hC,
          by simp [MainPc.slices]⟩
    | earlyStop =>
      simp only [stepEarlyStop] at hs
      cases hm : s.main <;> simp only [hm] at hs hE hC hM <;>
        (repeat' split at hs) <;> simp only [Option.some.injEq, reduceCtorEq] at hs <;>
        (try subst hs) <;>
        exact ⟨by simpa [stopList] using hE, by simpa [stopList] using hC,
          by simp [MainPc.slices]⟩
    | _ =>
      simp only [stepDone, stepRelease, stepCancel, hf2] at hs
      (repeat' split at hs) <;> simp only [Option.some.injEq, reduceCtorEq] at hs <;>
        (try subst hs) <;> exact ⟨hE, hC, hM⟩

theorem early_step {σ : Type} (H : HooksAt σ) (a : ApiProcess) (c : Choice)
    (s t : RunState σ) (h : s.earlyStop = none) (hs : runStep H a c s = some t) :
    t.earlyStop = none := by
  unfold runStep at hs
  split at hs
  · simp at hs
  · cases c <;>
      simp only [stepMain, stepCtxDone, stepEarlyStop, stepRun, stepSend, stepDone,
        stepRelease, stepCollect, stepCancel, h] at hs <;>
      (repeat' split at hs) <;> simp only [Option.some.injEq, reduceCtorEq] at hs <;>
      (try subst hs) <;> first | exact h | simp_all

theorem get_map {α β : Type} (f : α → β) (l : List α) (j : Nat) (x : α) (h : l[j]? = some x) :
    (l.map f)[j]? = some (f x) := by
  simp [h]

theorem eraseIdx_map' {α β : Type} (f : α → β) (l : List α) (j : Nat) :
    (l.eraseIdx j).map f = (l.map f).eraseIdx j := by
  induction l generalizing j with
  | nil => simp
  | cons z l ih =>
    cases j with
    | zero => simp
    | succ j => simp [ih j]

theorem idx_step {σ : Type} (H : HooksAt σ) (a : ApiProcess) (n : Nat) (c : Choice)
    (s t : RunState σ) (hf : Fresh a n) (hc : CountInv a s) (h : IdxInv a s)
    (hs : runStep H a c s = some t) : IdxInv a t := by
  obtain ⟨hf1, hf2, hf3, hf4, hf5⟩ := hf
  obtain ⟨h1, h2⟩ := h
  unfold runStep at hs
  split at hs
  · simp at hs
  · cases c with
    | run j =>
      simp only [stepRun] at hs
      split at hs
      · simp at hs
      · rename_i k call hget
        split at hs <;> simp only [Option.some.injEq] at hs <;> subst hs
        · exact ⟨h1, h2⟩
        · rename_i callErr hout
          have hl := eraseIdx_length_of_get _ _ _ hget
          refine ⟨?_, ?_⟩
          · intro x
            have hcnt := eraseIdx_count_of_get _ _ _ x (get_map Prod.fst _ _ _ hget)
            dsimp only at hcnt
            have hx := h1 x
            simp only [eraseIdx_map', List.map_append, List.count_append, List.map_cons,
              List.map_nil, List.length_append, List.length_cons, List.length_nil] at hx ⊢
            have he : (s.running.eraseIdx j).length + (s.log.length + (0 + 1)) =
                s.running.length + s.log.length := by omega
            rw [he]
            omega
          · intro p hp
            exact h2 p (mem_of_mem_eraseIdx' _ _ _ hp)
    | main =>
      simp only [stepMain, hf2, hf3] at hs
      cases hm : s.main <;> simp only [hm] at hs <;>
        (repeat' split at hs) <;> simp only [Option.some.injEq, reduceCtorEq] at hs <;>
        (try subst hs) <;> (try exact ⟨h1, h2⟩)
      rename_i k call hq
      simp only [CountInv, hm] at hc
      refine ⟨?_, ?_⟩
      · intro x
        have hx := h1 x
        simp only [List.map_append, List.count_append, List.map_cons,
          List.map_nil, List.length_append, List.length_cons, List.length_nil] at hx ⊢
        have he : s.running.length + (0 + 1) + s.log.length =
            (s.running.length + s.log.length) + 1 := by omega
        rw [he, List.range_succ, List.count_append, hc.1]
        rw [hc.1] at hx
        omega
      · intro p hp
        rw [List.mem_append, List.mem_singleton] at hp
        rcases hp with hp | hp
        · exact h2 p hp
        · subst hp
          exact hq
    | _ =>
      simp only [stepCtxDone, stepEarlyStop, stepSend, stepDone, stepRelease, stepCollect,
        stepCancel, hf1, hf2] at hs
      (repeat' split at hs) <;> simp only [Option.some.injEq, reduceCtorEq] at hs <;>
        (try subst hs) <;> exact ⟨h1, h2⟩

/-- One more run of the sequential runner on a singleton list, after the runs
for the positions `ks`. -/
theorem runSingletons_snoc {σ : Type} (H : HooksAt σ) (a : ApiProcess) (k : Nat)
    (call : ApiCall) (e : Option Err) (hq : a.ApiProcessQueue[k]? = some call) :
    ∀ (ks : List Nat) (w0 w1 : World σ) (L : List (Nat × Option Err)),
      runSingletons H a ks w0 = some (L, w1) →
      (ksyunApiCallNewAt H [call] a.d a.client a.DryRun w1).outcome = Outcome.returned e →
      runSingletons H a (ks ++ [k]) w0 =
        some (L ++ [(k, e)], (ksyunApiCallNewAt H [call] a.d a.client a.DryRun w1).world) := by
  intro ks
  induction ks with
  | nil =>
    intro w0 w1 L h he
    simp only [runSingletons, Option.some.injEq, Prod.mk.injEq] at h
    obtain ⟨rfl, rfl⟩ := h
    simp [runSingletons, hq, he]
  | cons k0 ks ih =>
    intro w0 w1 L h he
    simp only [runSingletons, List.cons_append] at h ⊢
    cases hq0 : a.ApiProcessQueue[k0]? with
    | none => simp [hq0] at h
    | some call0 =>
      simp only [hq0] at h ⊢
      cases ho : (ksyunApiCallNewAt H [call0] a.d a.client a.DryRun w0).outcome with
      | panicked => simp [ho] at h
      | returned e0 =>
        simp only [ho] at h ⊢
        cases hr : runSingletons H a ks
            (ksyunApiCallNewAt H [call0] a.d a.client a.DryRun w0).world with
        | none => simp [hr] at h
        | some r =>
          obtain ⟨L0, w2⟩ := r
          simp only [hr, Option.map_some', Option.some.injEq, Prod.mk.injEq] at h
          obtain ⟨rfl, rfl⟩ := h
          have hih := ih _ _ _ hr he
          simp only [List.append_eq]
          rw [hih]
          simp

theorem chain_step {σ : Type} (H : HooksAt σ) (a : ApiProcess) (w0 : World σ) (c : Choice)
    (s t : RunState σ) (hi : IdxInv a s) (h : ChainInv H a w0 s)
    (hs : runStep H a c s = some t) : ChainInv H a w0 t := by
  obtain ⟨w1, h1, h2⟩ := h
  unfold runStep at hs
  split at hs
  · simp at hs
  · rename_i hnc
    have hw := h2 (by simpa using hnc)
    cases c with
    | run j =>
      simp only [stepRun] at hs
      split at hs
      · simp at hs
      · rename_i k call hget
        have hq := hi.2 (k, call) (mem_of_get _ _ _ hget)
        split at hs <;> simp only [Option.some.injEq] at hs <;> subst hs
        · exact ⟨w1, h1, by simp⟩
        · rename_i callErr hout
          refine ⟨_, ?_, fun _ => rfl⟩
          simp only [List.map_append, List.map_cons, List.map_nil]
          rw [hw] at hout ⊢
          exact runSingletons_snoc H a k call callErr hq _ w0 w1 _ h1 hout
    | _ =>
      simp only [stepMain, stepCtxDone, stepEarlyStop, stepSend, stepDone, stepRelease,
        stepCollect, stepCancel] at hs
      (repeat' split at hs) <;> simp only [Option.some.injEq, reduceCtorEq] at hs <;>
        (try subst hs) <;> first | exact ⟨w1, h1, h2⟩ | exact ⟨w1, h1, by simp⟩

theorem inv_init {σ : Type} (H : HooksAt σ) (a : ApiProcess) (n : Nat) (w : World σ)
    (cancelled : Bool) (hf : Fresh a n) : RunInv H a n w (runInit a w cancelled) := by
  obtain ⟨hf1, hf2, hf3, hf4, hf5⟩ := hf
  refine ⟨?_, ?_, ?_, ?_, ?_, ?_, ?_⟩
  · simp [SlotsInv, held, runInit, spawnFlag, hf2]
  · simp [WgInv, runInit, addedFlag, hf3]
  · simp [CountInv, runInit]
  · intro x l hl
    simp [runInit, hf1, hf5, stopList, slices, CollectorPc.slices, MainPc.slices,
      CollectorPc.held] at hl ⊢
    simp [hl]
  · simp [IdxInv, runInit]
  · exact ⟨w, by simp [runInit, runSingletons], fun _ => rfl⟩
  · simp [runInit, hf4]

theorem inv_step {σ : Type} (H : HooksAt σ) (a : ApiProcess) (n : Nat) (w0 : World σ)
    (c : Choice) (s t : RunState σ) (hf : Fresh a n) (h : RunInv H a n w0 s)
    (hs : runStep H a c s = some t) : RunInv H a n w0 t := by
  obtain ⟨h1, h2, h3, h4, h5, h6, h7⟩ := h
  exact ⟨slots_step H a n c s t hf h1 hs, wg_step H a n c s t hf h2 hs,
    count_step H a n c s t hf h2 h3 hs, vals_step H a n c s t hf h4 hs,
    idx_step H a n c s t hf h3 h5 hs, chain_step H a w0 c s t h5 h6 hs,
    early_step H a c s t h7 hs⟩

/-- A property kept by every enabled step holds along every schedule. -/
theorem exec_induct {σ : Type} (H : HooksAt σ) (a : ApiProcess) (P : RunState σ → Prop)
    (hstep : ∀ c s t, P s → runStep H a c s = some t → P t) :
    ∀ (sched : List Choice) (s : RunState σ), P s → P (exec H a sched s) := by
  intro sched
  induction sched with
  | nil => intro s hs; exact hs
  | cons c rest ih =>
    intro s hs
    simp only [exec]
    cases hc : runStep H a c s with
    | none => exact ih s hs
    | some t => exact ih t (hstep c s t hs hc)

/-- The invariant holds in every state a run of `Run` can reach. -/
theorem inv_exec {σ : Type} (H : HooksAt σ) (a : ApiProcess) (n : Nat) (w : World σ)
    (cancelled : Bool) (sched : List Choice) (hf : Fresh a n) :
    RunInv H a n w (exec H a sched (runInit a w cancelled)) :=
  exec_induct H a (RunInv H a n w) (fun c s t h hs => inv_step H a n w c s t hf h hs) sched _
    (inv_init H a n w cancelled hf)

/-- A process made by `NewApiProcess` and filled by `PutCalls` is fresh, with
the capacity `MulNum`. -/
theorem fresh_new (ctx d client : Option Nat) (dryRun : Bool) (goRoutineNum : Int)
    (calls : List ApiCall) :
    Fresh (PutCalls (NewApiProcess ctx d client dryRun goRoutineNum) calls)
      (PutCalls (NewApiProcess ctx d client dryRun goRoutineNum) calls).MulNum.toNat := by
  simp [Fresh, PutCalls, NewApiProcess]

/-! ## Bounded concurrency -/

/-- C14: for a process created by `NewApiProcess` with limit `n` and filled
with any queue, in every state a run of `Run` can reach, under every
schedule, the number of workers whose contract execution is in flight, and
even the number of workers that have not yet given back their slot, is at most
`MulNum`, which is `n` when `n` is positive. -/
theorem bounded_concurrency {σ : Type} (H : HooksAt σ) (ctx d client : Option Nat)
    (dryRun : Bool) (n : Int) (calls : List ApiCall) (w : World σ) (cancelled : Bool)
    (sched : List Choice) :
    ((exec H (PutCalls (NewApiProcess ctx d client dryRun n) calls) sched
        (runInit (PutCalls (NewApiProcess ctx d client dryRun n) calls) w cancelled)
      ).running.length : Int) ≤ (PutCalls (NewApiProcess ctx d client dryRun n) calls).MulNum ∧
    ((held (exec H (PutCalls (NewApiProcess ctx d client dryRun n) calls) sched
        (runInit (PutCalls (NewApiProcess ctx d client dryRun n) calls) w cancelled)) : Nat)
      : Int) ≤ (PutCalls (NewApiProcess ctx d client dryRun n) calls).MulNum ∧
    (0 < n → (PutCalls (NewApiProcess ctx d client dryRun n) calls).MulNum = n) := by
  have hinv := (inv_exec H _ _ w cancelled sched (fresh_new ctx d client dryRun n calls)).1
  obtain ⟨h1, h2⟩ := hinv
  have hm : 0 ≤ (PutCalls (NewApiProcess ctx d client dryRun n) calls).MulNum := by
    simp only [PutCalls, NewApiProcess]
    split <;> omega
  have hheld := h1
  unfold held at h1
  refine ⟨by omega, by omega, ?_⟩
  intro hn
  simp [PutCalls, NewApiProcess, hn]

/-! ## A limit of zero -/

/-- On a process made with limit 0 and a queue that is not empty, `Run` never
starts a worker and never gets past `wg.Wait()` to line 203: the send of line
192 on the unbuffered slot channel finds no receiver. -/
theorem zero_limit_blocks {σ : Type} (H : HooksAt σ) (a : ApiProcess) (w : World σ)
    (cancelled : Bool) (sched : List Choice) (hf : Fresh a 0) (hq : a.ApiProcessQueue ≠ []) :
    (exec H a sched (runInit a w cancelled)).running = [] ∧
    (exec H a sched (runInit a w cancelled)).log = [] ∧
    (exec H a sched (runInit a w cancelled)).main ≠ MainPc.lastReturn ∧
    ∀ errs, (exec H a sched (runInit a w cancelled)).main ≠ MainPc.returned errs := by
  have key : RunInv H a 0 w (exec H a sched (runInit a w cancelled)) ∧
      (exec H a sched (runInit a w cancelled)).log = [] := by
    refine exec_induct H a (fun s => RunInv H a 0 w s ∧ s.log = []) ?_ sched _
      ⟨inv_init H a 0 w cancelled hf, rfl⟩
    intro c s t hs hstep
    refine ⟨inv_step H a 0 w c s t hf hs.1 hstep, ?_⟩
    obtain ⟨⟨⟨h1, h2⟩, -⟩, hlog⟩ := hs
    have hrun : s.running = [] := by
      unfold held at h1
      exact List.length_eq_zero.mp (by omega)
    unfold runStep at hstep
    split at hstep
    · simp at hstep
    · cases c <;>
        simp only [stepMain, stepCtxDone, stepEarlyStop, stepRun, stepSend, stepDone,
          stepRelease, stepCollect, stepCancel, hrun, List.getElem?_nil] at hstep <;>
        (repeat' split at hstep) <;>
        simp only [Option.some.injEq, reduceCtorEq] at hstep <;>
        (try subst hstep) <;> exact hlog
  obtain ⟨hinv, hlog⟩ := key
  obtain ⟨⟨h1, h2⟩, -, h3, -⟩ := hinv
  refine ⟨?_, hlog, ?_, ?_⟩
  · unfold held at h1
    exact List.length_eq_zero.mp (by omega)
  · intro hret
    simp only [CountInv, hret, hlog, List.length_nil] at h3
    exact hq (List.length_eq_zero.mp h3.2.symm)
  · intro errs hret
    simp only [CountInv, hret, hlog, List.length_nil] at h3
    exact hq (List.length_eq_zero.mp h3.2.symm)

/-! ## Progress of `Run` -/

theorem exec_append {σ : Type} (H : HooksAt σ) (a : ApiProcess) (l1 l2 : List Choice)
    (s : RunState σ) : exec H a (l1 ++ l2) s = exec H a l2 (exec H a l1 s) := by
  induction l1 generalizing s with
  | nil => rfl
  | cons c rest ih => exact ih _

/-- A property kept by every enabled step of the choices of a schedule holds
along that schedule. -/
theorem exec_induct_mem {σ : Type} (H : HooksAt σ) (a : ApiProcess) (P : RunState σ → Prop) :
    ∀ (sched : List Choice) (s : RunState σ),
      (∀ c ∈ sched, ∀ s t, P s → runStep H a c s = some t → P t) → P s →
      P (exec H a sched s) := by
  intro sched
  induction sched with
  | nil => intro s _ hs; exact hs
  | cons c rest ih =>
    intro s hstep hs
    simp only [exec]
    have hrest : ∀ c ∈ rest, ∀ s t, P s → runStep H a c s = some t → P t :=
      fun c1 hc1 => hstep c1 (List.mem_cons_of_mem _ hc1)
    cases hc : runStep H a c s with
    | none => exact ih s hrest hs
    | some t => exact ih t hrest (hstep c (List.mem_cons_self _ _) s t hs hc)

/-- Only the owner of the context cancels it. -/
theorem cancelled_step {σ : Type} (H : HooksAt σ) (a : ApiProcess) (c : Choice)
    (s t : RunState σ) (hc : c ≠ Choice.cancel) (hs : runStep H a c s = some t) :
    t.cancelled = s.cancelled := by
  unfold runStep at hs
  split at hs
  · simp at hs
  · cases c <;>
      simp only [stepMain, stepCtxDone, stepEarlyStop, stepRun, stepSend, stepDone,
        stepRelease, stepCollect, stepCancel] at hs <;>
      (repeat' split at hs) <;> simp only [Option.some.injEq, reduceCtorEq] at hs <;>
      (try subst hs) <;> first | rfl | exact absurd rfl hc

theorem stop_step {σ : Type} (H : HooksAt σ) (a : ApiProcess) (c : Choice)
    (s t : RunState σ) (h : s.earlyStop = none ∧ StopInv s) (hs : runStep H a c s = some t) :
    t.earlyStop = none ∧ StopInv t := by
  refine ⟨early_step H a c s t h.1 hs, ?_⟩
  obtain ⟨he, h1, h2, h3, h4⟩ := h
  unfold runStep at hs
  split at hs
  · simp at hs
  · cases c with
    | main =>
      simp only [stepMain] at hs
      cases hm : s.main <;> simp only [hm] at hs h1 h2 h3 h4 <;>
        (repeat' split at hs) <;> simp only [Option.some.injEq, reduceCtorEq] at hs <;>
        (try subst hs) <;> simp_all [StopInv]
    | ctxDone =>
      simp only [stepCtxDone] at hs
      cases hm : s.main <;> simp only [hm] at hs h1 h2 h3 h4 <;>
        (repeat' split at hs) <;> simp only [Option.some.injEq, reduceCtorEq] at hs <;>
        (try subst hs) <;> simp_all [StopInv]
    | earlyStop =>
      simp only [stepEarlyStop, he] at hs
      cases hm : s.main <;> simp only [hm] at hs h1 h2 h3 h4 <;>
        (repeat' split at hs) <;> simp only [Option.some.injEq, reduceCtorEq] at hs <;>
        simp_all
    | _ =>
      simp only [stepRun, stepSend, stepDone, stepRelease, stepCollect, stepCancel] at hs
      (repeat' split at hs) <;> simp only [Option.some.injEq, reduceCtorEq] at hs <;>
        (try subst hs) <;> first | exact ⟨h1, h2, h3, h4⟩ | (simp_all [StopInv])

theorem stop_exec {σ : Type} (H : HooksAt σ) (a : ApiProcess) (n : Nat) (w : World σ)
    (cancelled : Bool) (sched : List Choice) (hf : Fresh a n) :
    StopInv (exec H a sched (runInit a w cancelled)) := by
  have h : (exec H a sched (runInit a w cancelled)).earlyStop = none ∧
      StopInv (exec H a sched (runInit a w cancelled)) := by
    refine exec_induct H a (fun s => s.earlyStop = none ∧ StopInv s)
      (fun c s t h hs => stop_step H a c s t h hs) sched _ ⟨?_, ?_⟩
    · simp [runInit, hf.2.2.2.1]
    · simp [StopInv, runInit]
  exact h.2

/-- With a context and a client that are not nil and contracts that return, no
step makes the program panic. -/
theorem crash_step {σ : Type} (H : HooksAt σ) (a : ApiProcess) (n ctx : Nat) (c : Choice)
    (s t : RunState σ) (hf : Fresh a n) (hctx : a.Ctx = some ctx)
    (hret : ∀ call ∈ a.ApiProcessQueue, ∀ v, ∃ e,
      (RightNowAt H call a.d a.client a.DryRun v).outcome = Outcome.returned e)
    (hw : WgInv s) (hi : IdxInv a s) (hs : runStep H a c s = some t) : t.crashed = false := by
  obtain ⟨hf1, hf2, hf3, hf4, hf5⟩ := hf
  unfold WgInv at hw
  unfold runStep at hs
  split at hs
  · simp at hs
  · rename_i hnc
    have hnc1 : s.crashed = false := by simpa using hnc
    cases c with
    | run j =>
      simp only [stepRun] at hs
      split at hs
      · simp at hs
      · rename_i k call hget
        have hq := hi.2 (k, call) (mem_of_get _ _ _ hget)
        obtain ⟨e, he⟩ := hret call (mem_of_get _ _ _ hq) s.world
        simp only [he, Option.some.injEq] at hs
        subst hs
        exact hnc1
    | _ =>
      simp only [stepMain, stepCtxDone, stepEarlyStop, stepSend, stepDone, stepRelease,
        stepCollect, stepCancel, hf1, hf2, hf3, hctx] at hs
      (repeat' split at hs) <;> simp only [Option.some.injEq, reduceCtorEq] at hs <;>
        (try subst hs) <;> first | exact hnc1 | omega

/-- Every step other than the cancellation of the context, unless it makes the
program panic, leaves fewer steps to take. -/
theorem remaining_step {σ : Type} (H : HooksAt σ) (a : ApiProcess) (n : Nat) (c : Choice)
    (s t : RunState σ) (hf : Fresh a n) (hc : c ≠ Choice.cancel)
    (hs : runStep H a c s = some t) (ht : t.crashed = false) :
    remaining a t < remaining a s := by
  obtain ⟨hf1, hf2, hf3, hf4, hf5⟩ := hf
  unfold runStep at hs
  split at hs
  · simp at hs
  · rename_i hnc
    cases c with
    | run j =>
      simp only [stepRun] at hs
      split at hs
      · simp at hs
      · rename_i k call hget
        have hl := eraseIdx_length_of_get _ _ _ hget
        split at hs <;> simp only [Option.some.injEq] at hs <;> subst hs
        · simp at ht
        · simp only [remaining, List.length_append, List.length_cons, List.length_nil]
          omega
    | send j =>
      simp only [stepSend, hf1] at hs
      split at hs
      · rename_i e ch hget hch
        have hl := eraseIdx_length_of_get _ _ _ hget
        cases hcol : s.collector <;> simp only [hcol] at hs <;>
          (repeat' split at hs) <;> simp only [Option.some.injEq, reduceCtorEq] at hs <;>
          (try subst hs) <;>
          simp only [remaining, hcol, CollectorPc.weight, List.length_append, List.length_cons,
            List.length_nil] <;> omega
      · simp at hs
    | collect =>
      simp only [stepCollect] at hs
      cases hcol : s.collector <;> cases hch : s.errCh <;>
        simp only [hcol, hch, Option.some.injEq, reduceCtorEq] at hs <;>
        (try subst hs) <;>
        simp only [remaining, hcol, hch, CollectorPc.weight, List.length_cons,
          List.length_nil] <;> omega
    | main =>
      simp only [stepMain, hf2, hf3] at hs
      cases hm : s.main with
      | select k =>
        simp only [hm] at hs
        split at hs
        · rename_i hq
          rw [List.getElem?_eq_none_iff] at hq
          simp only [Option.some.injEq] at hs; subst hs
          simp only [remaining, hm, MainPc.weight]
          omega
        · (repeat' split at hs) <;> simp only [Option.some.injEq, reduceCtorEq] at hs <;>
            (try subst hs) <;> (try simp at ht) <;>
            simp only [remaining, hm, MainPc.weight] <;> omega
      | spawn k =>
        simp only [hm] at hs
        split at hs
        · simp at hs
        · rename_i call hq
          have hlt : k < a.ApiProcessQueue.length := by
            by_contra hge
            rw [List.getElem?_eq_none_iff.mpr (by omega)] at hq
            simp at hq
          simp only [Option.some.injEq] at hs; subst hs
          simp only [remaining, hm, MainPc.weight, List.length_append, List.length_cons,
            List.length_nil]
          omega
      | _ =>
        simp only [hm] at hs <;>
        (repeat' split at hs) <;> simp only [Option.some.injEq, reduceCtorEq] at hs <;>
        (try subst hs) <;> (try simp at ht) <;>
        simp only [remaining, hm, MainPc.weight] <;> omega
    | ctxDone =>
      simp only [stepCtxDone] at hs
      cases hm : s.main <;> simp only [hm] at hs <;>
        (repeat' split at hs) <;> simp only [Option.some.injEq, reduceCtorEq] at hs <;>
        (try subst hs) <;> simp only [remaining, hm, MainPc.weight] <;> omega
    | earlyStop =>
      simp only [stepEarlyStop] at hs
      cases hm : s.main <;> simp only [hm] at hs <;>
        (repeat' split at hs) <;> simp only [Option.some.injEq, reduceCtorEq] at hs <;>
        (try subst hs) <;> simp only [remaining, hm, MainPc.weight] <;> omega
    | done =>
      simp only [stepDone] at hs
      (repeat' split at hs) <;> simp only [Option.some.injEq, reduceCtorEq] at hs <;>
        (try subst hs) <;> (try simp at ht) <;> simp only [remaining] <;> omega
    | release =>
      simp only [stepRelease, hf2] at hs
      (repeat' split at hs) <;> simp only [Option.some.injEq, reduceCtorEq] at hs <;>
        (try subst hs) <;> simp only [remaining] <;> omega
    | cancel => exact absurd rfl hc

/-- With a positive limit, as long as a worker is alive some goroutine other
than the owner of the context can take a step. -/
theorem worker_can_move {σ : Type} (H : HooksAt σ) (a : ApiProcess) (n : Nat) (s : RunState σ)
    (hf : Fresh a n) (hn : 0 < n) (hslots : SlotsInv n s) (hnc : s.crashed = false)
    (hw : 0 < s.running.length + s.sending.length + s.finishing + s.releasing) :
    ∃ c, c ≠ Choice.cancel ∧ (runStep H a c s).isSome = true := by
  obtain ⟨hf1, hf2, hf3, hf4, hf5⟩ := hf
  obtain ⟨h1, h2⟩ := hslots
  unfold held at h1
  have hn0 : n ≠ 0 := by omega
  cases hr : s.running with
  | cons p rest =>
    refine ⟨Choice.run 0, by simp, ?_⟩
    obtain ⟨k, call⟩ := p
    simp only [runStep, hnc, stepRun, hr, List.getElem?_cons_zero, Bool.false_eq_true, if_false]
    cases (RightNowAt H call a.d a.client a.DryRun s.world).outcome <;> rfl
  | nil =>
    by_cases hfin : 0 < s.finishing
    · refine ⟨Choice.done, by simp, ?_⟩
      simp only [runStep, hnc, stepDone, hfin, Bool.false_eq_true, if_false, if_true]
      split <;> rfl
    · by_cases hrel : 0 < s.releasing
      · refine ⟨Choice.release, by simp, ?_⟩
        have hsl : 0 < s.slots := by omega
        simp [runStep, hnc, stepRelease, hf2, hn0, hrel, hsl]
      · cases hsd : s.sending with
        | nil => simp [hr, hsd] at hw; omega
        | cons e rest =>
          by_cases hroom : s.errCh.length < n
          · refine ⟨Choice.send 0, by simp, ?_⟩
            simp [runStep, hnc, stepSend, hsd, hf1, hn0, hroom]
          · refine ⟨Choice.collect, by simp, ?_⟩
            simp only [runStep, hnc, stepCollect, Bool.false_eq_true, if_false]
            cases s.collector with
            | append x => rfl
            | assign l => rfl
            | receive =>
              cases hch : s.errCh with
              | nil => simp [hch] at hroom; omega
              | cons y ys => rfl

/-- With a positive limit, `Run` is never stuck: until it has returned (or the
program has panicked) some goroutine other than the owner of the context can
take a step. -/
theorem run_not_stuck {σ : Type} (H : HooksAt σ) (a : ApiProcess) (n : Nat) (w0 : World σ)
    (s : RunState σ) (hf : Fresh a n) (hn : 0 < n) (hinv : RunInv H a n w0 s)
    (hnc : s.crashed = false) (hres : s.main.result = none) :
    ∃ c, c ≠ Choice.cancel ∧ (runStep H a c s).isSome = true := by
  obtain ⟨hslots, hwg, hcount, -, -, -, hes⟩ := hinv
  have hworker := worker_can_move H a n s hf hn hslots hnc
  obtain ⟨hf1, hf2, hf3, hf4, hf5⟩ := hf
  have hn0 : n ≠ 0 := by omega
  have hs1 := hslots.1
  have hs2 := hslots.2
  unfold held at hs1
  unfold WgInv at hwg
  cases hm : s.main with
  | select k =>
    cases hq : a.ApiProcessQueue[k]? with
    | none => exact ⟨Choice.main, by simp, by simp [runStep, hnc, stepMain, hm, hq]⟩
    | some call =>
      cases hctx : a.Ctx with
      | none => exact ⟨Choice.main, by simp, by simp [runStep, hnc, stepMain, hm, hq, hctx]⟩
      | some ctx =>
        cases hc : s.cancelled with
        | true =>
          exact ⟨Choice.ctxDone, by simp, by simp [runStep, hnc, stepCtxDone, hm, hq, hctx, hc]⟩
        | false =>
          exact ⟨Choice.main, by simp,
            by simp [runStep, hnc, stepMain, hm, hq, hctx, hc, hes]⟩
  | add k => exact ⟨Choice.main, by simp, by simp [runStep, hnc, stepMain, hm, hf3]⟩
  | acquire k =>
    by_cases hroom : s.slots < n
    · exact ⟨Choice.main, by simp, by simp [runStep, hnc, stepMain, hm, hf2, hn0, hroom]⟩
    · apply hworker
      simp only [hm, spawnFlag] at hs1
      omega
  | spawn k =>
    simp only [CountInv, hm] at hcount
    have hq : a.ApiProcessQueue[k]? = some (a.ApiProcessQueue[k]) :=
      List.getElem?_eq_getElem hcount.2
    exact ⟨Choice.main, by simp, by simp [runStep, hnc, stepMain, hm, hq]⟩
  | wait =>
    by_cases hz : s.wg = 0
    · exact ⟨Choice.main, by simp, by simp [runStep, hnc, stepMain, hm, hf3, hz]⟩
    · apply hworker
      simp only [hm, addedFlag] at hwg
      omega
  | stopAppend => exact ⟨Choice.main, by simp, by simp [runStep, hnc, stepMain, hm]⟩
  | stopAssign errs => exact ⟨Choice.main, by simp, by simp [runStep, hnc, stepMain, hm]⟩
  | stopReturn => exact ⟨Choice.main, by simp, by simp [runStep, hnc, stepMain, hm]⟩
  | earlyReturn => exact ⟨Choice.main, by simp, by simp [runStep, hnc, stepMain, hm]⟩
  | lastReturn => exact ⟨Choice.main, by simp, by simp [runStep, hnc, stepMain, hm]⟩
  | stopped errs => simp [hm, MainPc.result] at hres
  | earlyStopped errs => simp [hm, MainPc.result] at hres
  | returned errs => simp [hm, MainPc.result] at hres

/-- With a context that is not nil and contracts that return, no run of `Run`
makes the program panic. -/
theorem run_no_panic {σ : Type} (H : HooksAt σ) (a : ApiProcess) (n ctx : Nat) (w : World σ)
    (cancelled : Bool) (hf : Fresh a n) (hctx : a.Ctx = some ctx)
    (hret : ∀ call ∈ a.ApiProcessQueue, ∀ v, ∃ e,
      (RightNowAt H call a.d a.client a.DryRun v).outcome = Outcome.returned e)
    (sched : List Choice) : (exec H a sched (runInit a w cancelled)).crashed = false := by
  have h := exec_induct H a (fun s => RunInv H a n w s ∧ s.crashed = false)
    (fun c s t hs hstep =>
      ⟨inv_step H a n w c s t hf hs.1 hstep,
        crash_step H a n ctx c s t hf hctx hret hs.1.2.1 hs.1.2.2.2.2.1 hstep⟩)
    sched (runInit a w cancelled) ⟨inv_init H a n w cancelled hf, rfl⟩
  exact h.2

/-- With a positive limit, a run of `Run` in which the context is not
cancelled and the program cannot panic can always be continued until `Run` has
returned. -/
theorem run_completes {σ : Type} (H : HooksAt σ) (a : ApiProcess) (n : Nat) (w : World σ)
    (hf : Fresh a n) (hn : 0 < n)
    (hsafe : ∀ sched, Choice.cancel ∉ sched →
      (exec H a sched (runInit a w false)).crashed = false) :
    ∀ (m : Nat) (sched : List Choice), Choice.cancel ∉ sched →
      remaining a (exec H a sched (runInit a w false)) ≤ m →
      ∃ more, Choice.cancel ∉ more ∧
        (exec H a (sched ++ more) (runInit a w false)).main.result ≠ none := by
  have hnext : ∀ sched, Choice.cancel ∉ sched →
      (exec H a sched (runInit a w false)).main.result = none →
      ∃ c, Choice.cancel ∉ sched ++ [c] ∧
        remaining a (exec H a (sched ++ [c]) (runInit a w false)) <
          remaining a (exec H a sched (runInit a w false)) := by
    intro sched hsched hres
    obtain ⟨c, hc, hsome⟩ := run_not_stuck H a n w _ hf hn
      (inv_exec H a n w false sched hf) (hsafe sched hsched) hres
    obtain ⟨t, ht⟩ := Option.isSome_iff_exists.mp hsome
    have hmem : Choice.cancel ∉ sched ++ [c] := by
      simp only [List.mem_append, List.mem_singleton, not_or]
      exact ⟨hsched, fun h => hc h.symm⟩
    have hcr := hsafe _ hmem
    have hex : exec H a (sched ++ [c]) (runInit a w false) = t := by
      rw [exec_append]
      simp [exec, ht]
    rw [hex] at hcr
    exact ⟨c, hmem, by rw [hex]; exact remaining_step H a n c _ t hf hc ht hcr⟩
  intro m
  induction m with
  | zero =>
    intro sched hsched hm
    by_cases hres : (exec H a sched (runInit a w false)).main.result = none
    · obtain ⟨c, -, hlt⟩ := hnext sched hsched hres
      omega
    · exact ⟨[], by simp, by simpa using hres⟩
  | succ m ih =>
    intro sched hsched hm
    by_cases hres : (exec H a sched (runInit a w false)).main.result = none
    · obtain ⟨c, hmem, hlt⟩ := hnext sched hsched hres
      obtain ⟨more, hm1, hm2⟩ := ih (sched ++ [c]) hmem (by omega)
      refine ⟨c :: more, ?_, ?_⟩
      · simp only [List.mem_append, List.mem_singleton, not_or] at hmem
        simp only [List.mem_cons, not_or]
        exact ⟨hmem.2, hm1⟩
      · simpa using hm2
    · exact ⟨[], by simp, by simpa using hres⟩

/-- A run in which the context is not cancelled and the program does not panic
takes no more steps than the bound `remaining` allows. -/
theorem effective_bound {σ : Type} (H : HooksAt σ) (a : ApiProcess) (n : Nat)
    (hf : Fresh a n) :
    ∀ (sched : List Choice) (s : RunState σ), Choice.cancel ∉ sched →
      (∀ more, Choice.cancel ∉ more → (exec H a more s).crashed = false) →
      Effective H a sched s →
      sched.length + remaining a (exec H a sched s) ≤ remaining a s := by
  intro sched
  induction sched with
  | nil => intro s _ _ _; simp [exec]
  | cons c rest ih =>
    intro s hsched hsafe heff
    obtain ⟨t, ht, hrest⟩ := heff
    simp only [List.mem_cons, not_or] at hsched
    have hex : ∀ more, exec H a (c :: more) s = exec H a more t := by
      intro more
      simp [exec, ht]
    have hcr : t.crashed = false := by
      have := hsafe [c] (by simp; exact hsched.1)
      rwa [hex []] at this
    have hlt := remaining_step H a n c s t hf (fun h => hsched.1 h.symm) ht hcr
    have hsafe1 : ∀ more, Choice.cancel ∉ more → (exec H a more t).crashed = false := by
      intro more hmore
      have := hsafe (c :: more) (by
        simp only [List.mem_cons, not_or]
        exact ⟨hsched.1, hmore⟩)
      rwa [hex more] at this
    have := ih t hsched.2 hsafe1 hrest
    rw [hex rest, List.length_cons]
    omega

/-- The iteration of the real pass never panics. -/
theorem real_step_no_panic {σ : Type} (H : Hooks σ) (i : Nat) (f : ApiCall) (err : Option Err)
    (w : World σ) : ∀ w1 tr, ksyunApiCallStep H false i f err w ≠ Step.panic w1 tr := by
  intro w1 tr
  unfold ksyunApiCallStep
  cases f.executeCall with
  | none => simp
  | some ex =>
    simp only [Bool.false_eq_true, if_false]
    split
    · simp
    · unfold runAfterCall
      split
      · split <;> simp
      · simp

/-- The real pass returns. -/
theorem real_loop_returns {σ : Type} (H : Hooks σ) (api : List ApiCall) :
    ∀ (i : Nat) (err : Option Err) (w : World σ),
      ∃ e, (ksyunApiCallLoop H false i api err w).outcome = Outcome.returned e := by
  induction api with
  | nil => intro i err w; exact ⟨err, rfl⟩
  | cons f rest ih =>
    intro i err w
    rw [loop_cons]
    cases hstep : ksyunApiCallStep H false i f err w with
    | exit e w1 tr => exact ⟨some e, rfl⟩
    | panic w1 tr => exact absurd hstep (real_step_no_panic H i f err w w1 tr)
    | skip w1 tr => exact ih (i + 1) err w1
    | fall e1 w1 tr =>
      cases e1 with
      | none => exact ih (i + 1) none w1
      | some e => exact ⟨some e, rfl⟩

/-- Without dry run and with a client that is not nil, the contract execution
of a worker returns. -/
theorem rightNowAt_real_returns {σ : Type} (H : HooksAt σ) (c : ApiCall) (d : Option Nat)
    (client : Nat) (w : World σ) :
    ∃ e, (RightNowAt H c d (some client) false w).outcome = Outcome.returned e := by
  simp only [RightNowAt, ksyunApiCallNewAt, ksyunApiCallNew, Bool.not_false, Bool.or_true,
    if_true]
  exact real_loop_returns (H d (some client)) [c] 0 none w

theorem beq_inst_unique {α : Type} (i1 i2 : BEq α) (h1 : @LawfulBEq α i1)
    (h2 : @LawfulBEq α i2) : i1 = i2 := by
  cases i1 with
  | mk b1 =>
    cases i2 with
    | mk b2 =>
      congr
      funext x y
      have e1 : b1 x y = true ↔ x = y := @beq_iff_eq α ⟨b1⟩ h1 x y
      have e2 : b2 x y = true ↔ x = y := @beq_iff_eq α ⟨b2⟩ h2 x y
      cases hb1 : b1 x y <;> cases hb2 : b2 x y <;> simp_all

/-- A list whose elements occur no more often than in another is, up to
order, part of it. -/
theorem subperm_of_count_le {α : Type} [DecidableEq α] (i : BEq α) (hi : @LawfulBEq α i)
    (l m : List α) (h : ∀ x, @List.count α i x l ≤ @List.count α i x m) : l.Subperm m := by
  obtain rfl := beq_inst_unique i instBEqOfDecidableEq hi inferInstance
  rw [List.subperm_ext_iff]
  intro x _
  exact h x

theorem perm_of_count_eq {α : Type} [DecidableEq α] (i : BEq α) (hi : @LawfulBEq α i)
    (l m : List α) (h : ∀ x, @List.count α i x l = @List.count α i x m) : l.Perm m := by
  obtain rfl := beq_inst_unique i instBEqOfDecidableEq hi inferInstance
  rw [List.perm_iff_count]
  exact h

/-- Every slice of errors in existence consists, up to order, of results of
distinct completed contract executions and at most one early-stop error. -/
theorem slices_subperm {σ : Type} (s : RunState σ) (h : ValsInv s) :
    ∀ l ∈ slices s, l.Subperm (s.log.map Prod.snd ++ stopList s.main) := by
  intro l hl
  refine subperm_of_count_le _ inferInstance _ _ ?_
  intro x
  have hx := h x l hl
  simp only [List.count_append]
  omega

/-- Once `Run` is past `wg.Wait()`, the completed contract executions are
those of all the queue positions, each once. -/
theorem log_complete {σ : Type} (a : ApiProcess) (s : RunState σ) (hi : IdxInv a s)
    (hr : s.running = []) (hl : s.log.length = a.ApiProcessQueue.length) :
    (s.log.map Prod.fst).Perm (List.range a.ApiProcessQueue.length) := by
  refine perm_of_count_eq _ inferInstance _ _ ?_
  intro x
  have hx := hi.1 x
  simp only [hr, List.map_nil, List.count_nil, List.length_nil, Nat.zero_add, hl] at hx
  exact hx

/-! ## Best-effort aggregation -/

/-- C12, refuted as stated: on a process with limit 1, resource data, a client
and one queued Call, without cancellation, a run in which the Call succeeds
returns the aggregate `[nil]`, which is not empty; and a run in which the Call
fails can return the empty aggregate, the error still being in the channel
when `wg.Wait()` lets `Run` return. -/
theorem best_effort_counterexample :
    (exec demoHooksAt (demoProcess 1 [demoCall none (some 0) none none false])
      (sequentialSched 1)
      (runInit (demoProcess 1 [demoCall none (some 0) none none false]) (demoWorld false)
        false)).main = MainPc.returned [none] ∧
    (exec demoHooksAt (demoProcess 1 [demoCall none (some 0) none none false])
      (sequentialSched 1)
      (runInit (demoProcess 1 [demoCall none (some 0) none none false]) (demoWorld false)
        false)).log = [(0, none)] ∧
    (exec demoHooksAt (demoProcess 1 [demoCall none (some 1) none none false])
      [Choice.main, Choice.main, Choice.main, Choice.main, Choice.run 0, Choice.send 0,
        Choice.done, Choice.release, Choice.main, Choice.main, Choice.main]
      (runInit (demoProcess 1 [demoCall none (some 1) none none false]) (demoWorld false)
        false)).main = MainPc.returned [] ∧
    (exec demoHooksAt (demoProcess 1 [demoCall none (some 1) none none false])
      [Choice.main, Choice.main, Choice.main, Choice.main, Choice.run 0, Choice.send 0,
        Choice.done, Choice.release, Choice.main, Choice.main, Choice.main]
      (runInit (demoProcess 1 [demoCall none (some 1) none none false]) (demoWorld false)
        false)).log = [(0, some ⟨"boom", none⟩)] := by
  decide

/-- C12, amended: take a process made by `NewApiProcess` with a positive limit,
entered in a world from which no run without cancellation makes the program
panic (as is the case when context and client are not nil and the contracts
return).  Whenever `Run` returns from line 203, under any schedule, every
queued Call has been dispatched and has completed its contract exactly once,
whatever the other Calls returned, and the aggregate consists of results, nil
or not, of distinct completed Calls; so it holds at most as many non-nil errors
as Calls failed.  Without cancellation `Run` does return, and from line 203:
under every schedule `Run` returns from no other line, some goroutine can take
a step as long as `Run` has not returned, every step leaves fewer steps to
take, so that a run has at most `12 * M + 5` steps for a queue of `M` Calls,
and the run can be continued until `Run` has returned. -/
theorem best_effort_aggregation {σ : Type} (H : HooksAt σ) (a : ApiProcess) (n : Nat)
    (w : World σ) (hf : Fresh a n) (hn : 0 < n)
    (hsafe : ∀ sched, Choice.cancel ∉ sched →
      (exec H a sched (runInit a w false)).crashed = false) :
    (∀ cancelled sched errs,
      (exec H a sched (runInit a w cancelled)).main = MainPc.returned errs →
      (exec H a sched (runInit a w cancelled)).running = [] ∧
      ((exec H a sched (runInit a w cancelled)).log.map Prod.fst).Perm
        (List.range a.ApiProcessQueue.length) ∧
      errs.Subperm ((exec H a sched (runInit a w cancelled)).log.map Prod.snd) ∧
      (errs.filter (fun x => x.isSome)).length ≤
        (((exec H a sched (runInit a w cancelled)).log.map Prod.snd).filter
          (fun x => x.isSome)).length) ∧
    (∀ sched, Choice.cancel ∉ sched →
      (∀ errs, (exec H a sched (runInit a w false)).main.result = some errs →
        (exec H a sched (runInit a w false)).main = MainPc.returned errs) ∧
      ((exec H a sched (runInit a w false)).main.result = none →
        ∃ c, c ≠ Choice.cancel ∧
          (runStep H a c (exec H a sched (runInit a w false))).isSome = true) ∧
      (∀ c t, c ≠ Choice.cancel →
        runStep H a c (exec H a sched (runInit a w false)) = some t →
        remaining a t < remaining a (exec H a sched (runInit a w false))) ∧
      (Effective H a sched (runInit a w false) →
        sched.length + remaining a (exec H a sched (runInit a w false)) ≤
          12 * a.ApiProcessQueue.length + 5) ∧
      (∃ more errs, Choice.cancel ∉ more ∧
        (exec H a (sched ++ more) (runInit a w false)).main = MainPc.returned errs)) := by
  have hcan : ∀ sched, Choice.cancel ∉ sched →
      (exec H a sched (runInit a w false)).cancelled = false := by
    intro sched hsched
    exact exec_induct_mem H a (fun s => s.cancelled = false) sched (runInit a w false)
      (fun c hc s t hs hstep =>
        (cancelled_step H a c s t (fun h => hsched (h ▸ hc)) hstep).trans hs) rfl
  have hline : ∀ sched, Choice.cancel ∉ sched →
      ∀ errs, (exec H a sched (runInit a w false)).main.result = some errs →
        (exec H a sched (runInit a w false)).main = MainPc.returned errs := by
    intro sched hsched errs hres
    have hstop := stop_exec H a n w false sched hf
    have hc := hcan sched hsched
    cases hm : (exec H a sched (runInit a w false)).main <;>
      simp only [hm, MainPc.result, Option.some.injEq, reduceCtorEq] at hres
    · rename_i e1
      have := hstop.1 (Or.inr (Or.inr (Or.inr ⟨e1, hm⟩)))
      rw [hc] at this
      simp at this
    · rename_i e1
      exact absurd hm (hstop.2.2.2 e1)
    · rw [hres]
  constructor
  · intro cancelled sched errs hret1
    obtain ⟨-, -, h3, h4, h5, -, -⟩ := inv_exec H a n w cancelled sched hf
    simp only [CountInv, hret1] at h3
    have hsub : errs.Subperm
        ((exec H a sched (runInit a w cancelled)).log.map Prod.snd) := by
      have := slices_subperm _ h4 errs (by simp [slices, hret1, MainPc.slices])
      simpa [hret1, stopList] using this
    exact ⟨h3.1, log_complete a _ h5 h3.1 h3.2, hsub, (hsub.filter _).length_le⟩
  · intro sched hsched
    have hinv := inv_exec H a n w false sched hf
    have hcr := hsafe sched hsched
    refine ⟨hline sched hsched, fun hres => run_not_stuck H a n w _ hf hn hinv hcr hres,
      ?_, ?_, ?_⟩
    · intro c t hc ht
      have hmem : Choice.cancel ∉ sched ++ [c] := by
        simp only [List.mem_append, List.mem_singleton, not_or]
        exact ⟨hsched, fun h => hc h.symm⟩
      have hcr1 := hsafe _ hmem
      have hex : exec H a (sched ++ [c]) (runInit a w false) = t := by
        rw [exec_append]
        simp [exec, ht]
      rw [hex] at hcr1
      exact remaining_step H a n c _ t hf hc ht hcr1
    · intro heff
      have hb := effective_bound H a n hf sched (runInit a w false) hsched hsafe heff
      have h0 : remaining a (runInit a w false) = 12 * a.ApiProcessQueue.length + 5 := by
        simp [remaining, runInit, MainPc.weight, CollectorPc.weight, hf.1]
      omega
    · obtain ⟨more, hm1, hm2⟩ := run_completes H a n w hf hn hsafe _ sched hsched
        (Nat.le_refl _)
      have hall : Choice.cancel ∉ sched ++ more := by
        simp only [List.mem_append, not_or]
        exact ⟨hsched, hm1⟩
      cases hres : (exec H a (sched ++ more) (runInit a w false)).main.result with
      | none => exact absurd hres hm2
      | some errs => exact ⟨more, errs, hm1, hline _ hall errs hres⟩

theorem best_effort_aggregation_witness :
    ∃ more errs, Choice.cancel ∉ more ∧
      (exec demoHooksAt (demoProcess 1 [demoCall none (some 1) none none false])
        ([Choice.main, Choice.main] ++ more)
        (runInit (demoProcess 1 [demoCall none (some 1) none none false]) (demoWorld false)
          false)).main = MainPc.returned errs :=
  ((best_effort_aggregation demoHooksAt
    (demoProcess 1 [demoCall none (some 1) none none false]) 1 (demoWorld false)
    ⟨rfl, rfl, rfl, rfl, rfl⟩ (by decide)
    (fun sched _ => run_no_panic demoHooksAt
      (demoProcess 1 [demoCall none (some 1) none none false]) 1 0 (demoWorld false) false
      ⟨rfl, rfl, rfl, rfl, rfl⟩ rfl
      (fun c _ v => rightNowAt_real_returns demoHooksAt c (some 1) 2 v) sched)).2
    [Choice.main, Choice.main] (by decide)).2.2.2.2

/-! ## The same contract in both runners -/

/-- In a chain of runs of the sequential runner on singleton lists, each run
starts in the world the runs before it have left and gives the result recorded
for it. -/
theorem runSingletons_split {σ : Type} (H : HooksAt σ) (a : ApiProcess) :
    ∀ (ks : List Nat) (w0 wf : World σ) (L : List (Nat × Option Err)),
      runSingletons H a ks w0 = some (L, wf) →
      ∀ pre p post, L = pre ++ p :: post →
      ∃ call w1, runSingletons H a (pre.map Prod.fst) w0 = some (pre, w1) ∧
        a.ApiProcessQueue[p.1]? = some call ∧
        (ksyunApiCallNewAt H [call] a.d a.client a.DryRun w1).outcome =
          Outcome.returned p.2 := by
  intro ks
  induction ks with
  | nil =>
    intro w0 wf L h pre p post hL
    simp only [runSingletons, Option.some.injEq, Prod.mk.injEq] at h
    rw [← h.1] at hL
    simp at hL
  | cons k ks ih =>
    intro w0 wf L h pre p post hL
    simp only [runSingletons] at h
    cases hq : a.ApiProcessQueue[k]? with
    | none => simp [hq] at h
    | some call0 =>
      simp only [hq] at h
      cases ho : (ksyunApiCallNewAt H [call0] a.d a.client a.DryRun w0).outcome with
      | panicked => simp [ho] at h
      | returned e =>
        simp only [ho] at h
        cases hr : runSingletons H a ks
            (ksyunApiCallNewAt H [call0] a.d a.client a.DryRun w0).world with
        | none => simp [hr] at h
        | some r =>
          obtain ⟨L1, w2⟩ := r
          simp only [hr, Option.map_some', Option.some.injEq, Prod.mk.injEq] at h
          obtain ⟨hL1, hw⟩ := h
          rw [← hL1] at hL
          cases pre with
          | nil =>
            simp only [List.nil_append, List.cons.injEq] at hL
            obtain ⟨hp, -⟩ := hL
            subst hp
            exact ⟨call0, w0, by simp [runSingletons], hq, ho⟩
          | cons q pre1 =>
            simp only [List.cons_append, List.cons.injEq] at hL
            obtain ⟨hq1, hL2⟩ := hL
            subst hq1
            obtain ⟨call, w1, h1, h2, h3⟩ := ih _ w2 L1 hr pre1 p post hL2
            refine ⟨call, w1, ?_, h2, h3⟩
            simp [runSingletons, hq, ho, h1]

/-- The workers started so far are no more than the queued Calls. -/
theorem dispatched_le {σ : Type} (a : ApiProcess) (s : RunState σ) (h : CountInv a s) :
    s.running.length + s.log.length ≤ a.ApiProcessQueue.length := by
  unfold CountInv at h
  split at h <;> first | omega | (simp [h.1, h.2])

/-- C16: on a process made by `NewApiProcess`, under every schedule, the
contract executions that the workers of `Run` have completed are runs of the
sequential runner `ksyunApiCallNew` on the singleton lists of queued Calls,
with the pointers `d` and `client` and the flag `DryRun` of the process, one
run after the other from the world in which `Run` was entered, and they leave
the current world; the result recorded for a Call is what that run of
`ksyunApiCallNew`, started in the world the earlier runs have left, returns; no
queue position is run twice; and `a.errors`, as well as the slice `Run`
returns, consists, up to order, of results of distinct such runs and at most
one early-stop error. -/
theorem same_contract {σ : Type} (H : HooksAt σ) (a : ApiProcess) (n : Nat) (w : World σ)
    (cancelled : Bool) (sched : List Choice) (hf : Fresh a n) :
    (∃ w1, runSingletons H a ((exec H a sched (runInit a w cancelled)).log.map Prod.fst) w =
        some ((exec H a sched (runInit a w cancelled)).log, w1) ∧
      ((exec H a sched (runInit a w cancelled)).crashed = false →
        (exec H a sched (runInit a w cancelled)).world = w1)) ∧
    (∀ pre p post, (exec H a sched (runInit a w cancelled)).log = pre ++ p :: post →
      ∃ call w1, runSingletons H a (pre.map Prod.fst) w = some (pre, w1) ∧
        a.ApiProcessQueue[p.1]? = some call ∧
        (ksyunApiCallNewAt H [call] a.d a.client a.DryRun w1).outcome =
          Outcome.returned p.2) ∧
    ((exec H a sched (runInit a w cancelled)).log.map Prod.fst).Nodup ∧
    (∀ k ∈ (exec H a sched (runInit a w cancelled)).log.map Prod.fst,
      k < a.ApiProcessQueue.length) ∧
    (exec H a sched (runInit a w cancelled)).errors.Subperm
      ((exec H a sched (runInit a w cancelled)).log.map Prod.snd ++
        stopList (exec H a sched (runInit a w cancelled)).main) ∧
    (∀ errs, (exec H a sched (runInit a w cancelled)).main.result = some errs →
      errs.Subperm ((exec H a sched (runInit a w cancelled)).log.map Prod.snd ++
        stopList (exec H a sched (runInit a w cancelled)).main)) := by
  obtain ⟨-, -, h3, h4, h5, h6, -⟩ := inv_exec H a n w cancelled sched hf
  have hcount : ∀ x, ((exec H a sched (runInit a w cancelled)).log.map Prod.fst).count x ≤
      (List.range ((exec H a sched (runInit a w cancelled)).running.length +
        (exec H a sched (runInit a w cancelled)).log.length)).count x := by
    intro x
    have := h5.1 x
    omega
  refine ⟨h6, ?_, ?_, ?_, ?_, ?_⟩
  · intro pre p post hlog
    obtain ⟨w1, hw1, -⟩ := h6
    exact runSingletons_split H a _ w w1 _ hw1 pre p post hlog
  · rw [List.nodup_iff_count_le_one]
    intro x
    have h1 := hcount x
    have h2 := List.nodup_iff_count_le_one.mp (List.nodup_range
      ((exec H a sched (runInit a w cancelled)).running.length +
        (exec H a sched (runInit a w cancelled)).log.length)) x
    omega
  · intro k hk
    have h1 := hcount k
    have h2 := List.count_pos_iff.mpr hk
    have h3' : k ∈ List.range ((exec H a sched (runInit a w cancelled)).running.length +
        (exec H a sched (runInit a w cancelled)).log.length) :=
      List.count_pos_iff.mp (by omega)
    have := dispatched_le a _ h3
    rw [List.mem_range] at h3'
    omega
  · exact slices_subperm _ h4 _ (by simp [slices])
  · intro errs hres
    refine slices_subperm _ h4 _ ?_
    cases hm : (exec H a sched (runInit a w cancelled)).main <;>
      simp only [hm, MainPc.result, Option.some.injEq, reduceCtorEq] at hres <;>
      subst hres <;> simp [slices, MainPc.slices, hm]

theorem same_contract_witness :
    ∃ call w1,
      runSingletons demoHooksAt (demoProcess 1 [demoCall none (some 1) none none false])
        (([] : List (Nat × Option Err)).map Prod.fst) (demoWorld false) = some ([], w1) ∧
      (demoProcess 1 [demoCall none (some 1) none none false]).ApiProcessQueue[0]? =
        some call ∧
      (ksyunApiCallNewAt demoHooksAt [call]
        (demoProcess 1 [demoCall none (some 1) none none false]).d
        (demoProcess 1 [demoCall none (some 1) none none false]).client
        (demoProcess 1 [demoCall none (some 1) none none false]).DryRun w1).outcome =
        Outcome.returned (some ⟨"boom", none⟩) :=
  (same_contract demoHooksAt (demoProcess 1 [demoCall none (some 1) none none false]) 1
    (demoWorld false) false roundSched ⟨rfl, rfl, rfl, rfl, rfl⟩).2.1
    [] (0, some ⟨"boom", none⟩) [] (by decide)

/-! ## Cancellation -/

/-- Once `Run` is past the `select` case of line 183 it stays at lines 184-185
or returned from there, and no worker is started: a worker can only pass from
running to completed. -/
theorem stopping_step {σ : Type} (H : HooksAt σ) (a : ApiProcess) (m : Nat) (c : Choice)
    (s t : RunState σ)
    (h : s.main.stopping = true ∧ s.running.length + s.log.length = m)
    (hs : runStep H a c s = some t) :
    t.main.stopping = true ∧ t.running.length + t.log.length = m := by
  obtain ⟨h1, h2⟩ := h
  unfold runStep at hs
  split at hs
  · simp at hs
  · cases c with
    | run j =>
      simp only [stepRun] at hs
      split at hs
      · simp at hs
      · rename_i k call hget
        have hl := eraseIdx_length_of_get _ _ _ hget
        split at hs <;> simp only [Option.some.injEq] at hs <;> subst hs
        · exact ⟨h1, h2⟩
        · refine ⟨h1, ?_⟩
          simp only [List.length_append, List.length_cons, List.length_nil]
          omega
    | _ =>
      simp only [stepMain, stepCtxDone, stepEarlyStop, stepSend, stepDone, stepRelease,
        stepCollect, stepCancel] at hs
      cases hm : s.main <;> simp only [hm, MainPc.stopping, reduceCtorEq] at hs h1 <;>
        (repeat' split at hs) <;> simp only [Option.some.injEq, reduceCtorEq] at hs <;>
        (try subst hs) <;> exact ⟨rfl, h2⟩

/-- While the collector takes no step, lines 184-185 append the early-stop
error to the slice `errs` that `a.errors` held and return the result. -/
theorem quiet_stop_step {σ : Type} (H : HooksAt σ) (a : ApiProcess)
    (errs : List (Option Err)) (c : Choice) (s t : RunState σ) (hc : c ≠ Choice.collect)
    (h : (s.main = MainPc.stopAppend ∧ s.errors = errs) ∨
      (s.main = MainPc.stopAssign (errs ++ [some stopError]) ∧ s.errors = errs) ∨
      (s.main = MainPc.stopReturn ∧ s.errors = errs ++ [some stopError]) ∨
      (s.main = MainPc.stopped (errs ++ [some stopError]) ∧
        s.errors = errs ++ [some stopError]))
    (hs : runStep H a c s = some t) :
    (t.main = MainPc.stopAppend ∧ t.errors = errs) ∨
      (t.main = MainPc.stopAssign (errs ++ [some stopError]) ∧ t.errors = errs) ∨
      (t.main = MainPc.stopReturn ∧ t.errors = errs ++ [some stopError]) ∨
      (t.main = MainPc.stopped (errs ++ [some stopError]) ∧
        t.errors = errs ++ [some stopError]) := by
  unfold runStep at hs
  split at hs
  · simp at hs
  · cases c with
    | collect => exact absurd rfl hc
    | main =>
      simp only [stepMain] at hs
      rcases h with ⟨hm, he⟩ | ⟨hm, he⟩ | ⟨hm, he⟩ | ⟨hm, he⟩ <;>
        simp only [hm, Option.some.injEq, reduceCtorEq] at hs <;> subst hs <;> simp [he]
    | run j =>
      simp only [stepRun] at hs
      (repeat' split at hs) <;> simp only [Option.some.injEq, reduceCtorEq] at hs <;>
        (try subst hs) <;> exact h
    | _ =>
      simp only [stepCtxDone, stepEarlyStop, stepSend, stepDone, stepRelease,
        stepCancel] at hs
      rcases h with ⟨hm, he⟩ | ⟨hm, he⟩ | ⟨hm, he⟩ | ⟨hm, he⟩ <;>
        simp only [hm] at hs <;>
        (repeat' split at hs) <;> simp only [Option.some.injEq, reduceCtorEq] at hs <;>
        (try subst hs) <;> simp [hm, he]

/-- The step of a worker, of the collector or of the owner of the context does
not depend on where the goroutine running `Run` stands. -/
theorem step_stopNow {σ : Type} (H : HooksAt σ) (a : ApiProcess) (c : Choice) (s : RunState σ)
    (h1 : c ≠ Choice.main) (h2 : c ≠ Choice.ctxDone) (h3 : c ≠ Choice.earlyStop) :
    runStep H a c (stopNow s) = (runStep H a c s).map stopNow := by
  cases hcr : s.crashed with
  | true => simp [runStep, stopNow, hcr]
  | false =>
    cases c with
    | main => exact absurd rfl h1
    | ctxDone => exact absurd rfl h2
    | earlyStop => exact absurd rfl h3
    | run j =>
      simp only [runStep, stepRun, stopNow, hcr, Bool.false_eq_true, if_false]
      cases s.running[j]? with
      | none => rfl
      | some p =>
        obtain ⟨k, call⟩ := p
        simp only []
        cases (RightNowAt H call a.d a.client a.DryRun s.world).outcome <;> rfl
    | send j =>
      simp only [runStep, stepSend, stopNow, hcr, Bool.false_eq_true, if_false]
      cases s.sending[j]? with
      | none => rfl
      | some e =>
        cases a.errCh with
        | none => rfl
        | some ch =>
          simp only []
          by_cases h0 : ch.cap = 0
          · simp only [h0, if_true]
            cases s.collector <;> rfl
          · by_cases h5 : s.errCh.length < ch.cap <;> simp [h0, h5, stopNow]
    | done =>
      simp only [runStep, stepDone, stopNow, hcr, Bool.false_eq_true, if_false]
      by_cases h0 : 0 < s.finishing <;> by_cases h5 : s.wg = 0 <;> simp [h0, h5, stopNow]
    | release =>
      simp only [runStep, stepRelease, stopNow, hcr, Bool.false_eq_true, if_false]
      cases a.concurrentCh with
      | none => rfl
      | some ch =>
        simp only []
        by_cases h0 : ch.cap = 0
        · simp [h0]
        · by_cases h5 : 0 < s.releasing ∧ 0 < s.slots <;> simp [h0, h5, stopNow]
    | collect =>
      simp only [runStep, stepCollect, stopNow, hcr, Bool.false_eq_true, if_false]
      cases s.collector with
      | receive => cases s.errCh <;> rfl
      | append e => rfl
      | assign l => rfl
    | cancel =>
      simp only [runStep, stepCancel, stopNow, hcr, Bool.false_eq_true, if_false]
      cases a.Ctx <;> rfl

/-- C13: let `Run` be at the `select` for a queued Call (position `k`) with the
context cancelled, on a process whose context is not nil and whose early-stop
channel is nil.  Then the goroutine running `Run` can do one thing only: take
the case `<-a.Ctx.Done()`.  Whatever happens afterwards, `Run` stays at lines
184-185 or returned from there and no further Call is dispatched, while the
workers already started, and the collector, take their steps exactly as
before.  The goroutine running `Run` is never blocked in lines 184-185; taken
on their own, these lines return the errors collected so far plus the error
"stop api call early", and so they do under every schedule in which the
collector takes no step meanwhile.  But the goroutine of line 174
writes `a.errors` without synchronisation: in the run `raceSched` of a process
with two queued Calls, the first of which fails, the context is cancelled when
`Run` is about to dispatch the second Call, and the slice that `Run` returns
holds the error of the first Call and no early-stop error. -/
theorem cancellation_at_dispatch {σ : Type} (H : HooksAt σ) (a : ApiProcess) (s : RunState σ)
    (k ctx : Nat) (call : ApiCall)
    (hq : a.ApiProcessQueue[k]? = some call) (hctx : a.Ctx = some ctx)
    (hpc : s.main = MainPc.select k) (hc : s.cancelled = true)
    (hes : s.earlyStop = none) (hnc : s.crashed = false) :
    runStep H a Choice.main s = none ∧ runStep H a Choice.earlyStop s = none ∧
    runStep H a Choice.ctxDone s = some (stopNow s) ∧
    (∀ sched,
      (exec H a sched (stopNow s)).main.stopping = true ∧
      (exec H a sched (stopNow s)).running.length + (exec H a sched (stopNow s)).log.length =
        s.running.length + s.log.length) ∧
    (∀ c, c ≠ Choice.main → c ≠ Choice.ctxDone → c ≠ Choice.earlyStop →
      runStep H a c (stopNow s) = (runStep H a c s).map stopNow) ∧
    (∀ sched, (exec H a sched (stopNow s)).crashed = false →
      (exec H a sched (stopNow s)).main.result = none →
      (runStep H a Choice.main (exec H a sched (stopNow s))).isSome = true) ∧
    (exec H a [Choice.main, Choice.main, Choice.main] (stopNow s)).main =
      MainPc.stopped (s.errors ++ [some stopError]) ∧
    (∀ sched, Choice.collect ∉ sched → ∀ errs,
      (exec H a sched (stopNow s)).main = MainPc.stopped errs →
      errs = s.errors ++ [some stopError]) ∧
    ((exec demoHooksAt
        (demoProcess 1 [demoCall none (some 1) none none false,
          demoCall none (some 0) none none false]) (raceSched.take 9)
        (runInit (demoProcess 1 [demoCall none (some 1) none none false,
          demoCall none (some 0) none none false]) (demoWorld false) false)).main =
        MainPc.select 1 ∧
      (exec demoHooksAt
        (demoProcess 1 [demoCall none (some 1) none none false,
          demoCall none (some 0) none none false]) (raceSched.take 9)
        (runInit (demoProcess 1 [demoCall none (some 1) none none false,
          demoCall none (some 0) none none false]) (demoWorld false) false)).cancelled =
        true ∧
      (exec demoHooksAt
        (demoProcess 1 [demoCall none (some 1) none none false,
          demoCall none (some 0) none none false]) raceSched
        (runInit (demoProcess 1 [demoCall none (some 1) none none false,
          demoCall none (some 0) none none false]) (demoWorld false) false)).main =
        MainPc.stopped [some ⟨"boom", none⟩] ∧
      some stopError ∉ [some (⟨"boom", none⟩ : Err)]) := by
  have hstay : ∀ sched,
      (exec H a sched (stopNow s)).main.stopping = true ∧
      (exec H a sched (stopNow s)).running.length + (exec H a sched (stopNow s)).log.length =
        s.running.length + s.log.length := by
    intro sched
    exact exec_induct H a
      (fun t => t.main.stopping = true ∧
        t.running.length + t.log.length = s.running.length + s.log.length)
      (fun c u t h hs => stopping_step H a _ c u t h hs) sched _ ⟨rfl, rfl⟩
  refine ⟨?_, ?_, ?_, hstay, ?_, ?_, ?_, ?_, ?_⟩
  · simp [runStep, hnc, stepMain, hpc, hq, hctx, hc]
  · simp [runStep, hnc, stepEarlyStop, hpc, hq, hctx, hes]
  · simp [runStep, hnc, stepCtxDone, hpc, hq, hctx, hc, stopNow]
  · intro c h1 h2 h3
    exact step_stopNow H a c s h1 h2 h3
  · intro sched hcr hres
    have hst := (hstay sched).1
    cases hm : (exec H a sched (stopNow s)).main <;>
      simp [hm, MainPc.stopping, MainPc.result] at hst hres <;>
      simp [runStep, hcr, stepMain, hm]
  · simp [exec, runStep, stepMain, stopNow, hnc]
  · intro sched hsched errs hret
    have h := exec_induct_mem H a
      (fun t => (t.main = MainPc.stopAppend ∧ t.errors = s.errors) ∨
        (t.main = MainPc.stopAssign (s.errors ++ [some stopError]) ∧ t.errors = s.errors) ∨
        (t.main = MainPc.stopReturn ∧ t.errors = s.errors ++ [some stopError]) ∨
        (t.main = MainPc.stopped (s.errors ++ [some stopError]) ∧
          t.errors = s.errors ++ [some stopError])) sched (stopNow s)
      (fun c hc u t hu hstep =>
        quiet_stop_step H a s.errors c u t (fun h => hsched (h ▸ hc)) hu hstep)
      (Or.inl ⟨rfl, rfl⟩)
    simp only [hret, reduceCtorEq, false_and, false_or, MainPc.stopped.injEq] at h
    exact h.1
  · decide

theorem cancellation_at_dispatch_witness :
    (exec demoHooksAt
      (demoProcess 1 [demoCall none (some 1) none none false,
        demoCall none (some 0) none none false])
      [Choice.main, Choice.main, Choice.main]
      (stopNow (exec demoHooksAt
        (demoProcess 1 [demoCall none (some 1) none none false,
          demoCall none (some 0) none none false]) (raceSched.take 9)
        (runInit (demoProcess 1 [demoCall none (some 1) none none false,
          demoCall none (some 0) none none false]) (demoWorld false) false)))).main =
    MainPc.stopped
      ((exec demoHooksAt
        (demoProcess 1 [demoCall none (some 1) none none false,
          demoCall none (some 0) none none false]) (raceSched.take 9)
        (runInit (demoProcess 1 [demoCall none (some 1) none none false,
          demoCall none (some 0) none none false]) (demoWorld false) false)).errors ++
        [some stopError]) :=
  (cancellation_at_dispatch demoHooksAt
    (demoProcess 1 [demoCall none (some 1) none none false,
      demoCall none (some 0) none none false])
    (exec demoHooksAt
      (demoProcess 1 [demoCall none (some 1) none none false,
        demoCall none (some 0) none none false]) (raceSched.take 9)
      (runInit (demoProcess 1 [demoCall none (some 1) none none false,
        demoCall none (some 0) none none false]) (demoWorld false) false))
    1 0 (demoCall none (some 0) none none false) rfl rfl (by decide) (by decide) (by decide)
    (by decide)).2.2.2.2.2.2.1

/-! ## The early-stop channel -/

/-- Line 185 is reached only through the assignment of line 184, which leaves
in `a.errors` the slice it had evaluated. -/
theorem stop_origin {σ : Type} (H : HooksAt σ) (a : ApiProcess) (c : Choice)
    (s t : RunState σ) (hs : runStep H a c s = some t)
    (ht : t.main = MainPc.stopReturn ∨ ∃ errs, t.main = MainPc.stopped errs) :
    (s.main = MainPc.stopReturn ∨ ∃ errs, s.main = MainPc.stopped errs) ∨
      ∃ errs, s.main = MainPc.stopAssign errs ∧ t.main = MainPc.stopReturn ∧
        t.errors = errs := by
  unfold runStep at hs
  split at hs
  · simp at hs
  · cases c <;>
      simp only [stepMain, stepCtxDone, stepEarlyStop, stepRun, stepSend, stepDone,
        stepRelease, stepCollect, stepCancel] at hs <;>
      cases hm : s.main <;> simp only [hm] at hs <;>
      (repeat' split at hs) <;> simp only [Option.some.injEq, reduceCtorEq] at hs <;>
      (try subst hs) <;> simp_all

theorem exec_snoc {σ : Type} (H : HooksAt σ) (a : ApiProcess) (l : List Choice) (c : Choice)
    (s : RunState σ) :
    exec H a (l ++ [c]) s = (runStep H a c (exec H a l s)).getD (exec H a l s) := by
  rw [exec_append]
  rfl

/-- When `Run` is at line 185 or has returned from there, it has been at line
185 with `a.errors` ending with the early-stop error. -/
theorem stop_history {σ : Type} (H : HooksAt σ) (a : ApiProcess) (n : Nat) (w : World σ)
    (cancelled : Bool) (hf : Fresh a n) :
    ∀ sched : List Choice,
      ((exec H a sched (runInit a w cancelled)).main = MainPc.stopReturn ∨
        ∃ errs, (exec H a sched (runInit a w cancelled)).main = MainPc.stopped errs) →
      ∃ pre, pre <+: sched ∧ (exec H a pre (runInit a w cancelled)).main = MainPc.stopReturn ∧
        (exec H a pre (runInit a w cancelled)).errors.getLast? = some (some stopError) := by
  intro sched
  induction sched using List.reverseRecOn with
  | nil =>
    intro h
    simp [exec, runInit] at h
  | append_singleton l c ih =>
    intro h
    rw [exec_snoc] at h
    cases hstep : runStep H a c (exec H a l (runInit a w cancelled)) with
    | none =>
      simp only [hstep, Option.getD_none] at h
      obtain ⟨pre, hp, h1, h2⟩ := ih h
      exact ⟨pre, hp.trans (List.prefix_append _ _), h1, h2⟩
    | some t =>
      simp only [hstep, Option.getD_some] at h
      rcases stop_origin H a c _ t hstep h with h0 | ⟨errs, h1, h2, h3⟩
      · obtain ⟨pre, hp, h1, h2⟩ := ih h0
        exact ⟨pre, hp.trans (List.prefix_append _ _), h1, h2⟩
      · have hstop := (stop_exec H a n w cancelled l hf).2.1 errs h1
        refine ⟨l ++ [c], List.prefix_refl _, ?_, ?_⟩
        · rw [exec_snoc, hstep]
          exact h2
        · rw [exec_snoc, hstep]
          simp only [Option.getD_some]
          rw [h3]
          exact hstop

/-- C24, refuted as stated.  On a process made with limit 0, with one queued
Call and no cancellation, `Run` stands at the send of line 192 having started
no worker, and no goroutine can take a step.  And on a process with limit 1
and two queued Calls that succeed, in the run `raceSched`, `Run` returns after
cancellation a slice that holds the nil result of the first Call and no
early-stop error. -/
theorem early_stop_counterexample :
    ((exec demoHooksAt (demoProcess 0 [demoCall none (some 0) none none false])
        [Choice.main, Choice.main]
        (runInit (demoProcess 0 [demoCall none (some 0) none none false]) (demoWorld false)
          false)).main = MainPc.acquire 0 ∧
      (exec demoHooksAt (demoProcess 0 [demoCall none (some 0) none none false])
        [Choice.main, Choice.main]
        (runInit (demoProcess 0 [demoCall none (some 0) none none false]) (demoWorld false)
          false)).cancelled = false ∧
      (exec demoHooksAt (demoProcess 0 [demoCall none (some 0) none none false])
        [Choice.main, Choice.main]
        (runInit (demoProcess 0 [demoCall none (some 0) none none false]) (demoWorld false)
          false)).running = [] ∧
      (exec demoHooksAt (demoProcess 0 [demoCall none (some 0) none none false])
        [Choice.main, Choice.main]
        (runInit (demoProcess 0 [demoCall none (some 0) none none false]) (demoWorld false)
          false)).log = [] ∧
      (exec demoHooksAt (demoProcess 0 [demoCall none (some 0) none none false])
        [Choice.main, Choice.main]
        (runInit (demoProcess 0 [demoCall none (some 0) none none false]) (demoWorld false)
          false)).crashed = false ∧
      ∀ c ∈ [Choice.main, Choice.ctxDone, Choice.earlyStop, Choice.run 0, Choice.send 0,
          Choice.done, Choice.release, Choice.collect],
        runStep demoHooksAt (demoProcess 0 [demoCall none (some 0) none none false]) c
          (exec demoHooksAt (demoProcess 0 [demoCall none (some 0) none none false])
            [Choice.main, Choice.main]
            (runInit (demoProcess 0 [demoCall none (some 0) none none false])
              (demoWorld false) false)) = none) ∧
    ((exec demoHooksAt
        (demoProcess 1 [demoCall none (some 0) none none false,
          demoCall none (some 0) none none false]) raceSched
        (runInit (demoProcess 1 [demoCall none (some 0) none none false,
          demoCall none (some 0) none none false]) (demoWorld false) false)).main =
        MainPc.stopped [none] ∧
      some stopError ∉ [(none : Option Err)] ∧
      (exec demoHooksAt
        (demoProcess 1 [demoCall none (some 0) none none false,
          demoCall none (some 0) none none false]) raceSched
        (runInit (demoProcess 1 [demoCall none (some 0) none none false,
          demoCall none (some 0) none none false]) (demoWorld false) false)).log.length <
        (demoProcess 1 [demoCall none (some 0) none none false,
          demoCall none (some 0) none none false]).ApiProcessQueue.length) := by
  refine ⟨⟨by decide, by decide, by decide, by decide, by decide, ?_⟩, by decide, by decide,
    by decide⟩
  intro c hc
  simp only [List.mem_cons, List.mem_singleton, List.not_mem_nil, or_false] at hc
  rcases hc with rfl | rfl | rfl | rfl | rfl | rfl | rfl | rfl <;> rfl

/-- C24, amended: a process returned by `NewApiProcess` has a nil early-stop
channel.  On such a process, with any queue, in every state a run of `Run`
can reach: the early-stop channel is still nil, the `select` case
`<-a.earlyStop` is not enabled, and `Run` is neither at line 187 nor returned
from it; if `Run` has returned with fewer workers started than Calls queued,
it returned from line 185, the context is cancelled, and `Run` had reached
line 185 with `a.errors` ending with the error "stop api call early", which
line 184 had appended.  With a positive limit `Run` is never stuck short of
returning, unless the program has panicked. -/
theorem early_stop_never_armed {σ : Type} (H : HooksAt σ) :
    (∀ ctx d client dryRun goRoutineNum,
      (NewApiProcess ctx d client dryRun goRoutineNum).earlyStop = none) ∧
    (∀ (a : ApiProcess) (n : Nat) (w : World σ) (cancelled : Bool) (sched : List Choice),
      Fresh a n →
      (exec H a sched (runInit a w cancelled)).earlyStop = none ∧
      runStep H a Choice.earlyStop (exec H a sched (runInit a w cancelled)) = none ∧
      (exec H a sched (runInit a w cancelled)).main ≠ MainPc.earlyReturn ∧
      (∀ errs, (exec H a sched (runInit a w cancelled)).main ≠ MainPc.earlyStopped errs) ∧
      (∀ errs, (exec H a sched (runInit a w cancelled)).main.result = some errs →
        (exec H a sched (runInit a w cancelled)).running.length +
          (exec H a sched (runInit a w cancelled)).log.length < a.ApiProcessQueue.length →
        (exec H a sched (runInit a w cancelled)).main = MainPc.stopped errs ∧
        (exec H a sched (runInit a w cancelled)).cancelled = true ∧
        ∃ pre, pre <+: sched ∧
          (exec H a pre (runInit a w cancelled)).main = MainPc.stopReturn ∧
          (exec H a pre (runInit a w cancelled)).errors.getLast? = some (some stopError)) ∧
      (0 < n → (exec H a sched (runInit a w cancelled)).crashed = false →
        (exec H a sched (runInit a w cancelled)).main.result = none →
        ∃ c, c ≠ Choice.cancel ∧
          (runStep H a c (exec H a sched (runInit a w cancelled))).isSome = true)) := by
  refine ⟨fun _ _ _ _ _ => rfl, ?_⟩
  intro a n w cancelled sched hf
  have hinv := inv_exec H a n w cancelled sched hf
  have hes := hinv.2.2.2.2.2.2
  obtain ⟨hs1, hs2, hs3, hs4⟩ := stop_exec H a n w cancelled sched hf
  refine ⟨hes, ?_, hs3, hs4, ?_, fun hn hnc hres => run_not_stuck H a n w _ hf hn hinv hnc hres⟩
  · unfold runStep
    split
    · rfl
    · simp only [stepEarlyStop, hes]
      split
      · split <;> simp_all
      · rfl
  · intro errs hres hlt
    have hcount := hinv.2.2.1
    cases hm : (exec H a sched (runInit a w cancelled)).main <;>
      simp only [hm, MainPc.result, Option.some.injEq, reduceCtorEq] at hres
    · rename_i e1
      subst hres
      exact ⟨rfl, hs1 (Or.inr (Or.inr (Or.inr ⟨e1, hm⟩))),
        stop_history H a n w cancelled hf sched (Or.inr ⟨e1, hm⟩)⟩
    · rename_i e1
      exact absurd hm (hs4 e1)
    · simp only [CountInv, hm] at hcount
      simp only [hcount.1, hcount.2, List.length_nil] at hlt
      omega

theorem early_stop_never_armed_witness :
    (exec demoHooksAt
      (demoProcess 1 [demoCall none (some 0) none none false,
        demoCall none (some 0) none none false]) raceSched
      (runInit (demoProcess 1 [demoCall none (some 0) none none false,
        demoCall none (some 0) none none false]) (demoWorld false) false)).main =
      MainPc.stopped [none] ∧
    (exec demoHooksAt
      (demoProcess 1 [demoCall none (some 0) none none false,
        demoCall none (some 0) none none false]) raceSched
      (runInit (demoProcess 1 [demoCall none (some 0) none none false,
        demoCall none (some 0) none none false]) (demoWorld false) false)).cancelled = true ∧
    ∃ pre, pre <+: raceSched ∧
      (exec demoHooksAt
        (demoProcess 1 [demoCall none (some 0) none none false,
          demoCall none (some 0) none none false]) pre
        (runInit (demoProcess 1 [demoCall none (some 0) none none false,
          demoCall none (some 0) none none false]) (demoWorld false) false)).main =
        MainPc.stopReturn ∧
      (exec demoHooksAt
        (demoProcess 1 [demoCall none (some 0) none none false,
          demoCall none (some 0) none none false]) pre
        (runInit (demoProcess 1 [demoCall none (some 0) none none false,
          demoCall none (some 0) none none false]) (demoWorld false) false)).errors.getLast? =
        some (some stopError) :=
  ((early_stop_never_armed demoHooksAt).2
    (demoProcess 1 [demoCall none (some 0) none none false,
      demoCall none (some 0) none none false]) 1 (demoWorld false) false raceSched
    ⟨rfl, rfl, rfl, rfl, rfl⟩).2.2.2.2.1 [none] (by decide) (by decide)

end Ksyun
